import Mathlib

/-!
A verification development for a segmented, append-only key-value store
written in Go (package `datastore`).  The development shallowly embeds

* the record codec (`record.Encode`, `record.Decode`,
  `record.DecodeFromReader` from the codec source file), and
* the store engine (`Db` with `open`, `put`, `get`, `Size`,
  `rotateSegmentLocked`, `compact`, `getNewSegments`, `loadSegments`,
  `rebuildIndexLocked`, `getIndexFromPath` from `db.go`)

into executable Lean functions and proves the specified properties about
them.

Modelling conventions, fixed once here:

* Go byte strings are `List Nat`; every byte the codec writes is reduced
  modulo 256.  Machine integers are `Nat` / `Int` with explicit reductions
  (`% 2^32` for the `uint32` header fields, two's complement modulo `2^64`
  for `int64` values).
* Fallible Go functions return `Except DErr`; error messages are mapped to
  an error enumeration, with the distinction that matters to the spec
  (`io.EOF` versus everything else) kept as `DErr.endOfInput`.
* `bufio.Reader` is modelled twice.  `decodeFromReader` idealizes the
  reader as one whose buffer always holds the whole remaining input:
  `Peek(4)` fails with `io.EOF` exactly when fewer than 4 bytes remain,
  and `Read(buf)` returns `min (len buf) remaining` bytes with a nil
  error.  This agrees with the Go code exactly on inputs of at most one
  buffer fill (4096 bytes).  The faithful model keeps the 4096-byte
  buffer: `decodeFromReaderBuf` (one frame at the start of a stream),
  `decodeFromReaderSt` and `scanGoSt` (mid-scan reader state), and the
  `..Buf` copies of the engine operations built on them.  A single `Read`
  returns at most one buffer fill, so frames longer than 4096 bytes are
  zero-padded and mis-read; the two models are proved to agree on inputs
  of at most one fill, and their divergence beyond it is what the C2, C3
  and C4 analyses exhibit.
* Go maps are modelled as functions (`Key → Option _`) when only lookup
  and update are needed, and as association lists where iteration order
  matters.  Where the Go code ranges over a map (whose iteration order is
  unspecified), the model iterates in one fixed order and no theorem
  depends on the order chosen.
* The wall clock (`time.Now().UnixNano()`) is an oracle `sup : Nat → Int`
  together with a cursor in the engine state; theorems that need clock
  monotonicity take it as an explicit hypothesis.
* File-system directories are association lists from file names to
  contents.  Only the shapes of names the engine cares about are modelled:
  `segment-<digits>` (constructor `FileName.seg` with the parsed timestamp)
  and the compaction scratch file `segment-tmp` (constructor
  `FileName.tmp`).
-/

namespace Lab5

/-! ## Bytes and little-endian integers -/

/-- Byte strings: Go `[]byte` / `string` values. -/
abbrev Bytes := List Nat

/-- Keys are Go strings, i.e. byte strings. -/
abbrev Key := List Nat

/-- Little-endian encoding of `n` into `w` bytes, low byte first
(`binary.Write` with `binary.LittleEndian`). -/
def bytesLE : Nat → Nat → Bytes
  | 0, _ => []
  | w + 1, n => n % 256 :: bytesLE w (n / 256)

/-- Little-endian read of the first `w` bytes of a buffer; missing bytes
read as 0, matching a zero-filled Go buffer. -/
def readLE : Nat → Bytes → Nat
  | 0, _ => 0
  | _ + 1, [] => 0
  | w + 1, b :: bs => b + 256 * readLE w bs

/-- Read a `uint32` at byte offset `i` (`binary.LittleEndian.Uint32`). -/
def readU32 (bs : Bytes) (i : Nat) : Nat := readLE 4 (bs.drop i)

/-! ## The error enumeration

Go reports errors as wrapped strings; the model keeps one constructor per
distinct failure the specification talks about.  `endOfInput` stands for
`io.EOF`; every other constructor is a non-EOF error. -/

inductive DErr where
  /-- `io.EOF`. -/
  | endOfInput
  /-- `Decode`: input shorter than the 13-byte header. -/
  | tooShort
  /-- `Decode`: input shorter than the header sum says. -/
  | lenMismatch
  /-- `Decode`: `record_len` disagrees with `13 + key_len + val_len`. -/
  | recordLenMismatch
  /-- unknown `data_type` tag. -/
  | badDataType
  /-- `data_type` field is zero / not set. -/
  | dataTypeUnset
  /-- `Encode`: value variant does not match `data_type`. -/
  | badValueType
  /-- `decodeInt64`: value length is not 8. -/
  | badInt64Len
  /-- the dead `n != 0` at-EOF branch of `getIndexFromPath`. -/
  | corruptSeg
  /-- file not found / stat failure. -/
  | ioError
  /-- `ErrNotFound`. -/
  | notFound
  /-- fuel exhaustion of the modelled scan loop (proved unreachable). -/
  | fuelOut
  /-- a history step that the real scheduler could not take. -/
  | invalidOp
  /-- injected fault: failure while rewriting live records. -/
  | rewriteFault
  /-- injected fault: failure while publishing the temporary file. -/
  | publishFault
  /-- injected fault: failed index rebuild during the swap. -/
  | rebuildFault
deriving DecidableEq

/-! ## Records (codec source file) -/

/-- The dynamic value stored in a record (`record.value any`). -/
inductive Value where
  | str (s : Bytes)
  | int (v : Int)
deriving DecidableEq

/-- A typed record.  `dataType` is the `uint8` tag: 1 = String,
2 = Int64; the Go struct allows it to disagree with the value variant. -/
structure Record where
  key : Key
  value : Value
  dataType : Nat
deriving DecidableEq

/-- `recordHeaderSize` = 4 + 1 + 4 + 4. -/
def recordHeaderSize : Nat := 13

/-- Two's-complement little-endian bytes of an `int64`
(`binary.Write` of the value in `encodeInt64`). -/
def int64Bytes (v : Int) : Bytes := bytesLE 8 (v % (2 ^ 64 : Int)).toNat

/-- `record.encodeValue`: dispatch on the `data_type` tag
(`getEncodeFunc`), checking the tag is set first. -/
def encodeValue (r : Record) : Except DErr Bytes :=
  if r.dataType = 0 then .error .dataTypeUnset
  else if r.dataType = 1 then
    match r.value with
    | .str s => .ok s
    | _ => .error .badValueType
  else if r.dataType = 2 then
    match r.value with
    | .int v => .ok (int64Bytes v)
    | _ => .error .badValueType
  else .error .badDataType

/-- `record.Encode`: header (all multi-byte fields little-endian,
lengths truncated to `uint32` exactly as Go's conversions do), then key
bytes, then value bytes. -/
def Record.encode (r : Record) : Except DErr Bytes := do
  let vb ← encodeValue r
  let kb := r.key
  let kl := kb.length % 2 ^ 32
  let vl := vb.length % 2 ^ 32
  let rl := (recordHeaderSize + vl + kl) % 2 ^ 32
  .ok (bytesLE 4 rl ++ [r.dataType % 256] ++ bytesLE 4 kl ++ bytesLE 4 vl ++ kb ++ vb)

/-- Reinterpret a `uint64` bit pattern as an `int64`
(Go's `int64(binary.LittleEndian.Uint64 b)`). -/
def toInt64 (n : Nat) : Int := if n < 2 ^ 63 then (n : Int) else (n : Int) - 2 ^ 64

/-- `record.decodeValue` / `getDecodeFunc` / `decodeString` /
`decodeInt64`: build the record from the tag, key bytes and value bytes. -/
def decodeValue (dt : Nat) (kb : Key) (vb : Bytes) : Except DErr Record :=
  if dt = 0 then .error .dataTypeUnset
  else if dt = 1 then .ok ⟨kb, .str vb, dt⟩
  else if dt = 2 then
    if vb.length ≠ 8 then .error .badInt64Len
    else .ok ⟨kb, .int (toInt64 (readLE 8 vb)), dt⟩
  else .error .badDataType

/-- `record.Decode`: parse the header, validate the lengths, then slice out
key and value bytes.  Inputs longer than the frame are accepted with the
excess ignored, as in the source. -/
def Record.decode (input : Bytes) : Except DErr Record :=
  if input.length < recordHeaderSize then .error .tooShort
  else
    let rl := readU32 input 0
    let dt := readLE 1 (input.drop 4)
    let kl := readU32 input 5
    let vl := readU32 input 9
    let expectedLen := recordHeaderSize + kl + vl
    if input.length < expectedLen then .error .lenMismatch
    else if rl ≠ expectedLen then .error .recordLenMismatch
    else
      decodeValue dt ((input.drop recordHeaderSize).take kl)
        ((input.drop (recordHeaderSize + kl)).take vl)

/-- `record.DecodeFromReader` on the idealized buffered reader.  Returns
the byte count consumed together with the outcome, as the Go function
returns `(n, err)`.

The source peeks 4 bytes (EOF if fewer remain), allocates a zero-filled
buffer of `recordLen` bytes, performs a single `Read` into it — which
yields `min recordLen remaining` bytes and **no error** while input
remains — and then decodes the whole buffer, zero padding included.

This idealization holds the whole remaining input in the buffer, so it
matches the Go code only for inputs of at most one buffer fill
(`bufFill` = 4096 bytes); `decodeFromReaderBuf` and `decodeFromReaderSt`
below model the 4096-byte `bufio` buffer faithfully. -/
def decodeFromReader (input : Bytes) : Nat × Except DErr Record :=
  if input.length < 4 then (0, .error .endOfInput)
  else
    let recordLen := readU32 input 0
    let n := min recordLen input.length
    let buf := input.take recordLen ++ List.replicate (recordLen - input.length) 0
    match Record.decode buf with
    | .error e => (n, .error e)
    | .ok r => (n, .ok r)

/-- `NewStringRecord`. -/
def newStringRecord (k v : Bytes) : Record := ⟨k, .str v, 1⟩

/-- `NewInt64Record`. -/
def newInt64Record (k : Bytes) (v : Int) : Record := ⟨k, .int v, 2⟩

/-! ## Well-formed records

`wfRecord` delimits the records whose frames are faithful: the value
variant agrees with the tag, an `int64` value is in range, and the frame
length fits the 32-bit header fields, so no Go length conversion
truncates. -/

/-- The byte length `encodeValue` produces for an agreeing record. -/
def valueLen (r : Record) : Nat :=
  match r.value with
  | .str s => s.length
  | .int _ => 8

/-- Value variant agrees with the `data_type` tag (and an `int64` value is
representable). -/
def typeOk (r : Record) : Bool :=
  if r.dataType = 1 then
    match r.value with
    | .str _ => true
    | _ => false
  else if r.dataType = 2 then
    match r.value with
    | .int v => decide (-2 ^ 63 ≤ v) && decide (v < 2 ^ 63)
    | _ => false
  else false

/-- The whole frame length fits `uint32`. -/
def frameFits (r : Record) : Bool :=
  decide (recordHeaderSize + r.key.length + valueLen r < 2 ^ 32)

/-- Well-formed record: agreeing variant, in-range value, frame fits. -/
def wfRecord (r : Record) : Bool := typeOk r && frameFits r

/-! ## Segment scanning (`getIndexFromPath`)

The scan walks a buffered reader over a whole segment file, recording for
every decoded frame its key and starting offset.  The model returns the
full list of `(key, offset)` pairs in scan order; the Go map built from
them maps each key to the offset of its **last** occurrence
(`lookupLast`).  The loop is written with explicit fuel; `scanSeg` passes
`length + 1` fuel, which is proved sufficient wherever the scan is
reasoned about. -/

/-- Per-segment scan result: `(key, offset)` in frame order. -/
abbrev SegPairs := List (Key × Nat)

/-- The Go map view of a scan result: offset of the last binding of `k`. -/
def lookupLast (pairs : SegPairs) (k : Key) : Option Nat :=
  match pairs with
  | [] => none
  | (k', off) :: rest =>
    match lookupLast rest k with
    | some o => some o
    | none => if k' = k then some off else none

/-- The scan loop of `getIndexFromPath`: repeatedly `DecodeFromReader`,
stopping cleanly at `io.EOF` with `n = 0`, reporting a corrupted segment
at `io.EOF` with `n ≠ 0`, and propagating any other error. -/
def scanGo : Nat → Bytes → Nat → SegPairs → Except DErr SegPairs
  | 0, _, _, _ => .error .fuelOut
  | fuel + 1, input, off, acc =>
    match decodeFromReader input with
    | (n, .error .endOfInput) => if n ≠ 0 then .error .corruptSeg else .ok acc
    | (_, .error e) => .error e
    | (n, .ok r) => scanGo fuel (input.drop n) (off + n) (acc ++ [(r.key, off)])

/-- `getIndexFromPath` on a segment's contents. -/
def scanSeg (content : Bytes) : Except DErr SegPairs :=
  scanGo (content.length + 1) content 0 []

/-! ## File names and directories -/

/-- Segment file names: `segment-<digits>` carries its parsed `int64`
timestamp; `segment-tmp` is the compaction scratch file.  Other directory
entries never match the `segment-*` glob and are not modelled. -/
inductive FileName where
  | seg (ts : Int)
  | tmp
deriving DecidableEq

/-- The timestamp of a `segment-<digits>` name, if it is one
(`strconv.ParseInt` on the suffix; `segment-tmp` fails to parse). -/
def segTs : FileName → Option Int
  | .seg t => some t
  | .tmp => none

/-- A directory: file names with contents, in creation order. -/
abbrev Files := List (FileName × Bytes)

/-- `os.Open` by name. -/
def lookupFile (fs : Files) (f : FileName) : Option Bytes :=
  (fs.find? (fun p => p.1 == f)).map (fun p => p.2)

/-- `os.Remove`. -/
def removeFile (fs : Files) (f : FileName) : Files :=
  fs.filter (fun p => p.1 != f)

/-- Create-or-truncate a file with the given contents (the effect of
`os.Create` + writes, or the destination of `os.Rename`). -/
def setFile (fs : Files) (f : FileName) (c : Bytes) : Files :=
  removeFile fs f ++ [(f, c)]

/-- Append to an existing file (`File.Write` on the `O_APPEND` handle). -/
def appendFile (fs : Files) (f : FileName) (data : Bytes) : Files :=
  fs.map (fun p => if p.1 == f then (p.1, p.2 ++ data) else p)

/-! ## The engine state (`Db`) -/

/-- `recordPosition`: segment name and byte offset of a record. -/
structure Pos where
  seg : FileName
  off : Nat
deriving DecidableEq

/-- The in-memory index, a Go map from key to position. -/
abbrev Idx := Key → Option Pos

/-- The snapshot a running compaction holds: the reserved replacement
timestamp and the `takeSnapshot` copies of `segments` and `index`. -/
structure Snap where
  ts : Int
  segs : List FileName
  idx : Idx

/-- The engine.  `clock` is the cursor into the timestamp oracle;
`pending` models the `compacting` flag together with the running
compaction's snapshot; `dispatched` holds the reserved timestamps of
compaction goroutines that have been spawned but have not yet reached
their CAS. -/
structure Db where
  files : Files
  segments : List FileName
  current : FileName
  currentOffset : Nat
  index : Idx
  maxSegmentSize : Nat
  compactionThreshold : Nat
  pending : Option Snap
  dispatched : List Int
  clock : Nat

/-- Update one key of the index (`db.index[key] = pos`). -/
def setIdx (idx : Idx) (k : Key) (p : Pos) : Idx :=
  fun k' => if k' = k then some p else idx k'

/-- Merge a scanned segment into an index (`rebuildIndexFromPathLocked`):
every key found in the segment now points at its last offset there. -/
def mergeSeg (idx : Idx) (f : FileName) (pairs : SegPairs) : Idx :=
  fun k =>
    match lookupLast pairs k with
    | some off => some ⟨f, off⟩
    | none => idx k

/-- `rebuildIndex` over a list of segment names: scan each file in order,
later scans overwriting earlier entries. -/
def rebuildSegs (names : List FileName) (fs : Files) (idx : Idx) :
    Except DErr Idx :=
  match names with
  | [] => .ok idx
  | f :: rest =>
    match lookupFile fs f with
    | none => .error .ioError
    | some content => do
      let pairs ← scanSeg content
      rebuildSegs rest fs (mergeSeg idx f pairs)

/-- `rebuildIndexLocked`: the sealed segments in order, then the current
segment when one is open. -/
def rebuildIndex (names : List FileName) (cur : Option FileName) (fs : Files) :
    Except DErr Idx := do
  let idx ← rebuildSegs names fs (fun _ => none)
  match cur with
  | none => .ok idx
  | some f =>
    match lookupFile fs f with
    | none => .error .ioError
    | some content => do
      let pairs ← scanSeg content
      .ok (mergeSeg idx f pairs)

/-- `loadSegments`: glob `segment-*`, keep the names whose suffix parses
as an `int64`, and sort ascending by that timestamp.  `sort.Slice` is
modelled by insertion sort; segment timestamps are pairwise distinct in
every reachable directory, so every correct sort returns the same list. -/
def loadSegments (fs : Files) : List FileName :=
  (List.insertionSort (fun a b => a ≤ b)
      (fs.filterMap (fun p => segTs p.1))).map FileName.seg

/-- `createCurrentSegmentLocked`: open `segment-<ts>` with
`O_APPEND|O_CREATE`, keeping existing contents, and record the write
offset from `Stat().Size()`.  Returns the updated directory and offset. -/
def createSeg (fs : Files) (ts : Int) : Files × Nat :=
  match lookupFile fs (.seg ts) with
  | some c => (fs, c.length)
  | none => (fs ++ [(FileName.seg ts, [])], 0)

/-- `open(dir, maxSegmentSize, compactionThreshold)` with `sup i` as the
`time.Now().UnixNano()` of the new active segment: enumerate and sort the
segment files, rebuild the index from them (no current segment is open at
that point), then create the fresh active segment. -/
def openDb (fs : Files) (maxSz thr : Nat) (sup : Nat → Int) (i : Nat) :
    Except DErr Db := do
  let segs := loadSegments fs
  let idx ← rebuildIndex segs none fs
  let fsOff := createSeg fs (sup i)
  .ok { files := fsOff.1
        segments := segs
        current := .seg (sup i)
        currentOffset := fsOff.2
        index := idx
        maxSegmentSize := maxSz
        compactionThreshold := thr
        pending := none
        dispatched := []
        clock := i + 1 }

/-- `Open` on an empty data directory. -/
def initDb (maxSz thr : Nat) (sup : Nat → Int) : Db :=
  { files := [(FileName.seg (sup 0), [])]
    segments := []
    current := .seg (sup 0)
    currentOffset := 0
    index := fun _ => none
    maxSegmentSize := maxSz
    compactionThreshold := thr
    pending := none
    dispatched := []
    clock := 1 }

/-! ## `put`, rotation and dispatch -/

/-- The rotation-plus-dispatch block of `put`: generate `ts`, seal the
current segment (`rotateSegmentLocked`), open a new active segment with a
fresh timestamp, and if the sealed count has reached the threshold spawn
`go db.compact(ts)` — modelled by queueing the reserved timestamp. -/
def rotateDispatch (sup : Nat → Int) (s : Db) : Db :=
  let tsD := sup s.clock
  let segs := s.segments ++ [s.current]
  let fsOff := createSeg s.files (sup (s.clock + 1))
  let disp :=
    if s.compactionThreshold ≤ segs.length then s.dispatched ++ [tsD]
    else s.dispatched
  { s with
    segments := segs
    current := .seg (sup (s.clock + 1))
    currentOffset := fsOff.2
    files := fsOff.1
    dispatched := disp
    clock := s.clock + 2 }

/-- `db.put(rec)`: encode, rotate when the frame would overflow the
segment, append the frame, update the index to the pre-write offset, and
advance the offset. -/
def putRec (sup : Nat → Int) (s : Db) (r : Record) : Except DErr Db := do
  let data ← r.encode
  let s1 :=
    if s.maxSegmentSize < s.currentOffset + data.length then rotateDispatch sup s
    else s
  .ok { s1 with
        files := appendFile s1.files s1.current data
        index := setIdx s1.index r.key ⟨s1.current, s1.currentOffset⟩
        currentOffset := s1.currentOffset + data.length }

/-! ## Reads (`get`, `Get`, `GetInt64`, `Size`) -/

/-- `db.get` / `getFromPath`: look up the index, open the referenced
segment, seek to the offset and decode one frame. -/
def getRec (s : Db) (k : Key) : Except DErr Record :=
  match s.index k with
  | none => .error .notFound
  | some pos =>
    match lookupFile s.files pos.seg with
    | none => .error .ioError
    | some content =>
      match decodeFromReader (content.drop pos.off) with
      | (_, .error e) => .error e
      | (_, .ok r) => .ok r

/-- `Db.Get`: `get` then assert the value is a string. -/
def getStr (s : Db) (k : Key) : Except DErr Bytes :=
  match getRec s k with
  | .error e => .error e
  | .ok r =>
    match r.value with
    | .str v => .ok v
    | _ => .error .badValueType

/-- `Db.GetInt64`: `get` then assert the value is an `int64`. -/
def getInt64 (s : Db) (k : Key) : Except DErr Int :=
  match getRec s k with
  | .error e => .error e
  | .ok r =>
    match r.value with
    | .int v => .ok v
    | _ => .error .badValueType

/-- `Db.Size`: sum of the on-disk sizes of the sealed segments and the
active segment. -/
def sizeSegs (names : List FileName) (fs : Files) : Except DErr Nat :=
  match names with
  | [] => .ok 0
  | f :: rest =>
    match lookupFile fs f with
    | none => .error .ioError
    | some content => do
      let rest' ← sizeSegs rest fs
      .ok (content.length + rest')

/-- `Db.Size`. -/
def sizeDb (s : Db) : Except DErr Nat := do
  let sealed ← sizeSegs s.segments s.files
  match lookupFile s.files s.current with
  | none => .error .ioError
  | some content => .ok (sealed + content.length)

/-- State-passing form of `Db.Get`, mirroring that the receiver is
threaded through every branch of the source unchanged. -/
def getStrS (s : Db) (k : Key) : Except DErr Bytes × Db :=
  match getRec s k with
  | .error e => (.error e, s)
  | .ok r =>
    match r.value with
    | .str v => (.ok v, s)
    | _ => (.error .badValueType, s)

/-- State-passing form of `Db.GetInt64`. -/
def getInt64S (s : Db) (k : Key) : Except DErr Int × Db :=
  match getRec s k with
  | .error e => (.error e, s)
  | .ok r =>
    match r.value with
    | .int v => (.ok v, s)
    | _ => (.error .badValueType, s)

/-- State-passing form of `Db.Size`. -/
def sizeS (s : Db) : Except DErr Nat × Db := (sizeDb s, s)

/-! ## Compaction (`compact`, `getNewSegments`)

The goroutine body is split at its synchronisation points into
`compactStart` (the CAS on `compacting` plus `takeSnapshot`) and
`compactFinish` (the lock-free rewrite of the snapshotted segments, the
publish rename, and the swap under the write lock).  The sealed segments
the rewrite reads are immutable between the two points, so deferring the
reads to `compactFinish` computes the same bytes the interleaved
goroutine would.  `CFault` injects the I/O failures the specification
discusses; `CFault.fnone` is the fault-free run. -/

/-- Injected compaction fault points. -/
inductive CFault where
  | rewrite
  | publish
  | rebuild
  | fnone
deriving DecidableEq

/-- `getNewSegments`: the current sealed list minus the snapshot, order
preserved. -/
def getNewSegments (cur old : List FileName) : List FileName :=
  cur.filter (fun f => !(old.contains f))

/-- The inner rewrite loop over one scanned segment: for each `(key,
offset)` pair whose snapshot index entry is exactly this position, read
the record back (`getFromPath`) and re-encode it onto the temporary file.
Pairs whose key's live position differs are skipped.  Iterating all scan
pairs visits each live record exactly once, because only the pair equal
to the snapshot entry survives the filter. -/
def rewriteSeg (content : Bytes) (f : FileName) (idx0 : Idx) :
    SegPairs → Except DErr Bytes
  | [] => .ok []
  | (k, off) :: rest =>
    if idx0 k = some ⟨f, off⟩ then
      match decodeFromReader (content.drop off) with
      | (_, .error e) => .error e
      | (_, .ok r) => do
        let data ← r.encode
        let more ← rewriteSeg content f idx0 rest
        .ok (data ++ more)
    else rewriteSeg content f idx0 rest

/-- The rewrite phase over all snapshotted segments, producing the bytes
of the replacement segment. -/
def rewriteSegs (fs : Files) (idx0 : Idx) :
    List FileName → Except DErr Bytes
  | [] => .ok []
  | f :: rest =>
    match lookupFile fs f with
    | none => .error .ioError
    | some content => do
      let pairs ← scanSeg content
      let chunk ← rewriteSeg content f idx0 pairs
      let more ← rewriteSegs fs idx0 rest
      .ok (chunk ++ more)

/-- `compact` after a successful CAS, given the snapshot: rewrite, close
and rename the temporary file, swap the sealed list, rebuild the index,
and on success delete the snapshotted segments.  Every abort path removes
the scratch file (the deferred cleanup); a failed rebuild restores the
pre-swap sealed list and index and removes the already-renamed
replacement.  Returns the new state and the error `compact` would have
returned — which `put` discards. -/
def compactFinish (s : Db) (snap : Snap) (fault : CFault) : Db × Option DErr :=
  let sBase := { s with pending := none }
  if fault = .rewrite then
    ({ sBase with files := removeFile s.files .tmp }, some .rewriteFault)
  else
    match rewriteSegs s.files snap.idx snap.segs with
    | .error e => ({ sBase with files := removeFile s.files .tmp }, some e)
    | .ok repl =>
      if fault = .publish then
        ({ sBase with files := removeFile s.files .tmp }, some .publishFault)
      else
        let fs1 := setFile (removeFile s.files .tmp) (.seg snap.ts) repl
        let newSegs := FileName.seg snap.ts :: getNewSegments s.segments snap.segs
        let rebuilt : Except DErr Idx :=
          if fault = .rebuild then .error .rebuildFault
          else rebuildIndex newSegs (some s.current) fs1
        match rebuilt with
        | .error e =>
          ({ sBase with files := removeFile fs1 (.seg snap.ts) }, some e)
        | .ok idx1 =>
          ({ sBase with
             files := snap.segs.foldl removeFile fs1
             segments := newSegs
             index := idx1 }, none)

/-- The CAS plus snapshot at the head of `compact(ts)`: if another
compaction is already running the goroutine returns `nil` and is
consumed; otherwise it becomes the runner with a `takeSnapshot` copy of
the sealed list and index. -/
def compactStart (s : Db) (j : Nat) : Except DErr Db :=
  match s.dispatched[j]? with
  | none => .error .invalidOp
  | some ts =>
    let s' := { s with dispatched := s.dispatched.eraseIdx j }
    match s.pending with
    | some _ => .ok s'
    | none => .ok { s' with pending := some ⟨ts, s.segments, s.index⟩ }

/-! ## Histories -/

/-- One schedulable step of the system: a put (`Put` / `PutInt64`), a
dispatched compaction goroutine reaching its CAS (`cstart j` picks which
queued goroutine runs), or the running compaction completing. -/
inductive Op where
  | putS (k v : Bytes)
  | putI (k : Bytes) (v : Int)
  | cstart (j : Nat)
  | cfinish
deriving DecidableEq

/-- The record a put step stores. -/
def recOfOp : Op → Option Record
  | .putS k v => some (newStringRecord k v)
  | .putI k v => some (newInt64Record k v)
  | _ => none

/-- The records a history stores, in order. -/
def putRecs (ops : List Op) : List Record := ops.filterMap recOfOp

/-- Execute one step.  A `cfinish` with no running compaction, or a
`cstart` index with no matching goroutine, is a step the real scheduler
could not take. -/
def execOp (sup : Nat → Int) (s : Db) : Op → Except DErr Db
  | .putS k v => putRec sup s (newStringRecord k v)
  | .putI k v => putRec sup s (newInt64Record k v)
  | .cstart j => compactStart s j
  | .cfinish =>
    match s.pending with
    | none => .error .invalidOp
    | some snap => .ok (compactFinish s snap .fnone).1

/-- Execute a history. -/
def execOps (sup : Nat → Int) (s : Db) : List Op → Except DErr Db
  | [] => .ok s
  | op :: rest => do execOps sup (← execOp sup s op) rest

/-- Well-formedness of a history step: put payloads denote well-formed
records. -/
def wfOp (op : Op) : Bool :=
  match recOfOp op with
  | some r => wfRecord r
  | none => true

/-- A step is a put. -/
def isPut (op : Op) : Bool := (recOfOp op).isSome

/-! ## Specification-side combinators -/

/-- The frame bytes of a record (total; meaningful for well-formed
records, where `Record.encode` succeeds). -/
def encB (r : Record) : Bytes := (r.encode).toOption.getD []

/-- Concatenated frames of a record sequence: the contents of a segment
file holding exactly those records. -/
def concatFrames : List Record → Bytes
  | [] => []
  | r :: rest => encB r ++ concatFrames rest

/-- The `(key, offset)` pairs a scan of `concatFrames recs` reports,
starting at `off`. -/
def framePositions : List Record → Nat → SegPairs
  | [], _ => []
  | r :: rest, off => (r.key, off) :: framePositions rest (off + (encB r).length)

/-- The last record with key `k` in a sequence, if any. -/
def lastRec (l : List Record) (k : Key) : Option Record :=
  match l with
  | [] => none
  | r :: rest =>
    match lastRec rest k with
    | some x => some x
    | none => if r.key = k then some r else none

/-- The ghost view of a directory: each file's record sequence. -/
abbrev Ghost := FileName → Option (List Record)

/-- The record sequence of a file under a ghost view. -/
def recsOf (G : Ghost) (f : FileName) : List Record := (G f).getD []

/-- Override one file of a ghost view. -/
def updG (G : Ghost) (f : FileName) (recs : List Record) : Ghost :=
  fun f' => if f' = f then some recs else G f'

/-- The engine log: all records in the given file order. -/
def engineLog (G : Ghost) : List FileName → List Record
  | [] => []
  | f :: rest => recsOf G f ++ engineLog G rest

/-- The index `rebuildIndex` reconstructs, expressed on the ghost view:
fold the per-file last-offset maps left to right. -/
def canonIdxAux (G : Ghost) (idx : Idx) : List FileName → Idx
  | [] => idx
  | f :: rest =>
    canonIdxAux G (mergeSeg idx f (framePositions (recsOf G f) 0)) rest

/-- The canonical index over a file order. -/
def canonIdx (G : Ghost) (names : List FileName) : Idx :=
  canonIdxAux G (fun _ => none) names

/-- The records the compaction rewrite keeps from one file: those whose
position equals the snapshot index entry for their key. -/
def liveFrom (f : FileName) (idx0 : Idx) : List Record → Nat → List Record
  | [], _ => []
  | r :: rest, off =>
    (if idx0 r.key = some ⟨f, off⟩ then [r] else []) ++
      liveFrom f idx0 rest (off + (encB r).length)

/-- The records the compaction rewrite keeps from the snapshotted
segments, in rewrite order. -/
def liveRecs (G : Ghost) (idx0 : Idx) : List FileName → List Record
  | [] => []
  | f :: rest => liveFrom f idx0 (recsOf G f) 0 ++ liveRecs G idx0 rest

/-- The last-offset function a scan's Go map implements, expressed on the
record sequence: the frame-start offset of the last record with the key. -/
def lastOff : List Record → Nat → Key → Option Nat
  | [], _, _ => none
  | r :: rest, off, k =>
    match lastOff rest (off + (encB r).length) k with
    | some o => some o
    | none => if r.key = k then some off else none

/-- The record whose frame starts at byte offset `o`, walking a record
sequence laid out from offset `off`. -/
def recAt : List Record → Nat → Nat → Option Record
  | [], _, _ => none
  | r :: rest, off, o =>
    if off = o then some r else recAt rest (off + (encB r).length) o

/-- The engine's file order: sealed segments oldest first, then the
active segment — the order `rebuildIndexLocked` scans. -/
def ordFiles (s : Db) : List FileName := s.segments ++ [s.current]

/-- The engine log: every record reachable from the engine's files, in
scan order.  The mapping the engine implements is `lastRec (dbLog s G)`. -/
def dbLog (s : Db) (G : Ghost) : List Record := engineLog G (ordFiles s)

/-- The invariant a running compaction's snapshot satisfies: its reserved
timestamp is fresh and older than every segment sealed after the
snapshot and than the active segment; the snapshotted sealed list is a
prefix of the current one; and the snapshot index is the canonical index
of the snapshot-time files — the sealed files unchanged, the then-active
file (`act0`, the file right after the snapshotted prefix) restricted to
its snapshot-time records `recs0`. -/
def PendInv (sup : Nat → Int) (s : Db) (G : Ghost) (snap : Snap) : Prop :=
  (∃ i, i < s.clock ∧ snap.ts = sup i) ∧
  G (.seg snap.ts) = none ∧
  snap.ts ∉ s.dispatched ∧
  (∀ t, s.current = .seg t → snap.ts < t) ∧
  (∀ f ∈ s.segments, f ∉ snap.segs → ∀ t, f = .seg t → snap.ts < t) ∧
  s.segments.take snap.segs.length = snap.segs ∧
  ∃ act0 recs0 rest0,
    (s.segments.drop snap.segs.length ++ [s.current]).head? = some act0 ∧
    G act0 = some (recs0 ++ rest0) ∧
    (∀ k, snap.idx k = canonIdx (updG G act0 recs0) (snap.segs ++ [act0]) k)

/-- The engine invariant, relating a reachable state to the ghost view
`G` of its segment files. -/
structure EngineInv (sup : Nat → Int) (s : Db) (G : Ghost) : Prop where
  files_eq : ∀ f, lookupFile s.files f = (G f).map concatFrames
  files_perm : (s.files.map Prod.fst).Perm (ordFiles s)
  dom_eq : ∀ f, (G f).isSome ↔ f ∈ ordFiles s
  names_nodup : (ordFiles s).Nodup
  wf_all : ∀ f, ∀ r ∈ recsOf G f, wfRecord r = true
  name_ts : ∀ f ∈ ordFiles s, ∃ i, i < s.clock ∧ f = FileName.seg (sup i)
  ts_chain : List.Chain' (· < ·) ((ordFiles s).filterMap segTs)
  off_eq : s.currentOffset = (concatFrames (recsOf G s.current)).length
  idx_eq : ∀ k, s.index k = canonIdx G (ordFiles s) k
  disp_inv : ∀ t ∈ s.dispatched, (∃ i, i < s.clock ∧ t = sup i) ∧
    G (FileName.seg t) = none ∧ (∀ tc, s.current = FileName.seg tc → t < tc)
  disp_pair : s.dispatched.Pairwise (· < ·)
  pend_inv : ∀ snap, s.pending = some snap → PendInv sup s G snap

/-- Decidable equality of `Except` results, for evaluating concrete
outcomes. -/
instance instDecEqExcept {ε α : Type} [DecidableEq ε] [DecidableEq α] :
    DecidableEq (Except ε α) := fun a b =>
  match a, b with
  | .ok x, .ok y =>
    if h : x = y then isTrue (by rw [h])
    else isFalse (by intro hc; injection hc; contradiction)
  | .error x, .error y =>
    if h : x = y then isTrue (by rw [h])
    else isFalse (by intro hc; injection hc; contradiction)
  | .ok _, .error _ => isFalse (by intro hc; injection hc)
  | .error _, .ok _ => isFalse (by intro hc; injection hc)

/-! ## Concrete inputs used by the claims -/

/-- A key of `2 ^ 32` bytes: Go's `uint32(len(kb))` truncates its length
to 0 in the frame header. -/
def bigKey : Bytes := List.replicate (2 ^ 32) 97

/-- A record whose key length overflows the 32-bit `key_len` field. -/
def bigRec : Record := ⟨bigKey, .str [], 1⟩

/-- The bytes `Encode` produces for `bigRec`: a 13-byte header claiming
`record_len = 13`, `key_len = val_len = 0`, followed by the huge key. -/
def bigFrame : Bytes := bytesLE 4 13 ++ ([1] ++ (bytesLE 4 0 ++ (bytesLE 4 0 ++ bigKey)))

/-- The first 13 bytes of the 15-byte frame encoding the string record
`("k", "v")` — a segment file truncated in the middle of a frame, with the
whole header intact. -/
def truncFrame : Bytes := [15, 0, 0, 0, 1, 1, 0, 0, 0, 1, 0, 0, 0]

/-- A concrete strictly monotone timestamp oracle for concrete runs. -/
def supW : Nat → Int := fun i => (i : Int)

/-- A second copy of the same concrete run, for the failure-handling
scenario. -/
def pre6 : List Op := [Op.putS [1] [2], Op.cstart 0]

def d6 : Db :=
  match execOps supW (initDb 0 1 supW) pre6 with
  | .ok s => s
  | .error _ => initDb 0 1 supW

def snap6 : Snap :=
  match d6.pending with
  | some sn => sn
  | none => ⟨0, [], fun _ => none⟩

/-! ## The faithful buffered reader (the 4096-byte `bufio` buffer) -/

/-- The `bufio.Reader` default buffer size. -/
def bufFill : Nat := 4096

/-- `record.DecodeFromReader` on a faithful model of the buffered reader
at the start of a stream: a single `Read` returns at most one buffer fill
(4096 bytes), so the zero-filled `recordLen` buffer receives at most
`bufFill` bytes of real input. -/
def decodeFromReaderBuf (input : Bytes) : Nat × Except DErr Record :=
  decodeFromReader (input.take bufFill)

/-- The state of a `bufio.Reader` mid-scan: the bytes currently buffered
and the bytes of the file not yet read into the buffer. -/
structure BufState where
  buf : Bytes
  rest : Bytes

/-- `Peek(4)` refills the buffer from the file when fewer than 4 bytes
are buffered (one underlying `Read` into the free space). -/
def refill (st : BufState) : BufState :=
  if st.buf.length < 4 then
    ⟨st.buf ++ st.rest.take (bufFill - st.buf.length),
     st.rest.drop (bufFill - st.buf.length)⟩
  else st

/-- `record.DecodeFromReader` on the faithful buffered reader mid-scan:
`Peek(4)` refills if needed, the single `Read` then drains at most the
buffered bytes. -/
def decodeFromReaderSt (st0 : BufState) : (Nat × Except DErr Record) × BufState :=
  let st := refill st0
  (decodeFromReader st.buf, ⟨st.buf.drop (decodeFromReader st.buf).1, st.rest⟩)

/-- The scan loop of `getIndexFromPath` over the faithful buffered
reader. -/
def scanGoSt : Nat → BufState → Nat → SegPairs → Except DErr SegPairs
  | 0, _, _, _ => .error .fuelOut
  | fuel + 1, st, off, acc =>
    match decodeFromReaderSt st with
    | ((n, .error .endOfInput), _) => if n ≠ 0 then .error .corruptSeg else .ok acc
    | ((_, .error e), _) => .error e
    | ((n, .ok r), st') => scanGoSt fuel st' (off + n) (acc ++ [(r.key, off)])

/-- `getIndexFromPath` over the faithful buffered reader. -/
def scanSegBuf (content : Bytes) : Except DErr SegPairs :=
  scanGoSt (content.length + 1) ⟨[], content⟩ 0 []

/-- `db.get` over the faithful buffered reader. -/
def getRecBuf (s : Db) (k : Key) : Except DErr Record :=
  match s.index k with
  | none => .error .notFound
  | some pos =>
    match lookupFile s.files pos.seg with
    | none => .error .ioError
    | some content =>
      match decodeFromReaderBuf (content.drop pos.off) with
      | (_, .error e) => .error e
      | (_, .ok r) => .ok r

/-- `rebuildIndex` segments loop over the faithful buffered reader. -/
def rebuildSegsBuf (names : List FileName) (fs : Files) (idx : Idx) :
    Except DErr Idx :=
  match names with
  | [] => .ok idx
  | f :: rest =>
    match lookupFile fs f with
    | none => .error .ioError
    | some content => do
      let pairs ← scanSegBuf content
      rebuildSegsBuf rest fs (mergeSeg idx f pairs)

/-- `rebuildIndexLocked` over the faithful buffered reader. -/
def rebuildIndexBuf (names : List FileName) (cur : Option FileName) (fs : Files) :
    Except DErr Idx := do
  let idx ← rebuildSegsBuf names fs (fun _ => none)
  match cur with
  | none => .ok idx
  | some f =>
    match lookupFile fs f with
    | none => .error .ioError
    | some content => do
      let pairs ← scanSegBuf content
      .ok (mergeSeg idx f pairs)

/-- `open` over the faithful buffered reader. -/
def openDbBuf (fs : Files) (maxSz thr : Nat) (sup : Nat → Int) (i : Nat) :
    Except DErr Db := do
  let segs := loadSegments fs
  let idx ← rebuildIndexBuf segs none fs
  let fsOff := createSeg fs (sup i)
  .ok { files := fsOff.1
        segments := segs
        current := .seg (sup i)
        currentOffset := fsOff.2
        index := idx
        maxSegmentSize := maxSz
        compactionThreshold := thr
        pending := none
        dispatched := []
        clock := i + 1 }

/-- The compaction rewrite loop over the faithful buffered reader. -/
def rewriteSegBuf (content : Bytes) (f : FileName) (idx0 : Idx) :
    SegPairs → Except DErr Bytes
  | [] => .ok []
  | (k, off) :: rest =>
    if idx0 k = some ⟨f, off⟩ then
      match decodeFromReaderBuf (content.drop off) with
      | (_, .error e) => .error e
      | (_, .ok r) => do
        let data ← r.encode
        let more ← rewriteSegBuf content f idx0 rest
        .ok (data ++ more)
    else rewriteSegBuf content f idx0 rest

/-- The rewrite phase over the faithful buffered reader. -/
def rewriteSegsBuf (fs : Files) (idx0 : Idx) :
    List FileName → Except DErr Bytes
  | [] => .ok []
  | f :: rest =>
    match lookupFile fs f with
    | none => .error .ioError
    | some content => do
      let pairs ← scanSegBuf content
      let chunk ← rewriteSegBuf content f idx0 pairs
      let more ← rewriteSegsBuf fs idx0 rest
      .ok (chunk ++ more)

/-- `compact` after a successful CAS, over the faithful buffered
reader. -/
def compactFinishBuf (s : Db) (snap : Snap) (fault : CFault) : Db × Option DErr :=
  let sBase := { s with pending := none }
  if fault = .rewrite then
    ({ sBase with files := removeFile s.files .tmp }, some .rewriteFault)
  else
    match rewriteSegsBuf s.files snap.idx snap.segs with
    | .error e => ({ sBase with files := removeFile s.files .tmp }, some e)
    | .ok repl =>
      if fault = .publish then
        ({ sBase with files := removeFile s.files .tmp }, some .publishFault)
      else
        let fs1 := setFile (removeFile s.files .tmp) (.seg snap.ts) repl
        let newSegs := FileName.seg snap.ts :: getNewSegments s.segments snap.segs
        let rebuilt : Except DErr Idx :=
          if fault = .rebuild then .error .rebuildFault
          else rebuildIndexBuf newSegs (some s.current) fs1
        match rebuilt with
        | .error e =>
          ({ sBase with files := removeFile fs1 (.seg snap.ts) }, some e)
        | .ok idx1 =>
          ({ sBase with
             files := snap.segs.foldl removeFile fs1
             segments := newSegs
             index := idx1 }, none)

/-- One step of the system over the faithful buffered reader. -/
def execOpBuf (sup : Nat → Int) (s : Db) : Op → Except DErr Db
  | .putS k v => putRec sup s (newStringRecord k v)
  | .putI k v => putRec sup s (newInt64Record k v)
  | .cstart j => compactStart s j
  | .cfinish =>
    match s.pending with
    | none => .error .invalidOp
    | some snap => .ok (compactFinishBuf s snap .fnone).1

/-- A history over the faithful buffered reader. -/
def execOpsBuf (sup : Nat → Int) (s : Db) : List Op → Except DErr Db
  | [] => .ok s
  | op :: rest => do execOpsBuf sup (← execOpBuf sup s op) rest

/-! ## Concrete oversized-frame inputs (claims C2, C3, C4)

Each value is 4200 bytes, so its frame is 4214 bytes: 118 bytes longer
than one buffer fill. -/

/-- The 14 bytes preceding the value in the frame of a one-byte-key
string record with a 4200-byte value: `record_len = 4214`,
`data_type = 1`, `key_len = 1`, `val_len = 4200`, then the key byte. -/
def hdr4214 (k : Nat) : Bytes :=
  [118, 16, 0, 0, 1, 1, 0, 0, 0, 104, 16, 0, 0, k]

def bigVal2 : Bytes := List.replicate 4200 1

def bigRec2 : Record := newStringRecord [107] bigVal2

def opsC2 : List Op := [Op.putS [107] bigVal2]

def dbC2 : Db :=
  { files := [(FileName.seg (supW 0), encB bigRec2)]
    segments := []
    current := .seg (supW 0)
    currentOffset := (encB bigRec2).length
    index := setIdx (fun _ => none) bigRec2.key ⟨.seg (supW 0), 0⟩
    maxSegmentSize := 100000
    compactionThreshold := 4
    pending := none
    dispatched := []
    clock := 1 }

def valC3 : Bytes := List.replicate 4082 9 ++ ([1, 0, 0, 0] ++ List.replicate 114 9)

def recC3 : Record := newStringRecord [5] valC3

def opsC3 : List Op := [Op.putS [5] valC3]

def dbC3 : Db :=
  { files := [(FileName.seg (supW 0), encB recC3)]
    segments := []
    current := .seg (supW 0)
    currentOffset := (encB recC3).length
    index := setIdx (fun _ => none) recC3.key ⟨.seg (supW 0), 0⟩
    maxSegmentSize := 100000
    compactionThreshold := 4
    pending := none
    dispatched := []
    clock := 1 }

def dOpen3 : Db :=
  { files := [(FileName.seg (supW 0), encB recC3), (FileName.seg (supW 1), [])]
    segments := [FileName.seg (supW 0)]
    current := .seg (supW 1)
    currentOffset := 0
    index := mergeSeg (fun _ => none) (FileName.seg (supW 0)) (framePositions [recC3] 0)
    maxSegmentSize := 100000
    compactionThreshold := 4
    pending := none
    dispatched := []
    clock := 2 }

def ghostVal : Bytes := List.replicate 104 7

def ghostRec : Record := newStringRecord [9] ghostVal

def bigVal4 : Bytes := List.replicate 4082 1 ++ encB ghostRec

def bigRec4 : Record := newStringRecord [107] bigVal4

def opsC4 : List Op := [Op.putS [107] bigVal4, Op.cstart 0, Op.cfinish]

def dbA4 : Db :=
  { files := [(FileName.seg (supW 0), []), (FileName.seg (supW 2), encB bigRec4)]
    segments := [FileName.seg (supW 0)]
    current := .seg (supW 2)
    currentOffset := (encB bigRec4).length
    index := setIdx (fun _ => none) bigRec4.key ⟨.seg (supW 2), 0⟩
    maxSegmentSize := 1000
    compactionThreshold := 1
    pending := none
    dispatched := [supW 1]
    clock := 3 }

def snapB4 : Snap :=
  ⟨supW 1, [FileName.seg (supW 0)],
   setIdx (fun _ => none) bigRec4.key ⟨.seg (supW 2), 0⟩⟩

def dbB4 : Db := { dbA4 with dispatched := [], pending := some snapB4 }

def fs1C4 : Files :=
  [(FileName.seg (supW 0), []), (FileName.seg (supW 2), encB bigRec4),
   (FileName.seg (supW 1), [])]

def idxC4 : Idx :=
  mergeSeg (mergeSeg (fun _ => none) (FileName.seg (supW 1)) [])
    (FileName.seg (supW 2)) [([107], 0), ([9], bufFill)]

def dbC4 : Db :=
  { files := [(FileName.seg (supW 2), encB bigRec4), (FileName.seg (supW 1), [])]
    segments := [FileName.seg (supW 1)]
    current := .seg (supW 2)
    currentOffset := (encB bigRec4).length
    index := idxC4
    maxSegmentSize := 1000
    compactionThreshold := 1
    pending := none
    dispatched := []
    clock := 3 }

def dbR4 : Db :=
  { files := [(FileName.seg (supW 0), []), (FileName.seg (supW 2), [])]
    segments := [FileName.seg (supW 0)]
    current := .seg (supW 2)
    currentOffset := 0
    index := fun _ => none
    maxSegmentSize := 1000
    compactionThreshold := 1
    pending := none
    dispatched := [supW 1]
    clock := 3 }

/-! ## Theorems -/

/-! ### Little-endian byte lemmas -/

theorem length_bytesLE (w n : Nat) : (bytesLE w n).length = w := by
  induction w generalizing n with
  | zero => rfl
  | succ w ih => simp [bytesLE, ih]

theorem readLE_bytesLE (w n : Nat) (rest : Bytes) :
    readLE w (bytesLE w n ++ rest) = n % 256 ^ w := by
  induction w generalizing n with
  | zero => simp [bytesLE, readLE, Nat.mod_one]
  | succ w ih =>
    have h256 : 256 ^ (w + 1) = 256 * 256 ^ w := by ring
    have hmul : n % (256 * 256 ^ w) = n % 256 + 256 * (n / 256 % 256 ^ w) :=
      Nat.mod_mul
    simp only [bytesLE, List.cons_append, readLE, List.append_eq, ih, h256, hmul]

theorem drop_bytesLE (w n : Nat) (t : Bytes) : (bytesLE w n ++ t).drop w = t := by
  have h := List.drop_left (bytesLE w n) t
  rwa [length_bytesLE] at h

/-- Reading back the two's-complement bytes of an in-range `int64`
recovers the value. -/
theorem toInt64_int64Bytes (v : Int) (h1 : -2 ^ 63 ≤ v) (h2 : v < 2 ^ 63) :
    toInt64 (readLE 8 (int64Bytes v)) = v := by
  have hb : int64Bytes v ++ [] = int64Bytes v := List.append_nil _
  have hread : readLE 8 (int64Bytes v) = (v % (2 ^ 64 : Int)).toNat % 256 ^ 8 := by
    rw [← hb]
    exact readLE_bytesLE 8 _ []
  have h0 : 0 ≤ v % (2 ^ 64 : Int) := Int.emod_nonneg v (by norm_num)
  have hlt : v % (2 ^ 64 : Int) < 2 ^ 64 := Int.emod_lt_of_pos v (by norm_num)
  have hsmall : (v % (2 ^ 64 : Int)).toNat % 256 ^ 8 = (v % (2 ^ 64 : Int)).toNat := by
    apply Nat.mod_eq_of_lt
    have : (256 : Nat) ^ 8 = 2 ^ 64 := by norm_num
    omega
  rw [hread, hsmall]
  unfold toInt64
  rcases le_or_lt 0 v with hv | hv
  · have he : v % (2 ^ 64 : Int) = v := Int.emod_eq_of_lt hv (by omega)
    rw [he]; split <;> omega
  · have he : v % (2 ^ 64 : Int) = v + 2 ^ 64 := by
      have h' := Int.add_mul_emod_self_left (a := v) (b := 2 ^ 64) (c := 1)
      have h'' : (v + 2 ^ 64 * 1) % (2 ^ 64 : Int) = v + 2 ^ 64 * 1 :=
        Int.emod_eq_of_lt (by omega) (by omega)
      omega
    rw [he]; split <;> omega

/-! ### Frame structure

A frame in right-associated normal form is
`bytesLE 4 rl ++ ([dt] ++ (bytesLE 4 kl ++ (bytesLE 4 vl ++ body)))`;
the lemmas below read each header field and slice the body. -/

theorem frame_drop4 (rl dt kl vl : Nat) (body : Bytes) :
    (bytesLE 4 rl ++ ([dt] ++ (bytesLE 4 kl ++ (bytesLE 4 vl ++ body)))).drop 4 =
      [dt] ++ (bytesLE 4 kl ++ (bytesLE 4 vl ++ body)) :=
  drop_bytesLE 4 rl _

theorem frame_drop5 (rl dt kl vl : Nat) (body : Bytes) :
    (bytesLE 4 rl ++ ([dt] ++ (bytesLE 4 kl ++ (bytesLE 4 vl ++ body)))).drop 5 =
      bytesLE 4 kl ++ (bytesLE 4 vl ++ body) := by
  have h : (5 : Nat) = 4 + 1 := rfl
  rw [h, ← List.drop_drop, frame_drop4]
  rfl

theorem frame_drop9 (rl dt kl vl : Nat) (body : Bytes) :
    (bytesLE 4 rl ++ ([dt] ++ (bytesLE 4 kl ++ (bytesLE 4 vl ++ body)))).drop 9 =
      bytesLE 4 vl ++ body := by
  have h : (9 : Nat) = 5 + 4 := rfl
  rw [h, ← List.drop_drop, frame_drop5, drop_bytesLE]

theorem frame_drop13 (rl dt kl vl : Nat) (body : Bytes) :
    (bytesLE 4 rl ++ ([dt] ++ (bytesLE 4 kl ++ (bytesLE 4 vl ++ body)))).drop 13 =
      body := by
  have h : (13 : Nat) = 9 + 4 := rfl
  rw [h, ← List.drop_drop, frame_drop9, drop_bytesLE]

theorem frame_length (rl dt kl vl : Nat) (body : Bytes) :
    (bytesLE 4 rl ++ ([dt] ++ (bytesLE 4 kl ++ (bytesLE 4 vl ++ body)))).length =
      13 + body.length := by
  simp [length_bytesLE]
  omega

theorem frame_readU32_0 (rl dt kl vl : Nat) (body : Bytes) :
    readU32 (bytesLE 4 rl ++ ([dt] ++ (bytesLE 4 kl ++ (bytesLE 4 vl ++ body)))) 0 =
      rl % 2 ^ 32 := by
  unfold readU32
  rw [List.drop_zero, readLE_bytesLE]
  norm_num

theorem frame_dt (rl dt kl vl : Nat) (body : Bytes) :
    readLE 1 ((bytesLE 4 rl ++ ([dt] ++ (bytesLE 4 kl ++ (bytesLE 4 vl ++ body)))).drop 4) =
      dt := by
  rw [frame_drop4]
  simp [readLE]

theorem frame_readU32_5 (rl dt kl vl : Nat) (body : Bytes) :
    readU32 (bytesLE 4 rl ++ ([dt] ++ (bytesLE 4 kl ++ (bytesLE 4 vl ++ body)))) 5 =
      kl % 2 ^ 32 := by
  unfold readU32
  rw [frame_drop5, readLE_bytesLE]
  norm_num

theorem frame_readU32_9 (rl dt kl vl : Nat) (body : Bytes) :
    readU32 (bytesLE 4 rl ++ ([dt] ++ (bytesLE 4 kl ++ (bytesLE 4 vl ++ body)))) 9 =
      vl % 2 ^ 32 := by
  unfold readU32
  rw [frame_drop9, readLE_bytesLE]
  norm_num

/-- Decoding a well-sized frame followed by arbitrary trailing bytes parses
the header and hands the key and value slices to `decodeValue`. -/
theorem decode_frame (dt : Nat) (key vb rest : Bytes)
    (hfits : recordHeaderSize + key.length + vb.length < 2 ^ 32) :
    Record.decode (bytesLE 4 (recordHeaderSize + key.length + vb.length) ++
        ([dt] ++ (bytesLE 4 key.length ++ (bytesLE 4 vb.length ++ (key ++ (vb ++ rest)))))) =
      decodeValue dt key vb := by
  set RL := recordHeaderSize + key.length + vb.length with hRL
  set X := bytesLE 4 RL ++
      ([dt] ++ (bytesLE 4 key.length ++ (bytesLE 4 vb.length ++ (key ++ (vb ++ rest))))) with hX
  have hlen : X.length = 13 + (key.length + (vb.length + rest.length)) := by
    rw [hX, frame_length]
    simp
  have h0 : readU32 X 0 = RL := by
    rw [hX, frame_readU32_0]
    exact Nat.mod_eq_of_lt hfits
  have hdt : readLE 1 (X.drop 4) = dt := by rw [hX]; exact frame_dt _ _ _ _ _
  have h5 : readU32 X 5 = key.length := by
    rw [hX, frame_readU32_5]
    exact Nat.mod_eq_of_lt (by omega)
  have h9 : readU32 X 9 = vb.length := by
    rw [hX, frame_readU32_9]
    exact Nat.mod_eq_of_lt (by omega)
  have h13 : X.drop 13 = key ++ (vb ++ rest) := by rw [hX]; exact frame_drop13 _ _ _ _ _
  have hkey : (X.drop recordHeaderSize).take key.length = key := by
    show (X.drop 13).take key.length = key
    rw [h13]
    exact List.take_left key _
  have hval : (X.drop (recordHeaderSize + key.length)).take vb.length = vb := by
    show (X.drop (13 + key.length)).take vb.length = vb
    rw [← List.drop_drop key.length 13 X, h13, List.drop_left key,
      List.take_left vb]
  simp only [Record.decode, h0, hdt, h5, h9]
  rw [if_neg (by rw [hlen]; unfold recordHeaderSize; omega),
    if_neg (by rw [hlen]; unfold recordHeaderSize; omega),
    if_neg (by rw [hRL]; omega)]
  rw [hkey, hval]

/-- Well-formed records split into the two agreeing shapes. -/
theorem wfRecord_cases (r : Record) (h : wfRecord r = true) :
    (r.dataType = 1 ∧ ∃ s, r.value = .str s) ∨
      (r.dataType = 2 ∧ ∃ v, r.value = .int v ∧ -2 ^ 63 ≤ v ∧ v < 2 ^ 63) := by
  unfold wfRecord typeOk at h
  rw [Bool.and_eq_true] at h
  obtain ⟨h1, _⟩ := h
  by_cases hdt1 : r.dataType = 1
  · rw [if_pos hdt1] at h1
    cases hv : r.value with
    | str s => exact Or.inl ⟨hdt1, s, rfl⟩
    | int v => rw [hv] at h1; exact absurd h1 (by simp)
  · rw [if_neg hdt1] at h1
    by_cases hdt2 : r.dataType = 2
    · rw [if_pos hdt2] at h1
      cases hv : r.value with
      | str s => rw [hv] at h1; exact absurd h1 (by simp)
      | int v =>
        rw [hv, Bool.and_eq_true, decide_eq_true_eq, decide_eq_true_eq] at h1
        exact Or.inr ⟨hdt2, v, rfl, h1.1, h1.2⟩
    · rw [if_neg hdt2] at h1
      exact absurd h1 (by simp)

theorem encodeValue_str (k s : Bytes) : encodeValue ⟨k, .str s, 1⟩ = .ok s := rfl

theorem encodeValue_int (k : Bytes) (v : Int) :
    encodeValue ⟨k, .int v, 2⟩ = .ok (int64Bytes v) := rfl

/-- The frame-fits bound of a well-formed record. -/
theorem wfRecord_fits (r : Record) (h : wfRecord r = true) :
    recordHeaderSize + r.key.length + valueLen r < 2 ^ 32 := by
  unfold wfRecord frameFits at h
  rw [Bool.and_eq_true, decide_eq_true_eq] at h
  exact h.2

/-- Encoding succeeds on a well-formed record and produces exactly the
frame in normal form. -/
theorem encode_of_wf (r : Record) (h : wfRecord r = true) :
    ∃ vb, encodeValue r = .ok vb ∧ vb.length = valueLen r ∧
      r.encode = .ok (bytesLE 4 (recordHeaderSize + r.key.length + valueLen r) ++
        ([r.dataType] ++ (bytesLE 4 r.key.length ++ (bytesLE 4 (valueLen r) ++
          (r.key ++ vb))))) := by
  have hfits := wfRecord_fits r h
  have hhs : recordHeaderSize = 13 := rfl
  obtain ⟨k, v, dt⟩ := r
  rcases wfRecord_cases _ h with ⟨hdt, s, hv⟩ | ⟨hdt, w, hv, hw1, hw2⟩ <;>
    dsimp only at hdt hv hfits ⊢ <;> subst hdt <;> subst hv <;>
    dsimp only [valueLen] at hfits ⊢
  · refine ⟨s, encodeValue_str k s, rfl, ?_⟩
    have hkl : k.length % 2 ^ 32 = k.length := Nat.mod_eq_of_lt (by omega)
    have hvl : s.length % 2 ^ 32 = s.length := Nat.mod_eq_of_lt (by omega)
    have hrl : (recordHeaderSize + s.length % 2 ^ 32 + k.length % 2 ^ 32) % 2 ^ 32 =
        recordHeaderSize + k.length + s.length := by
      rw [hkl, hvl, hhs] at *
      omega
    show Except.ok (bytesLE 4 ((recordHeaderSize + s.length % 2 ^ 32 + k.length % 2 ^ 32) % 2 ^ 32)
        ++ [1 % 256] ++ bytesLE 4 (k.length % 2 ^ 32) ++ bytesLE 4 (s.length % 2 ^ 32) ++ k ++ s) = _
    rw [hrl, hkl, hvl]
    simp [List.append_assoc]
  · refine ⟨int64Bytes w, encodeValue_int k w, length_bytesLE 8 _, ?_⟩
    have hlen8 : (int64Bytes w).length = 8 := length_bytesLE 8 _
    have hkl : k.length % 2 ^ 32 = k.length := Nat.mod_eq_of_lt (by omega)
    have hvl : (int64Bytes w).length % 2 ^ 32 = 8 := by rw [hlen8]; norm_num
    have hrl : (recordHeaderSize + (int64Bytes w).length % 2 ^ 32 + k.length % 2 ^ 32) % 2 ^ 32 =
        recordHeaderSize + k.length + 8 := by
      rw [hkl, hvl, hhs] at *
      omega
    show Except.ok (bytesLE 4 ((recordHeaderSize + (int64Bytes w).length % 2 ^ 32 +
        k.length % 2 ^ 32) % 2 ^ 32) ++ [2 % 256] ++ bytesLE 4 (k.length % 2 ^ 32) ++
        bytesLE 4 ((int64Bytes w).length % 2 ^ 32) ++ k ++ int64Bytes w) = _
    rw [hrl, hkl, hvl]
    simp [List.append_assoc]

/-- `encB` is the successful result of `Record.encode` on a well-formed
record. -/
theorem encB_of_wf (r : Record) (h : wfRecord r = true) :
    r.encode = .ok (encB r) := by
  obtain ⟨vb, _, _, henc⟩ := encode_of_wf r h
  rw [henc]
  unfold encB
  rw [henc]
  rfl

/-- The frame of a well-formed record in right-associated normal form. -/
theorem encB_normal (r : Record) (h : wfRecord r = true) :
    ∃ vb, vb.length = valueLen r ∧
      encB r = bytesLE 4 (recordHeaderSize + r.key.length + valueLen r) ++
        ([r.dataType] ++ (bytesLE 4 r.key.length ++ (bytesLE 4 (valueLen r) ++
          (r.key ++ vb)))) := by
  obtain ⟨vb, _, hlen, henc⟩ := encode_of_wf r h
  refine ⟨vb, hlen, ?_⟩
  unfold encB
  rw [henc]
  rfl

theorem encB_length (r : Record) (h : wfRecord r = true) :
    (encB r).length = recordHeaderSize + r.key.length + valueLen r := by
  obtain ⟨vb, hlen, hnf⟩ := encB_normal r h
  rw [hnf, frame_length]
  simp only [List.length_append, hlen]
  have : recordHeaderSize = 13 := rfl
  omega

/-- Decoding the value slice of a well-formed record returns the record. -/
theorem decodeValue_of_wf (r : Record) (h : wfRecord r = true) (vb : Bytes)
    (hev : encodeValue r = .ok vb) :
    decodeValue r.dataType r.key vb = .ok r := by
  obtain ⟨k, v, dt⟩ := r
  rcases wfRecord_cases _ h with ⟨hdt, s, hv⟩ | ⟨hdt, w, hv, hw1, hw2⟩ <;>
    dsimp only at hdt hv ⊢ <;> subst hdt <;> subst hv
  · rw [encodeValue_str] at hev
    obtain rfl : s = vb := by injection hev
    rfl
  · rw [encodeValue_int] at hev
    obtain rfl : int64Bytes w = vb := by injection hev
    unfold decodeValue
    rw [if_neg (by norm_num), if_neg (by norm_num), if_pos rfl,
      if_neg (by simp [int64Bytes, length_bytesLE])]
    rw [toInt64_int64Bytes w hw1 hw2]

/-- Round-trip through `Record.decode`, with arbitrary trailing bytes. -/
theorem decode_encB (r : Record) (h : wfRecord r = true) (rest : Bytes) :
    Record.decode (encB r ++ rest) = .ok r := by
  obtain ⟨vb, hlen, hnf⟩ := encB_normal r h
  have hev : encodeValue r = .ok vb := by
    obtain ⟨vb', hev', hlen', henc'⟩ := encode_of_wf r h
    have : encB r = bytesLE 4 (recordHeaderSize + r.key.length + valueLen r) ++
        ([r.dataType] ++ (bytesLE 4 r.key.length ++ (bytesLE 4 (valueLen r) ++
          (r.key ++ vb')))) := by
      unfold encB; rw [henc']; rfl
    rw [this] at hnf
    simp only [← List.append_assoc] at hnf
    have hvb : vb' = vb := List.append_inj_right hnf rfl
    rw [hvb] at hev'
    exact hev'
  have hfits := wfRecord_fits r h
  rw [hnf]
  have hassoc : (bytesLE 4 (recordHeaderSize + r.key.length + valueLen r) ++
      ([r.dataType] ++ (bytesLE 4 r.key.length ++ (bytesLE 4 (valueLen r) ++
        (r.key ++ vb))))) ++ rest =
      bytesLE 4 (recordHeaderSize + r.key.length + vb.length) ++
      ([r.dataType] ++ (bytesLE 4 r.key.length ++ (bytesLE 4 vb.length ++
        (r.key ++ (vb ++ rest))))) := by
    rw [hlen]
    simp [List.append_assoc]
  rw [hassoc, decode_frame r.dataType r.key vb rest (by rw [hlen]; exact hfits)]
  exact decodeValue_of_wf r h vb hev

/-- Round-trip through `DecodeFromReader`: one frame is consumed exactly
and the record returned, whatever follows it. -/
theorem decodeFromReader_encB (r : Record) (h : wfRecord r = true) (rest : Bytes) :
    decodeFromReader (encB r ++ rest) = ((encB r).length, .ok r) := by
  have hfits := wfRecord_fits r h
  have hL := encB_length r h
  have hhs : recordHeaderSize = 13 := rfl
  obtain ⟨vb, hlen, hnf⟩ := encB_normal r h
  have hlen4 : ¬ (encB r ++ rest).length < 4 := by
    rw [List.length_append, hL]
    omega
  have hr0 : readU32 (encB r ++ rest) 0 = (encB r).length := by
    have : encB r ++ rest = bytesLE 4 (recordHeaderSize + r.key.length + valueLen r) ++
        ([r.dataType] ++ (bytesLE 4 r.key.length ++ (bytesLE 4 (valueLen r) ++
          (r.key ++ (vb ++ rest))))) := by
      rw [hnf]
      simp [List.append_assoc]
    rw [this, frame_readU32_0, hL]
    exact Nat.mod_eq_of_lt hfits
  have hdecode : Record.decode (encB r) = .ok r := by
    have hd := decode_encB r h []
    rwa [List.append_nil] at hd
  have hmin : min (encB r).length (encB r ++ rest).length = (encB r).length := by
    rw [List.length_append]
    omega
  have hsub : (encB r).length - (encB r ++ rest).length = 0 := by
    rw [List.length_append]
    omega
  unfold decodeFromReader
  rw [if_neg hlen4]
  simp only [hr0, hmin, hsub, List.replicate_zero, List.append_nil,
    List.take_left, hdecode]

/-- The byte string `Encode` produces for a string record, before any
arithmetic simplification (everything here is a definitional
computation). -/
theorem encode_str (k s : Bytes) :
    (Record.encode ⟨k, .str s, 1⟩) =
      .ok (bytesLE 4 ((recordHeaderSize + s.length % 2 ^ 32 + k.length % 2 ^ 32) % 2 ^ 32) ++
        [1 % 256] ++ bytesLE 4 (k.length % 2 ^ 32) ++ bytesLE 4 (s.length % 2 ^ 32) ++
        k ++ s) := rfl

/-! ### Scan and rebuild characterization -/

theorem concatFrames_append (a b : List Record) :
    concatFrames (a ++ b) = concatFrames a ++ concatFrames b := by
  induction a with
  | nil => rfl
  | cons r rest ih => simp [concatFrames, ih]

theorem engineLog_append (G : Ghost) (a b : List FileName) :
    engineLog G (a ++ b) = engineLog G a ++ engineLog G b := by
  induction a with
  | nil => rfl
  | cons f rest ih => simp [engineLog, ih]

theorem lastRec_append (a b : List Record) (k : Key) :
    lastRec (a ++ b) k =
      match lastRec b k with
      | some r => some r
      | none => lastRec a k := by
  induction a with
  | nil =>
    rw [List.nil_append]
    cases hb : lastRec b k <;> rfl
  | cons r rest ih =>
    rw [List.cons_append]
    show (match lastRec (rest ++ b) k with
      | some x => some x
      | none => if r.key = k then some r else none) = _
    rw [ih]
    cases hb : lastRec b k <;> rfl

/-- Scanning the concatenated frames of well-formed records succeeds,
with any fuel above the byte count, and reports each record's key at its
frame's starting offset. -/
theorem scanGo_frames (recs : List Record) (hwf : ∀ r ∈ recs, wfRecord r = true)
    (fuel off : Nat) (acc : SegPairs) (hf : (concatFrames recs).length < fuel) :
    scanGo fuel (concatFrames recs) off acc = .ok (acc ++ framePositions recs off) := by
  induction recs generalizing fuel off acc with
  | nil =>
    obtain ⟨f, rfl⟩ : ∃ f, fuel = f + 1 := ⟨fuel - 1, by omega⟩
    show scanGo (f + 1) [] off acc = .ok (acc ++ [])
    rw [List.append_nil]
    rfl
  | cons r rest ih =>
    have hwr : wfRecord r = true := hwf r (by simp)
    have hlen13 : (encB r).length = recordHeaderSize + r.key.length + valueLen r :=
      encB_length r hwr
    obtain ⟨f, rfl⟩ : ∃ f, fuel = f + 1 := ⟨fuel - 1, by omega⟩
    have hCF : concatFrames (r :: rest) = encB r ++ concatFrames rest := rfl
    rw [hCF] at hf ⊢
    show (match decodeFromReader (encB r ++ concatFrames rest) with
      | (n, Except.error DErr.endOfInput) =>
        if n ≠ 0 then Except.error DErr.corruptSeg else Except.ok acc
      | (_, Except.error e) => Except.error e
      | (n, Except.ok r') => scanGo f ((encB r ++ concatFrames rest).drop n) (off + n)
          (acc ++ [(r'.key, off)])) = _
    rw [decodeFromReader_encB r hwr (concatFrames rest)]
    show scanGo f ((encB r ++ concatFrames rest).drop (encB r).length)
        (off + (encB r).length) (acc ++ [(r.key, off)]) = _
    rw [List.drop_left (encB r) (concatFrames rest)]
    rw [ih (fun x hx => hwf x (by simp [hx])) f (off + (encB r).length)
      (acc ++ [(r.key, off)])
      (by
        rw [List.length_append] at hf
        have h13 : recordHeaderSize = 13 := rfl
        omega)]
    show Except.ok ((acc ++ [(r.key, off)]) ++ framePositions rest (off + (encB r).length)) = _
    rw [List.append_assoc]
    rfl

/-- `getIndexFromPath` on a well-formed segment file. -/
theorem scanSeg_frames (recs : List Record) (hwf : ∀ r ∈ recs, wfRecord r = true) :
    scanSeg (concatFrames recs) = .ok (framePositions recs 0) := by
  unfold scanSeg
  rw [scanGo_frames recs hwf _ 0 [] (by omega)]
  rfl

theorem lookupLast_framePositions (recs : List Record) (off : Nat) (k : Key) :
    lookupLast (framePositions recs off) k = lastOff recs off k := by
  induction recs generalizing off with
  | nil => rfl
  | cons r rest ih =>
    show (match lookupLast (framePositions rest (off + (encB r).length)) k with
      | some o => some o
      | none => if r.key = k then some off else none) = _
    rw [ih]
    rfl

theorem lastOff_none_iff (recs : List Record) (off : Nat) (k : Key) :
    lastOff recs off k = none ↔ lastRec recs k = none := by
  induction recs generalizing off with
  | nil => simp [lastOff, lastRec]
  | cons r rest ih =>
    show (match lastOff rest (off + (encB r).length) k with
      | some o => some o
      | none => if r.key = k then some off else none) = none ↔
      (match lastRec rest k with
      | some x => some x
      | none => if r.key = k then some r else none) = none
    cases ho : lastOff rest (off + (encB r).length) k with
    | some o =>
      cases hr : lastRec rest k with
      | some x => simp
      | none => rw [← ih (off + (encB r).length)] at hr; rw [ho] at hr; cases hr
    | none =>
      cases hr : lastRec rest k with
      | some x =>
        have hnone := (ih (off + (encB r).length)).mp ho
        rw [hr] at hnone
        cases hnone
      | none => by_cases hk : r.key = k <;> simp [hk]

theorem lastOff_some (recs : List Record) (off : Nat) (k : Key) (o : Nat)
    (h : lastOff recs off k = some o) :
    ∃ pre r post, recs = pre ++ r :: post ∧ r.key = k ∧ lastRec post k = none ∧
      o = off + (concatFrames pre).length ∧ lastRec recs k = some r := by
  induction recs generalizing off with
  | nil => cases h
  | cons r rest ih =>
    have hstep : lastOff (r :: rest) off k =
        match lastOff rest (off + (encB r).length) k with
        | some o' => some o'
        | none => if r.key = k then some off else none := rfl
    rw [hstep] at h
    cases ho : lastOff rest (off + (encB r).length) k with
    | some o2 =>
      rw [ho] at h
      obtain rfl : o2 = o := by simpa using h
      obtain ⟨pre, r', post, hsplit, hkey, hpost, hoEq, hlast⟩ := ih (off + (encB r).length) ho
      subst hsplit
      refine ⟨r :: pre, r', post, rfl, hkey, hpost, ?_, ?_⟩
      · rw [hoEq]
        show off + (encB r).length + (concatFrames pre).length =
          off + (encB r ++ concatFrames pre).length
        rw [List.length_append]
        omega
      · show (match lastRec (pre ++ r' :: post) k with
          | some x => some x
          | none => if r.key = k then some r else none) = some r'
        rw [hlast]
    | none =>
      rw [ho] at h
      by_cases hk : r.key = k
      · rw [if_pos hk] at h
        obtain rfl : off = o := by simpa using h
        have hrest : lastRec rest k = none := (lastOff_none_iff rest _ k).mp ho
        refine ⟨[], r, rest, rfl, hk, hrest, by simp [concatFrames], ?_⟩
        show (match lastRec rest k with
          | some x => some x
          | none => if r.key = k then some r else none) = some r
        rw [hrest, if_pos hk]
      · rw [if_neg hk] at h
        cases h

theorem engineLog_single (G : Ghost) (f : FileName) :
    engineLog G [f] = recsOf G f := by
  show recsOf G f ++ [] = recsOf G f
  exact List.append_nil _

theorem canonIdxAux_append (G : Ghost) (idx : Idx) (a b : List FileName) :
    canonIdxAux G idx (a ++ b) = canonIdxAux G (canonIdxAux G idx a) b := by
  induction a generalizing idx with
  | nil => rfl
  | cons f rest ih =>
    show canonIdxAux G (mergeSeg idx f (framePositions (recsOf G f) 0)) (rest ++ b) = _
    rw [ih]
    rfl

theorem canonIdxAux_override (G : Ghost) (idx : Idx) (names : List FileName) (k : Key) :
    canonIdxAux G idx names k =
      match canonIdx G names k with
      | some p => some p
      | none => idx k := by
  induction names generalizing idx with
  | nil => rfl
  | cons f rest ih =>
    show canonIdxAux G (mergeSeg idx f (framePositions (recsOf G f) 0)) rest k = _
    rw [ih]
    have hrhs : canonIdx G (f :: rest) k =
        canonIdxAux G (mergeSeg (fun _ => none) f (framePositions (recsOf G f) 0)) rest k := rfl
    rw [hrhs, ih]
    cases hc : canonIdx G rest k with
    | some p => rfl
    | none =>
      show mergeSeg idx f (framePositions (recsOf G f) 0) k = _
      unfold mergeSeg
      cases hl : lookupLast (framePositions (recsOf G f) 0) k <;> rfl

theorem canonIdx_append (G : Ghost) (a b : List FileName) (k : Key) :
    canonIdx G (a ++ b) k =
      match canonIdx G b k with
      | some p => some p
      | none => canonIdx G a k := by
  unfold canonIdx
  rw [canonIdxAux_append, canonIdxAux_override G _ b k]
  rfl

theorem canonIdx_single (G : Ghost) (f : FileName) (k : Key) :
    canonIdx G [f] k =
      match lastOff (recsOf G f) 0 k with
      | some off => some ⟨f, off⟩
      | none => none := by
  show mergeSeg (fun _ => none) f (framePositions (recsOf G f) 0) k = _
  unfold mergeSeg
  rw [lookupLast_framePositions]

/-- The canonical index is empty exactly where the log is. -/
theorem canonIdx_none_iff (G : Ghost) (names : List FileName) (k : Key) :
    canonIdx G names k = none ↔ lastRec (engineLog G names) k = none := by
  induction names using List.reverseRecOn with
  | nil => simp [canonIdx, canonIdxAux, engineLog, lastRec]
  | append_singleton a f ih =>
    rw [canonIdx_append, engineLog_append, lastRec_append, engineLog_single]
    cases hf : lastOff (recsOf G f) 0 k with
    | some off =>
      have hne : lastRec (recsOf G f) k ≠ none := by
        intro hc
        rw [(lastOff_none_iff _ 0 k).mpr hc] at hf
        cases hf
      rw [canonIdx_single, hf]
      cases hl : lastRec (recsOf G f) k with
      | some r => simp
      | none => exact absurd hl hne
    | none =>
      have hnone : lastRec (recsOf G f) k = none := (lastOff_none_iff _ 0 k).mp hf
      rw [canonIdx_single, hf, hnone]
      exact ih

/-- A canonical index entry locates the last record with that key: the
file is in the scanned list, the offset is a frame boundary inside it,
the record there has the key, no later record in that file or any later
file has it, and it is the last binding of the key in the whole log. -/
theorem canonIdx_some (G : Ghost) (names : List FileName) (k : Key) (f : FileName) (off : Nat)
    (h : canonIdx G names k = some ⟨f, off⟩) :
    f ∈ names ∧
    ∃ pre r post, recsOf G f = pre ++ r :: post ∧ r.key = k ∧ lastRec post k = none ∧
      off = (concatFrames pre).length ∧ lastRec (engineLog G names) k = some r := by
  induction names using List.reverseRecOn with
  | nil => cases h
  | append_singleton a f' ih =>
    rw [canonIdx_append] at h
    rw [engineLog_append, lastRec_append, engineLog_single]
    cases hf : lastOff (recsOf G f') 0 k with
    | some off' =>
      rw [canonIdx_single, hf] at h
      have h2 : some (⟨f', off'⟩ : Pos) = some ⟨f, off⟩ := h
      have h3 : (⟨f', off'⟩ : Pos) = ⟨f, off⟩ := by injection h2
      injection h3 with h4 h5
      subst h4
      subst h5
      obtain ⟨pre, r, post, hsplit, hkey, hpost, hoEq, hlast⟩ := lastOff_some _ 0 k off' hf
      refine ⟨by simp, pre, r, post, hsplit, hkey, hpost, by omega, ?_⟩
      rw [hlast]
    | none =>
      rw [canonIdx_single, hf] at h
      have hnone : lastRec (recsOf G f') k = none := (lastOff_none_iff _ 0 k).mp hf
      obtain ⟨hmem, pre, r, post, hsplit, hkey, hpost, hoEq, hlast⟩ := ih h
      refine ⟨by simp [hmem], pre, r, post, hsplit, hkey, hpost, hoEq, ?_⟩
      rw [hnone, hlast]

/-- `rebuildIndex` over segments computes the canonical index whenever
the files scanned hold well-formed frames described by the ghost view. -/
theorem rebuildSegs_ghost (G : Ghost) (names : List FileName) (fs : Files) (idx : Idx)
    (hlook : ∀ f ∈ names, lookupFile fs f = (G f).map concatFrames)
    (hsome : ∀ f ∈ names, (G f).isSome)
    (hwf : ∀ f ∈ names, ∀ r ∈ recsOf G f, wfRecord r = true) :
    rebuildSegs names fs idx = .ok (canonIdxAux G idx names) := by
  induction names generalizing idx with
  | nil => rfl
  | cons f rest ih =>
    obtain ⟨recs, hG⟩ := Option.isSome_iff_exists.mp (hsome f (by simp))
    have hrecs : recsOf G f = recs := by unfold recsOf; rw [hG]; rfl
    have hl : lookupFile fs f = some (concatFrames recs) := by
      rw [hlook f (by simp), hG]
      rfl
    show (match lookupFile fs f with
      | none => Except.error DErr.ioError
      | some content => do
        let pairs ← scanSeg content
        rebuildSegs rest fs (mergeSeg idx f pairs)) = _
    rw [hl]
    show (do
      let pairs ← scanSeg (concatFrames recs)
      rebuildSegs rest fs (mergeSeg idx f pairs)) = _
    rw [scanSeg_frames recs (by rw [← hrecs]; exact hwf f (by simp))]
    show rebuildSegs rest fs (mergeSeg idx f (framePositions recs 0)) = _
    rw [ih _ (fun x hx => hlook x (List.mem_cons_of_mem f hx))
      (fun x hx => hsome x (List.mem_cons_of_mem f hx))
      (fun x hx => hwf x (List.mem_cons_of_mem f hx))]
    show Except.ok (canonIdxAux G (mergeSeg idx f (framePositions recs 0)) rest) =
      Except.ok (canonIdxAux G (mergeSeg idx f (framePositions (recsOf G f) 0)) rest)
    rw [hrecs]

/-- `rebuildIndexLocked` with an open current segment. -/
theorem rebuildIndex_ghost (G : Ghost) (names : List FileName) (cur : FileName) (fs : Files)
    (hlook : ∀ f ∈ names ++ [cur], lookupFile fs f = (G f).map concatFrames)
    (hsome : ∀ f ∈ names ++ [cur], (G f).isSome)
    (hwf : ∀ f ∈ names ++ [cur], ∀ r ∈ recsOf G f, wfRecord r = true) :
    rebuildIndex names (some cur) fs = .ok (canonIdx G (names ++ [cur])) := by
  unfold rebuildIndex
  rw [rebuildSegs_ghost G names fs _ (fun f hf => hlook f (by simp [hf]))
    (fun f hf => hsome f (by simp [hf])) (fun f hf => hwf f (by simp [hf]))]
  obtain ⟨recs, hG⟩ := Option.isSome_iff_exists.mp (hsome cur (by simp))
  have hrecs : recsOf G cur = recs := by unfold recsOf; rw [hG]; rfl
  have hl : lookupFile fs cur = some (concatFrames recs) := by
    rw [hlook cur (by simp), hG]
    rfl
  show (match lookupFile fs cur with
    | none => Except.error DErr.ioError
    | some content => do
      let pairs ← scanSeg content
      Except.ok (mergeSeg (canonIdxAux G (fun _ => none) names) cur pairs)) = _
  rw [hl]
  show (do
    let pairs ← scanSeg (concatFrames recs)
    Except.ok (mergeSeg (canonIdxAux G (fun _ => none) names) cur pairs)) = _
  rw [scanSeg_frames recs (by rw [← hrecs]; exact hwf cur (by simp))]
  show Except.ok (mergeSeg (canonIdxAux G (fun _ => none) names) cur
    (framePositions recs 0)) = _
  rw [← hrecs]
  unfold canonIdx
  rw [canonIdxAux_append]
  rfl

/-- `rebuildIndexLocked` with no current segment (during `open`). -/
theorem rebuildIndex_none_ghost (G : Ghost) (names : List FileName) (fs : Files)
    (hlook : ∀ f ∈ names, lookupFile fs f = (G f).map concatFrames)
    (hsome : ∀ f ∈ names, (G f).isSome)
    (hwf : ∀ f ∈ names, ∀ r ∈ recsOf G f, wfRecord r = true) :
    rebuildIndex names none fs = .ok (canonIdx G names) := by
  unfold rebuildIndex
  rw [rebuildSegs_ghost G names fs _ hlook hsome hwf]
  rfl

/-! ### File-system operation lemmas -/

theorem lookupFile_cons (n : FileName) (c : Bytes) (rest : Files) (f : FileName) :
    lookupFile ((n, c) :: rest) f = if n = f then some c else lookupFile rest f := by
  unfold lookupFile
  by_cases h : n = f
  · rw [List.find?_cons_of_pos _ (by simpa using h), if_pos h]
    rfl
  · rw [List.find?_cons_of_neg _ (by simpa using h), if_neg h]

theorem lookupFile_append (a b : Files) (f : FileName) :
    lookupFile (a ++ b) f =
      match lookupFile a f with
      | some c => some c
      | none => lookupFile b f := by
  induction a with
  | nil => rw [List.nil_append]; cases hb : lookupFile b f <;> rfl
  | cons p rest ih =>
    obtain ⟨n, c⟩ := p
    rw [List.cons_append, lookupFile_cons, lookupFile_cons]
    by_cases h : n = f
    · rw [if_pos h, if_pos h]
    · rw [if_neg h, if_neg h, ih]

theorem lookupFile_appendFile (fs : Files) (g f : FileName) (data : Bytes) :
    lookupFile (appendFile fs g data) f =
      if f = g then (lookupFile fs f).map (fun c => c ++ data)
      else lookupFile fs f := by
  induction fs with
  | nil => by_cases hfg : f = g <;> simp [appendFile, lookupFile, hfg]
  | cons p rest ih =>
    obtain ⟨n, c⟩ := p
    have hstep : appendFile ((n, c) :: rest) g data =
        (n, if n = g then c ++ data else c) :: appendFile rest g data := by
      by_cases h : n = g <;> simp [appendFile, h]
    rw [hstep, lookupFile_cons, lookupFile_cons]
    by_cases hnf : n = f
    · subst hnf
      by_cases hfg : n = g
      · simp [hfg]
      · have hgf : ¬ g = n := fun h => hfg h.symm
        simp [hfg, hgf]
    · rw [if_neg hnf, ih]
      by_cases hfg : f = g
      · rw [if_pos hfg, if_pos hfg, if_neg hnf]
      · rw [if_neg hfg, if_neg hfg, if_neg hnf]

theorem lookupFile_removeFile (fs : Files) (g f : FileName) :
    lookupFile (removeFile fs g) f =
      if f = g then none else lookupFile fs f := by
  induction fs with
  | nil => by_cases hfg : f = g <;> simp [removeFile, lookupFile, hfg]
  | cons p rest ih =>
    obtain ⟨n, c⟩ := p
    by_cases hng : n = g
    · have hstep : removeFile ((n, c) :: rest) g = removeFile rest g := by
        simp [removeFile, List.filter_cons, hng]
      rw [hstep, ih, lookupFile_cons]
      by_cases hfg : f = g
      · rw [if_pos hfg, if_pos hfg]
      · rw [if_neg hfg, if_neg hfg, if_neg (by rw [hng]; exact fun h => hfg h.symm)]
    · have hstep : removeFile ((n, c) :: rest) g = (n, c) :: removeFile rest g := by
        simp [removeFile, List.filter_cons, hng]
      rw [hstep, lookupFile_cons, ih, lookupFile_cons]
      by_cases hnf : n = f
      · rw [if_pos hnf, if_pos hnf, if_neg (by rw [← hnf]; exact hng)]
      · rw [if_neg hnf, if_neg hnf]

theorem lookupFile_setFile (fs : Files) (g : FileName) (c : Bytes) (f : FileName) :
    lookupFile (setFile fs g c) f = if f = g then some c else lookupFile fs f := by
  unfold setFile
  rw [lookupFile_append, lookupFile_removeFile]
  by_cases hfg : f = g
  · rw [if_pos hfg, if_pos hfg]
    show lookupFile [(g, c)] f = some c
    rw [lookupFile_cons, if_pos hfg.symm]
  · rw [if_neg hfg, if_neg hfg]
    cases h : lookupFile fs f with
    | some d => rfl
    | none =>
      show lookupFile [(g, c)] f = none
      rw [lookupFile_cons, if_neg (fun h => hfg h.symm)]
      rfl

theorem lookupFile_foldl_remove (names : List FileName) (fs : Files) (f : FileName) :
    lookupFile (names.foldl removeFile fs) f =
      if f ∈ names then none else lookupFile fs f := by
  induction names generalizing fs with
  | nil => simp
  | cons n rest ih =>
    rw [List.foldl_cons, ih, lookupFile_removeFile]
    by_cases hfn : f = n
    · simp [hfn]
    · by_cases hfr : f ∈ rest <;> simp [hfn, hfr]

/-! ### Ghost view updates -/

theorem recsOf_updG_same (G : Ghost) (f : FileName) (recs : List Record) :
    recsOf (updG G f recs) f = recs := by
  unfold recsOf updG
  simp

theorem recsOf_updG_other (G : Ghost) (f g : FileName) (recs : List Record)
    (h : g ≠ f) : recsOf (updG G f recs) g = recsOf G g := by
  unfold recsOf updG
  rw [if_neg h]

theorem canonIdxAux_congr (G G' : Ghost) (names : List FileName) (idx : Idx)
    (h : ∀ f ∈ names, recsOf G f = recsOf G' f) :
    canonIdxAux G idx names = canonIdxAux G' idx names := by
  induction names generalizing idx with
  | nil => rfl
  | cons f rest ih =>
    show canonIdxAux G (mergeSeg idx f (framePositions (recsOf G f) 0)) rest = _
    rw [h f (by simp), ih _ (fun x hx => h x (by simp [hx]))]
    rfl

theorem canonIdx_congr (G G' : Ghost) (names : List FileName)
    (h : ∀ f ∈ names, recsOf G f = recsOf G' f) :
    canonIdx G names = canonIdx G' names :=
  canonIdxAux_congr G G' names _ h

theorem engineLog_congr (G G' : Ghost) (names : List FileName)
    (h : ∀ f ∈ names, recsOf G f = recsOf G' f) :
    engineLog G names = engineLog G' names := by
  induction names with
  | nil => rfl
  | cons f rest ih =>
    show recsOf G f ++ engineLog G rest = recsOf G' f ++ engineLog G' rest
    rw [h f (by simp), ih (fun x hx => h x (by simp [hx]))]

theorem lastOff_snoc (recs : List Record) (r : Record) (off : Nat) (k : Key) :
    lastOff (recs ++ [r]) off k =
      if r.key = k then some (off + (concatFrames recs).length)
      else lastOff recs off k := by
  induction recs generalizing off with
  | nil =>
    show (match lastOff [] (off + (encB r).length) k with
      | some o => some o
      | none => if r.key = k then some off else none) = _
    by_cases hk : r.key = k <;> simp [lastOff, hk, concatFrames]
  | cons q rest ih =>
    show (match lastOff (rest ++ [r]) (off + (encB q).length) k with
      | some o => some o
      | none => if q.key = k then some off else none) = _
    rw [ih]
    by_cases hk : r.key = k
    · rw [if_pos hk, if_pos hk]
      show some (off + (encB q).length + (concatFrames rest).length) = _
      have : concatFrames (q :: rest) = encB q ++ concatFrames rest := rfl
      rw [this, List.length_append]
      congr 1
      omega
    · rw [if_neg hk, if_neg hk]
      rfl

/-- Appending one record to the last file of the order updates the
canonical index at exactly that record's key, pointing at the end of the
file's previous contents. -/
theorem canonIdx_snoc_last (G : Ghost) (names : List FileName) (cur : FileName)
    (hnot : cur ∉ names) (recs : List Record) (hG : G cur = some recs)
    (r : Record) (k : Key) :
    canonIdx (updG G cur (recs ++ [r])) (names ++ [cur]) k =
      if k = r.key then some ⟨cur, (concatFrames recs).length⟩
      else canonIdx G (names ++ [cur]) k := by
  have hrecs : recsOf G cur = recs := by unfold recsOf; rw [hG]; rfl
  have hcongr : ∀ f ∈ names, recsOf (updG G cur (recs ++ [r])) f = recsOf G f :=
    fun f hf => recsOf_updG_other G cur f _ (fun h => hnot (h ▸ hf))
  rw [canonIdx_append, canonIdx_append, canonIdx_single, canonIdx_single,
    recsOf_updG_same, hrecs, lastOff_snoc, canonIdx_congr _ G names hcongr]
  by_cases hk : r.key = k
  · rw [if_pos hk, if_pos hk.symm]
    simp
  · rw [if_neg hk, if_neg (fun h => hk h.symm)]

/-! ### Reading through the invariant -/

/-- A key's last record in the engine log is exactly what `db.get`
returns. -/
theorem getRec_of_inv (sup : Nat → Int) (s : Db) (G : Ghost) (inv : EngineInv sup s G)
    (k : Key) (r : Record) (h : lastRec (dbLog s G) k = some r) :
    getRec s k = .ok r := by
  cases hpos : canonIdx G (ordFiles s) k with
  | none =>
    rw [canonIdx_none_iff] at hpos
    rw [show dbLog s G = engineLog G (ordFiles s) from rfl, hpos] at h
    cases h
  | some pos =>
    obtain ⟨f, off⟩ := pos
    obtain ⟨hmem, pre, r', post, hsplit, hkey, hpost, hoEq, hlast⟩ :=
      canonIdx_some G (ordFiles s) k f off hpos
    have hr : r' = r := by
      rw [show dbLog s G = engineLog G (ordFiles s) from rfl, hlast] at h
      injection h
    subst hr
    have hidx : s.index k = some ⟨f, off⟩ := by rw [inv.idx_eq k, hpos]
    have hsome : (G f).isSome := (inv.dom_eq f).mpr hmem
    obtain ⟨recs, hG⟩ := Option.isSome_iff_exists.mp hsome
    have hrecs : recsOf G f = recs := by unfold recsOf; rw [hG]; rfl
    have hlook : lookupFile s.files f = some (concatFrames recs) := by
      rw [inv.files_eq f, hG]
      rfl
    have hwfr : wfRecord r' = true := inv.wf_all f r' (by rw [hsplit]; simp)
    have hdrop : (concatFrames recs).drop off = encB r' ++ concatFrames post := by
      rw [← hrecs, hsplit, concatFrames_append]
      have : concatFrames (r' :: post) = encB r' ++ concatFrames post := rfl
      rw [this, hoEq, List.drop_left]
    simp only [getRec, hidx, hlook, hdrop, decodeFromReader_encB r' hwfr]

/-! ### Timestamp freshness -/

theorem sup_inj (sup : Nat → Int) (hmono : ∀ i j, i < j → sup i < sup j)
    (i j : Nat) (h : sup i = sup j) : i = j := by
  rcases lt_trichotomy i j with h' | h' | h'
  · exact absurd h (ne_of_lt (hmono i j h'))
  · exact h'
  · exact absurd h.symm (ne_of_lt (hmono j i h'))

theorem fresh_not_mem (sup : Nat → Int) (hmono : ∀ i j, i < j → sup i < sup j)
    (s : Db) (G : Ghost) (inv : EngineInv sup s G) (j : Nat) (hj : s.clock ≤ j) :
    FileName.seg (sup j) ∉ ordFiles s := by
  intro hmem
  obtain ⟨i, hi, hEq⟩ := inv.name_ts _ hmem
  have hsup : sup j = sup i := by injection hEq
  have := sup_inj sup hmono j i hsup
  omega

theorem fresh_G_none (sup : Nat → Int) (hmono : ∀ i j, i < j → sup i < sup j)
    (s : Db) (G : Ghost) (inv : EngineInv sup s G) (j : Nat) (hj : s.clock ≤ j) :
    G (FileName.seg (sup j)) = none := by
  rcases hG : G (FileName.seg (sup j)) with _ | recs
  · rfl
  · exact absurd ((inv.dom_eq _).mp (by rw [hG]; rfl))
      (fresh_not_mem sup hmono s G inv j hj)

theorem ord_ts_bound (sup : Nat → Int) (s : Db) (G : Ghost) (inv : EngineInv sup s G)
    (t : Int) (ht : t ∈ (ordFiles s).filterMap segTs) :
    ∃ i, i < s.clock ∧ t = sup i := by
  rw [List.mem_filterMap] at ht
  obtain ⟨f, hf, hseg⟩ := ht
  obtain ⟨i, hi, hEq⟩ := inv.name_ts f hf
  subst hEq
  exact ⟨i, hi, by injection hseg with h; rw [h]⟩

theorem map_fst_appendFile (fs : Files) (g : FileName) (data : Bytes) :
    (appendFile fs g data).map Prod.fst = fs.map Prod.fst := by
  unfold appendFile
  rw [List.map_map]
  apply List.map_congr_left
  intro p _
  show (if (p.1 == g) = true then (p.1, p.2 ++ data) else p).1 = p.1
  split <;> rfl

theorem getLast?_mem_list {α : Type} (l : List α) (a : α) (h : l.getLast? = some a) :
    a ∈ l := by
  obtain ⟨hne, rfl⟩ := List.mem_getLast?_eq_getLast (x := a) (by rw [h]; rfl)
  exact List.getLast_mem hne

/-! ### Rotation preserves the invariant -/

theorem rotate_inv (sup : Nat → Int) (hmono : ∀ i j, i < j → sup i < sup j)
    (s : Db) (G : Ghost) (inv : EngineInv sup s G) :
    EngineInv sup (rotateDispatch sup s) (updG G (FileName.seg (sup (s.clock + 1))) []) ∧
    dbLog (rotateDispatch sup s) (updG G (FileName.seg (sup (s.clock + 1))) []) = dbLog s G ∧
    (rotateDispatch sup s).currentOffset = 0 := by
  set nf := FileName.seg (sup (s.clock + 1)) with hnf
  set G' := updG G nf [] with hG'
  have hfresh : nf ∉ ordFiles s := fresh_not_mem sup hmono s G inv (s.clock + 1) (by omega)
  have hGnone : G nf = none := fresh_G_none sup hmono s G inv (s.clock + 1) (by omega)
  have hlooknf : lookupFile s.files nf = none := by rw [inv.files_eq, hGnone]; rfl
  have hcs : createSeg s.files (sup (s.clock + 1)) = (s.files ++ [(nf, [])], 0) := by
    unfold createSeg
    rw [← hnf, hlooknf]
  have hs' : rotateDispatch sup s =
      { s with
        segments := s.segments ++ [s.current]
        current := nf
        currentOffset := 0
        files := s.files ++ [(nf, [])]
        dispatched :=
          if s.compactionThreshold ≤ (s.segments ++ [s.current]).length then
            s.dispatched ++ [sup s.clock]
          else s.dispatched
        clock := s.clock + 2 } := by
    unfold rotateDispatch
    rw [hcs]
  have hordEq : ordFiles (rotateDispatch sup s) = ordFiles s ++ [nf] := by
    rw [hs']
    show (s.segments ++ [s.current]) ++ [nf] = (s.segments ++ [s.current]) ++ [nf]
    rfl
  have hrecsnf : recsOf G' nf = [] := recsOf_updG_same G nf []
  have hcongr : ∀ f ∈ ordFiles s, recsOf G' f = recsOf G f := fun f hf =>
    recsOf_updG_other G nf f [] (fun h => hfresh (h ▸ hf))
  have hlog : dbLog (rotateDispatch sup s) G' = dbLog s G := by
    unfold dbLog
    rw [hordEq, engineLog_append, engineLog_single, hrecsnf, List.append_nil]
    exact engineLog_congr G' G (ordFiles s) (fun f hf => (hcongr f hf))
  refine ⟨?_, hlog, by rw [hs']⟩
  have hGsome : ∀ f, (G' f).isSome ↔ (f = nf ∨ (G f).isSome) := by
    intro f
    unfold updG at *
    rw [hG']
    by_cases h : f = nf <;> simp [updG, h]
  constructor
  case files_eq =>
    intro f
    rw [hs']
    show lookupFile (s.files ++ [(nf, [])]) f = _
    rw [lookupFile_append]
    by_cases h : f = nf
    · subst h
      rw [hlooknf]
      show lookupFile [(nf, [])] nf = (G' nf).map concatFrames
      rw [lookupFile_cons, if_pos rfl]
      rw [hG']
      show some [] = (updG G nf [] nf).map concatFrames
      unfold updG
      rw [if_pos rfl]
      rfl
    · rw [inv.files_eq f]
      have : G' f = G f := by rw [hG']; unfold updG; rw [if_neg h]
      rw [this]
      cases hv : G f with
      | some recs => rfl
      | none =>
        show lookupFile [(nf, [])] f = none
        rw [lookupFile_cons, if_neg (fun hh => h hh.symm)]
        rfl
  case files_perm =>
    rw [hs']
    show ((s.files ++ [(nf, [])]).map Prod.fst).Perm ((s.segments ++ [s.current]) ++ [nf])
    rw [List.map_append]
    exact (inv.files_perm).append_right [nf]
  case dom_eq =>
    intro f
    rw [hordEq, hGsome f, List.mem_append]
    rw [List.mem_singleton]
    constructor
    · rintro (h | h)
      · exact Or.inr h
      · exact Or.inl ((inv.dom_eq f).mp h)
    · rintro (h | h)
      · exact Or.inr ((inv.dom_eq f).mpr h)
      · exact Or.inl h
  case names_nodup =>
    rw [hordEq, List.nodup_append]
    exact ⟨inv.names_nodup, List.nodup_singleton nf,
      fun a ha hb => hfresh (by rw [List.mem_singleton] at hb; rw [← hb]; exact ha)⟩
  case wf_all =>
    intro f r hr
    by_cases h : f = nf
    · subst h
      rw [hrecsnf] at hr
      cases hr
    · rw [recsOf_updG_other G nf f [] h] at hr
      exact inv.wf_all f r hr
  case name_ts =>
    intro f hf
    rw [hordEq, List.mem_append, List.mem_singleton] at hf
    rw [hs']
    show ∃ i, i < s.clock + 2 ∧ f = FileName.seg (sup i)
    rcases hf with hf | hf
    · obtain ⟨i, hi, hEq⟩ := inv.name_ts f hf
      exact ⟨i, by omega, hEq⟩
    · exact ⟨s.clock + 1, by omega, hf⟩
  case ts_chain =>
    rw [hordEq, List.filterMap_append]
    rw [List.chain'_append]
    refine ⟨inv.ts_chain, by simp [segTs], ?_⟩
    intro x hx y hy
    have hx' : x ∈ (ordFiles s).filterMap segTs := getLast?_mem_list _ x hx
    obtain ⟨i, hi, rfl⟩ := ord_ts_bound sup s G inv x hx'
    have hy' : y = sup (s.clock + 1) := by
      simp [segTs] at hy
      omega
    rw [hy']
    exact hmono i (s.clock + 1) (by omega)
  case off_eq =>
    rw [hs']
    show 0 = (concatFrames (recsOf G' nf)).length
    rw [hrecsnf]
    rfl
  case idx_eq =>
    intro k
    rw [hs']
    show s.index k = canonIdx G' (ordFiles (rotateDispatch sup s)) k
    rw [hordEq, canonIdx_append, canonIdx_single, hrecsnf]
    show s.index k = canonIdx G' (ordFiles s) k
    rw [inv.idx_eq k, canonIdx_congr G' G (ordFiles s) hcongr]
  case disp_inv =>
    intro t ht
    rw [hs'] at ht
    have hone : ∀ t', t' ∈ s.dispatched →
        (∃ i, i < s.clock + 2 ∧ t' = sup i) ∧ G' (FileName.seg t') = none ∧
        (∀ tc, nf = FileName.seg tc → t' < tc) := by
      intro t' ht'
      obtain ⟨⟨i, hi, hEq⟩, hnone, hlt⟩ := inv.disp_inv t' ht'
      refine ⟨⟨i, by omega, hEq⟩, ?_, ?_⟩
      · rw [hG']
        unfold updG
        rw [if_neg, hnone]
        intro hc
        have : sup i = sup (s.clock + 1) := by
          subst hEq
          injection hc
        have := sup_inj sup hmono i (s.clock + 1) this
        omega
      · intro tc htc
        have : tc = sup (s.clock + 1) := by rw [hnf] at htc; injection htc with h; omega
        subst hEq
        rw [this]
        exact hmono i (s.clock + 1) (by omega)
    have hd : ∀ tc, nf = FileName.seg tc → sup s.clock < tc := by
      intro tc htc
      have : tc = sup (s.clock + 1) := by rw [hnf] at htc; injection htc with h; omega
      rw [this]
      exact hmono s.clock (s.clock + 1) (by omega)
    show (∃ i, i < s.clock + 2 ∧ t = sup i) ∧ G' (FileName.seg t) = none ∧
      (∀ tc, nf = FileName.seg tc → t < tc)
    split at ht
    · rw [List.mem_append, List.mem_singleton] at ht
      rcases ht with ht | ht
      · exact hone t ht
      · subst ht
        refine ⟨⟨s.clock, by omega, rfl⟩, ?_, hd⟩
        rw [hG']
        unfold updG
        rw [if_neg, fresh_G_none sup hmono s G inv s.clock (by omega)]
        intro hc
        have : sup s.clock = sup (s.clock + 1) := by injection hc
        have := sup_inj sup hmono s.clock (s.clock + 1) this
        omega
    · exact hone t ht
  case disp_pair =>
    rw [hs']
    show (if s.compactionThreshold ≤ (s.segments ++ [s.current]).length
      then s.dispatched ++ [sup s.clock] else s.dispatched).Pairwise (· < ·)
    split
    · rw [List.pairwise_append]
      refine ⟨inv.disp_pair, List.pairwise_singleton _ _, ?_⟩
      intro a ha b hb
      rw [List.mem_singleton] at hb
      subst hb
      obtain ⟨⟨i, hi, hEq⟩, _, _⟩ := inv.disp_inv a ha
      rw [hEq]
      exact hmono i s.clock hi
    · exact inv.disp_pair
  case pend_inv =>
    intro snap hsnap
    rw [hs'] at hsnap
    obtain ⟨⟨i, hi, htsEq⟩, hfreshp, hndisp, hcur, hsegsP, hpre,
      act0, recs0, rest0, hhead, hact, hidx0⟩ :=
      inv.pend_inv snap hsnap
    have hlen : snap.segs.length ≤ s.segments.length := by
      have := congrArg List.length hpre
      rw [List.length_take] at this
      omega
    have hact0mem : act0 ∈ ordFiles s := by
      rcases hdrop : s.segments.drop snap.segs.length with _ | ⟨a, rest⟩
      · rw [hdrop] at hhead
        have : act0 = s.current := by
          rw [List.nil_append] at hhead
          injection hhead with h
          exact h.symm
        rw [this]
        unfold ordFiles
        simp
      · rw [hdrop] at hhead
        have : act0 = a := by
          rw [List.cons_append] at hhead
          injection hhead with h
          exact h.symm
        subst this
        have : act0 ∈ s.segments := by
          have hsub := List.drop_subset snap.segs.length s.segments
          rw [hdrop] at hsub
          exact hsub (by simp)
        unfold ordFiles
        rw [List.mem_append]
        exact Or.inl this
    have hact0ne : act0 ≠ nf := fun h => hfresh (h ▸ hact0mem)
    refine ⟨⟨i, by rw [hs']; show i < s.clock + 2; omega, htsEq⟩, ?_, ?_, ?_, ?_, ?_, ?_⟩
    · rw [hG']
      unfold updG
      rw [if_neg, hfreshp]
      intro hc
      have : sup i = sup (s.clock + 1) := by rw [htsEq] at hc; injection hc
      have := sup_inj sup hmono i (s.clock + 1) this
      omega
    · rw [hs']
      show snap.ts ∉ (if s.compactionThreshold ≤ (s.segments ++ [s.current]).length
        then s.dispatched ++ [sup s.clock] else s.dispatched)
      intro hmem
      split at hmem
      · rw [List.mem_append, List.mem_singleton] at hmem
        rcases hmem with hmem | hmem
        · exact hndisp hmem
        · rw [htsEq] at hmem
          have := sup_inj sup hmono i s.clock hmem
          omega
      · exact hndisp hmem
    · intro t htc
      rw [hs'] at htc
      have htc' : FileName.seg (sup (s.clock + 1)) = FileName.seg t := htc
      injection htc' with h
      rw [← h, htsEq]
      exact hmono i (s.clock + 1) (by omega)
    · intro f hf hnotin t hft
      rw [hs'] at hf
      show snap.ts < t
      rw [List.mem_append, List.mem_singleton] at hf
      rcases hf with hf | hf
      · exact hsegsP f hf hnotin t hft
      · subst hf
        have hnot2 : s.current ∉ snap.segs := by
          intro hin
          have hsub : snap.segs ⊆ s.segments := by
            rw [← hpre]
            exact List.take_subset _ _
          have : s.current ∈ s.segments := hsub hin
          have hnd := inv.names_nodup
          unfold ordFiles at hnd
          rw [List.nodup_append] at hnd
          exact hnd.2.2 this (by simp)
        exact hcur t hft
    · rw [hs']
      show (s.segments ++ [s.current]).take snap.segs.length = snap.segs
      rw [List.take_append_of_le_length hlen, hpre]
    · refine ⟨act0, recs0, rest0, ?_, ?_, ?_⟩
      · rw [hs']
        show ((s.segments ++ [s.current]).drop snap.segs.length ++ [nf]).head? = some act0
        rw [List.drop_append_of_le_length hlen]
        rcases hdrop : s.segments.drop snap.segs.length with _ | ⟨a, rest⟩
        · rw [hdrop] at hhead
          rw [List.nil_append] at hhead ⊢
          rw [List.cons_append]
          exact hhead
        · rw [hdrop] at hhead
          rw [List.cons_append] at hhead ⊢
          rw [List.cons_append]
          exact hhead
      · rw [hG']
        unfold updG
        rw [if_neg hact0ne]
        exact hact
      · intro k
        rw [hidx0 k]
        have : ∀ f ∈ snap.segs ++ [act0],
            recsOf (updG G' act0 recs0) f = recsOf (updG G act0 recs0) f := by
          intro f hf
          by_cases hfa : f = act0
          · subst hfa
            rw [recsOf_updG_same, recsOf_updG_same]
          · rw [recsOf_updG_other _ _ _ _ hfa, recsOf_updG_other _ _ _ _ hfa]
            apply recsOf_updG_other
            intro hc
            subst hc
            rw [List.mem_append, List.mem_singleton] at hf
            rcases hf with hf | hf
            · exact hfresh (by
                unfold ordFiles
                rw [List.mem_append]
                exact Or.inl ((by rw [← hpre]; exact List.take_subset _ _ : snap.segs ⊆ s.segments) hf))
            · exact hfa hf
        rw [canonIdx_congr _ _ _ this]

/-! ### Appending a record preserves the invariant -/

theorem write_inv (sup : Nat → Int) (s : Db) (G : Ghost) (inv : EngineInv sup s G)
    (r : Record) (hwf : wfRecord r = true) :
    EngineInv sup
      { s with
        files := appendFile s.files s.current (encB r)
        index := setIdx s.index r.key ⟨s.current, s.currentOffset⟩
        currentOffset := s.currentOffset + (encB r).length }
      (updG G s.current (recsOf G s.current ++ [r])) ∧
    dbLog
      { s with
        files := appendFile s.files s.current (encB r)
        index := setIdx s.index r.key ⟨s.current, s.currentOffset⟩
        currentOffset := s.currentOffset + (encB r).length }
      (updG G s.current (recsOf G s.current ++ [r])) = dbLog s G ++ [r] := by
  have hcurmem : s.current ∈ ordFiles s := by unfold ordFiles; simp
  have hGsome : (G s.current).isSome := (inv.dom_eq s.current).mpr hcurmem
  obtain ⟨recs0, hGcur0⟩ := Option.isSome_iff_exists.mp hGsome
  have hGcur : G s.current = some (recsOf G s.current) := by
    unfold recsOf
    rw [hGcur0]
    rfl
  have hcurnot : s.current ∉ s.segments := by
    have hnd := inv.names_nodup
    unfold ordFiles at hnd
    rw [List.nodup_append] at hnd
    intro hmem
    exact hnd.2.2 hmem (by simp)
  have hcongrSegs : ∀ f ∈ s.segments,
      recsOf (updG G s.current (recsOf G s.current ++ [r])) f = recsOf G f := by
    intro f hf
    exact recsOf_updG_other _ _ _ _ (fun h => hcurnot (h ▸ hf))
  have hlenr : (concatFrames (recsOf G s.current ++ [r])).length =
      (concatFrames (recsOf G s.current)).length + (encB r).length := by
    rw [concatFrames_append]
    simp [concatFrames]
  have hlog : dbLog
      { s with
        files := appendFile s.files s.current (encB r)
        index := setIdx s.index r.key ⟨s.current, s.currentOffset⟩
        currentOffset := s.currentOffset + (encB r).length }
      (updG G s.current (recsOf G s.current ++ [r])) = dbLog s G ++ [r] := by
    show engineLog (updG G s.current (recsOf G s.current ++ [r])) (s.segments ++ [s.current]) =
      engineLog G (s.segments ++ [s.current]) ++ [r]
    rw [engineLog_append, engineLog_append, engineLog_single, engineLog_single,
      recsOf_updG_same, engineLog_congr _ G s.segments hcongrSegs, ← List.append_assoc]
  refine ⟨?_, hlog⟩
  constructor
  case files_eq =>
    intro f
    show lookupFile (appendFile s.files s.current (encB r)) f = _
    rw [lookupFile_appendFile]
    by_cases h : f = s.current
    · rw [if_pos h, inv.files_eq f, h, hGcur]
      show some (concatFrames (recsOf G s.current) ++ encB r) =
        (updG G s.current (recsOf G s.current ++ [r]) s.current).map concatFrames
      unfold updG
      rw [if_pos rfl]
      show some (concatFrames (recsOf G s.current) ++ encB r) =
        some (concatFrames (recsOf G s.current ++ [r]))
      rw [concatFrames_append]
      simp [concatFrames]
    · rw [if_neg h, inv.files_eq f]
      show (G f).map concatFrames =
        (updG G s.current (recsOf G s.current ++ [r]) f).map concatFrames
      unfold updG
      rw [if_neg h]
  case files_perm =>
    show ((appendFile s.files s.current (encB r)).map Prod.fst).Perm (ordFiles s)
    rw [map_fst_appendFile]
    exact inv.files_perm
  case dom_eq =>
    intro f
    show (updG G s.current (recsOf G s.current ++ [r]) f).isSome ↔ f ∈ ordFiles s
    unfold updG
    by_cases h : f = s.current
    · rw [if_pos h, h]
      exact ⟨fun _ => hcurmem, fun _ => rfl⟩
    · rw [if_neg h]
      exact inv.dom_eq f
  case names_nodup => exact inv.names_nodup
  case wf_all =>
    intro f r' hr'
    by_cases h : f = s.current
    · subst h
      rw [recsOf_updG_same] at hr'
      rw [List.mem_append, List.mem_singleton] at hr'
      rcases hr' with hr' | hr'
      · exact inv.wf_all _ r' hr'
      · rw [hr']
        exact hwf
    · rw [recsOf_updG_other _ _ _ _ h] at hr'
      exact inv.wf_all f r' hr'
  case name_ts => exact inv.name_ts
  case ts_chain => exact inv.ts_chain
  case off_eq =>
    show s.currentOffset + (encB r).length =
      (concatFrames (recsOf (updG G s.current (recsOf G s.current ++ [r])) s.current)).length
    rw [recsOf_updG_same, hlenr, inv.off_eq]
  case idx_eq =>
    intro k
    show setIdx s.index r.key ⟨s.current, s.currentOffset⟩ k =
      canonIdx (updG G s.current (recsOf G s.current ++ [r])) (s.segments ++ [s.current]) k
    rw [canonIdx_snoc_last G s.segments s.current hcurnot _ hGcur r k]
    unfold setIdx
    by_cases h : k = r.key
    · rw [if_pos h, if_pos h, inv.off_eq]
    · rw [if_neg h, if_neg h, inv.idx_eq k]
      rfl
  case disp_inv =>
    intro t ht
    obtain ⟨hid, hnone, hlt⟩ := inv.disp_inv t ht
    refine ⟨hid, ?_, hlt⟩
    show updG G s.current (recsOf G s.current ++ [r]) (FileName.seg t) = none
    unfold updG
    have hne : FileName.seg t ≠ s.current := by
      intro hc
      rw [hc] at hnone
      rw [hnone] at hGcur
      cases hGcur
    rw [if_neg hne]
    exact hnone
  case disp_pair => exact inv.disp_pair
  case pend_inv =>
    intro snap hsnap
    obtain ⟨hts, hfreshp, hndisp, hcur, hsegsP, hpre,
      act0, recs0, rest0, hhead, hact, hidx0⟩ :=
      inv.pend_inv snap hsnap
    have hsub : snap.segs ⊆ s.segments := by
      rw [← hpre]
      exact List.take_subset _ _
    refine ⟨hts, ?_, hndisp, hcur, hsegsP, hpre, ?_⟩
    · show updG G s.current (recsOf G s.current ++ [r]) (FileName.seg snap.ts) = none
      unfold updG
      have hne : FileName.seg snap.ts ≠ s.current := by
        intro hc
        rw [hc] at hfreshp
        rw [hfreshp] at hGcur
        cases hGcur
      rw [if_neg hne]
      exact hfreshp
    · by_cases hac : act0 = s.current
      · refine ⟨act0, recs0, rest0 ++ [r], hhead, ?_, ?_⟩
        · subst hac
          show updG G s.current (recsOf G s.current ++ [r]) s.current =
            some (recs0 ++ (rest0 ++ [r]))
          unfold updG
          rw [if_pos rfl]
          have hsplit : recsOf G s.current = recs0 ++ rest0 := by
            unfold recsOf
            rw [hact]
            rfl
          rw [hsplit, List.append_assoc]
        · intro k
          rw [hidx0 k]
          apply congrFun
          apply canonIdx_congr
          intro f hf
          by_cases hfa : f = act0
          · subst hfa
            rw [recsOf_updG_same, recsOf_updG_same]
          · rw [recsOf_updG_other _ _ _ _ hfa, recsOf_updG_other _ _ _ _ hfa]
            have hfcur : f ≠ s.current := by
              intro hc
              rcases List.mem_append.mp hf with h1 | h1
              · exact hcurnot (hc ▸ hsub h1)
              · exact hfa (List.mem_singleton.mp h1)
            exact (recsOf_updG_other _ _ _ _ hfcur).symm
      · refine ⟨act0, recs0, rest0, hhead, ?_, ?_⟩
        · show updG G s.current (recsOf G s.current ++ [r]) act0 = some (recs0 ++ rest0)
          unfold updG
          rw [if_neg hac]
          exact hact
        · intro k
          rw [hidx0 k]
          apply congrFun
          apply canonIdx_congr
          intro f hf
          by_cases hfa : f = act0
          · subst hfa
            rw [recsOf_updG_same, recsOf_updG_same]
          · rw [recsOf_updG_other _ _ _ _ hfa, recsOf_updG_other _ _ _ _ hfa]
            have hfcur : f ≠ s.current := by
              intro hc
              rcases List.mem_append.mp hf with h1 | h1
              · exact hcurnot (hc ▸ hsub h1)
              · exact hfa (List.mem_singleton.mp h1)
            exact (recsOf_updG_other _ _ _ _ hfcur).symm

/-! ### `put` preserves the invariant and appends to the log -/

theorem putRec_eq (sup : Nat → Int) (s : Db) (r : Record) (b : Bytes)
    (h : r.encode = .ok b) :
    putRec sup s r = .ok
      (let s1 := if s.maxSegmentSize < s.currentOffset + b.length
        then rotateDispatch sup s else s
       { s1 with
         files := appendFile s1.files s1.current b
         index := setIdx s1.index r.key ⟨s1.current, s1.currentOffset⟩
         currentOffset := s1.currentOffset + b.length }) := by
  unfold putRec
  rw [h]
  rfl

theorem putRec_inv (sup : Nat → Int) (hmono : ∀ i j, i < j → sup i < sup j)
    (s : Db) (G : Ghost) (inv : EngineInv sup s G)
    (r : Record) (hwf : wfRecord r = true) :
    ∃ s' G', putRec sup s r = .ok s' ∧ EngineInv sup s' G' ∧
      dbLog s' G' = dbLog s G ++ [r] := by
  have henc : r.encode = Except.ok (encB r) := encB_of_wf r hwf
  have hput := putRec_eq sup s r (encB r) henc
  by_cases hrot : s.maxSegmentSize < s.currentOffset + (encB r).length
  · rw [if_pos hrot] at hput
    obtain ⟨inv1, hlog1, _⟩ := rotate_inv sup hmono s G inv
    obtain ⟨inv2, hlog2⟩ := write_inv sup (rotateDispatch sup s) _ inv1 r hwf
    exact ⟨_, _, hput, inv2, by rw [hlog2, hlog1]⟩
  · rw [if_neg hrot] at hput
    obtain ⟨inv2, hlog2⟩ := write_inv sup s G inv r hwf
    exact ⟨_, _, hput, inv2, hlog2⟩

theorem not_mem_eraseIdx_of_nodup {α : Type} (l : List α) (hnd : l.Nodup)
    (j : Nat) (a : α) (h : l[j]? = some a) : a ∉ l.eraseIdx j := by
  induction l generalizing j with
  | nil => cases h
  | cons x rest ih =>
    cases j with
    | zero =>
      rw [List.getElem?_cons_zero] at h
      have hx : x = a := by injection h
      subst hx
      show x ∉ rest
      exact (List.nodup_cons.mp hnd).1
    | succ n =>
      rw [List.getElem?_cons_succ] at h
      show a ∉ x :: rest.eraseIdx n
      intro hmem
      rcases List.mem_cons.mp hmem with h1 | h1
      · have ham : a ∈ rest := List.getElem?_mem h
        exact (List.nodup_cons.mp hnd).1 (h1 ▸ ham)
      · exact ih (List.nodup_cons.mp hnd).2 n h h1

/-! ### `compactStart` (the CAS plus snapshot) preserves the invariant -/

theorem cstart_inv (sup : Nat → Int) (s : Db) (G : Ghost) (inv : EngineInv sup s G)
    (j : Nat) (s' : Db) (h : compactStart s j = .ok s') :
    EngineInv sup s' G ∧ dbLog s' G = dbLog s G := by
  cases hget : s.dispatched[j]? with
  | none =>
    have hcs : compactStart s j = .error .invalidOp := by
      unfold compactStart
      rw [hget]
    rw [hcs] at h
    cases h
  | some ts =>
    have htsmem : ts ∈ s.dispatched := List.getElem?_mem hget
    obtain ⟨⟨i0, hi0, hts0⟩, hGnone, hlt⟩ := inv.disp_inv ts htsmem
    have hsubE : s.dispatched.eraseIdx j ⊆ s.dispatched :=
      (List.eraseIdx_sublist s.dispatched j).subset
    have hpairE : (s.dispatched.eraseIdx j).Pairwise (· < ·) :=
      List.Pairwise.sublist (List.eraseIdx_sublist s.dispatched j) inv.disp_pair
    have hnd : s.dispatched.Nodup := inv.disp_pair.imp (fun hab => ne_of_lt hab)
    have hnotinE : ts ∉ s.dispatched.eraseIdx j :=
      not_mem_eraseIdx_of_nodup _ hnd j ts hget
    cases hp : s.pending with
    | some snap0 =>
      have hcs : compactStart s j = .ok { s with dispatched := s.dispatched.eraseIdx j } := by
        unfold compactStart
        rw [hget, hp]
      rw [hcs] at h
      injection h with h
      subst h
      refine ⟨?_, rfl⟩
      constructor
      case files_eq => exact inv.files_eq
      case files_perm => exact inv.files_perm
      case dom_eq => exact inv.dom_eq
      case names_nodup => exact inv.names_nodup
      case wf_all => exact inv.wf_all
      case name_ts => exact inv.name_ts
      case ts_chain => exact inv.ts_chain
      case off_eq => exact inv.off_eq
      case idx_eq => exact inv.idx_eq
      case disp_inv => exact fun t ht => inv.disp_inv t (hsubE ht)
      case disp_pair => exact hpairE
      case pend_inv =>
        intro snap hsnap
        obtain ⟨htsP, hfreshp, hndisp, hcur, hsegsP, hpre, hrest⟩ :=
          inv.pend_inv snap hsnap
        exact ⟨htsP, hfreshp, fun hm => hndisp (hsubE hm), hcur, hsegsP, hpre, hrest⟩
    | none =>
      have hcs : compactStart s j = .ok
          { s with dispatched := s.dispatched.eraseIdx j
                   pending := some ⟨ts, s.segments, s.index⟩ } := by
        unfold compactStart
        rw [hget, hp]
      rw [hcs] at h
      injection h with h
      subst h
      refine ⟨?_, rfl⟩
      constructor
      case files_eq => exact inv.files_eq
      case files_perm => exact inv.files_perm
      case dom_eq => exact inv.dom_eq
      case names_nodup => exact inv.names_nodup
      case wf_all => exact inv.wf_all
      case name_ts => exact inv.name_ts
      case ts_chain => exact inv.ts_chain
      case off_eq => exact inv.off_eq
      case idx_eq => exact inv.idx_eq
      case disp_inv => exact fun t ht => inv.disp_inv t (hsubE ht)
      case disp_pair => exact hpairE
      case pend_inv =>
        intro snap hsnap
        have hsnapEq : snap = ⟨ts, s.segments, s.index⟩ := by
          have hs0 : some (⟨ts, s.segments, s.index⟩ : Snap) = some snap := hsnap
          injection hs0 with hs0
          exact hs0.symm
        subst hsnapEq
        refine ⟨⟨i0, hi0, hts0⟩, hGnone, hnotinE, hlt, ?_, ?_, ?_⟩
        · intro f hf hnot t hft
          exact absurd hf hnot
        · show s.segments.take s.segments.length = s.segments
          exact List.take_length _
        · refine ⟨s.current, recsOf G s.current, [], ?_, ?_, ?_⟩
          · show (s.segments.drop s.segments.length ++ [s.current]).head? = some s.current
            rw [List.drop_length]
            rfl
          · show G s.current = some (recsOf G s.current ++ [])
            rw [List.append_nil]
            have hcm : s.current ∈ ordFiles s := by unfold ordFiles; simp
            obtain ⟨r0, hr0⟩ :=
              Option.isSome_iff_exists.mp ((inv.dom_eq s.current).mpr hcm)
            unfold recsOf
            rw [hr0]
            rfl
          · intro k
            show s.index k = canonIdx (updG G s.current (recsOf G s.current))
              (s.segments ++ [s.current]) k
            rw [inv.idx_eq k]
            apply congrFun
            apply canonIdx_congr
            intro f hf
            by_cases hfc : f = s.current
            · subst hfc
              rw [recsOf_updG_same]
            · rw [recsOf_updG_other _ _ _ _ hfc]

/-! ### Live-record lemmas for compaction -/

theorem mem_liveFrom (f : FileName) (idx0 : Idx) (recs : List Record) (off : Nat)
    (r : Record) (h : r ∈ liveFrom f idx0 recs off) : r ∈ recs := by
  induction recs generalizing off with
  | nil => cases h
  | cons p rest ih =>
    have h' : r ∈ (if idx0 p.key = some ⟨f, off⟩ then [p] else []) ++
        liveFrom f idx0 rest (off + (encB p).length) := h
    show r ∈ p :: rest
    rcases List.mem_append.mp h' with h1 | h1
    · split at h1
      · rw [List.mem_singleton] at h1
        exact h1 ▸ List.mem_cons_self _ _
      · cases h1
    · exact List.mem_cons_of_mem _ (ih _ h1)

theorem mem_liveRecs (G : Ghost) (idx0 : Idx) (names : List FileName) (r : Record)
    (h : r ∈ liveRecs G idx0 names) : ∃ f ∈ names, r ∈ recsOf G f := by
  induction names with
  | nil => cases h
  | cons f rest ih =>
    have h' : r ∈ liveFrom f idx0 (recsOf G f) 0 ++ liveRecs G idx0 rest := h
    rcases List.mem_append.mp h' with h1 | h1
    · exact ⟨f, by simp, mem_liveFrom _ _ _ _ _ h1⟩
    · obtain ⟨g, hg, hr⟩ := ih h1
      exact ⟨g, by simp [hg], hr⟩

theorem liveRecs_append (G : Ghost) (idx0 : Idx) (a b : List FileName) :
    liveRecs G idx0 (a ++ b) = liveRecs G idx0 a ++ liveRecs G idx0 b := by
  induction a with
  | nil => rfl
  | cons f rest ih =>
    show liveFrom f idx0 (recsOf G f) 0 ++ liveRecs G idx0 (rest ++ b) =
      (liveFrom f idx0 (recsOf G f) 0 ++ liveRecs G idx0 rest) ++ liveRecs G idx0 b
    rw [ih, List.append_assoc]

theorem lastRec_none_iff_keys (l : List Record) (k : Key) :
    lastRec l k = none ↔ ∀ r ∈ l, r.key ≠ k := by
  induction l with
  | nil => simp [lastRec]
  | cons r rest ih =>
    show (match lastRec rest k with
      | some x => some x
      | none => if r.key = k then some r else none) = none ↔ _
    constructor
    · intro h r' hr'
      rcases List.mem_cons.mp hr' with h1 | h1
      · subst h1
        cases hrest : lastRec rest k with
        | some x => rw [hrest] at h; cases h
        | none =>
          rw [hrest] at h
          intro hk
          rw [if_pos hk] at h
          cases h
      · cases hrest : lastRec rest k with
        | some x => rw [hrest] at h; cases h
        | none => exact (ih.mp hrest) r' h1
    · intro h
      have hrest : lastRec rest k = none :=
        ih.mpr (fun r' hr' => h r' (List.mem_cons_of_mem _ hr'))
      rw [hrest, if_neg (h r (List.mem_cons_self _ _))]

theorem liveFrom_no_key (f : FileName) (idx0 : Idx) (recs : List Record) (off : Nat)
    (k : Key) (h : ∀ o, idx0 k ≠ some ⟨f, o⟩) :
    ∀ r ∈ liveFrom f idx0 recs off, r.key ≠ k := by
  induction recs generalizing off with
  | nil => intro r hr; cases hr
  | cons p rest ih =>
    intro r hr
    have h' : r ∈ (if idx0 p.key = some ⟨f, off⟩ then [p] else []) ++
        liveFrom f idx0 rest (off + (encB p).length) := hr
    rcases List.mem_append.mp h' with h1 | h1
    · split at h1
      case isTrue htest =>
        rw [List.mem_singleton] at h1
        subst h1
        intro hk
        rw [hk] at htest
        exact h off htest
      case isFalse => cases h1
    · exact ih _ r h1

theorem liveRecs_no_key (G : Ghost) (idx0 : Idx) (names : List FileName) (k : Key)
    (h : ∀ f ∈ names, ∀ o, idx0 k ≠ some ⟨f, o⟩) :
    ∀ r ∈ liveRecs G idx0 names, r.key ≠ k := by
  induction names with
  | nil => intro r hr; cases hr
  | cons f rest ih =>
    intro r hr
    have h' : r ∈ liveFrom f idx0 (recsOf G f) 0 ++ liveRecs G idx0 rest := hr
    rcases List.mem_append.mp h' with h1 | h1
    · exact liveFrom_no_key f idx0 _ 0 k (h f (by simp)) r h1
    · exact ih (fun g hg => h g (by simp [hg])) r h1

theorem lastRec_liveFrom_found (f : FileName) (idx0 : Idx) (k : Key)
    (pre : List Record) (r0 : Record) (post0 : List Record) (off : Nat)
    (hk : r0.key = k) (hpost : lastRec post0 k = none)
    (hidx : idx0 k = some ⟨f, off + (concatFrames pre).length⟩) :
    lastRec (liveFrom f idx0 (pre ++ r0 :: post0) off) k = some r0 := by
  induction pre generalizing off with
  | nil =>
    have hidx' : idx0 k = some ⟨f, off⟩ := by rw [hidx]; rfl
    show lastRec ((if idx0 r0.key = some ⟨f, off⟩ then [r0] else []) ++
      liveFrom f idx0 post0 (off + (encB r0).length)) k = some r0
    rw [hk, if_pos hidx']
    have hlive_none : lastRec (liveFrom f idx0 post0 (off + (encB r0).length)) k =
        none := by
      rw [lastRec_none_iff_keys]
      intro r hr
      exact (lastRec_none_iff_keys post0 k).mp hpost r (mem_liveFrom _ _ _ _ _ hr)
    rw [lastRec_append, hlive_none]
    show (if r0.key = k then some r0 else none) = some r0
    rw [if_pos hk]
  | cons p pre' ih =>
    show lastRec ((if idx0 p.key = some ⟨f, off⟩ then [p] else []) ++
      liveFrom f idx0 (pre' ++ r0 :: post0) (off + (encB p).length)) k = some r0
    have hlive : lastRec (liveFrom f idx0 (pre' ++ r0 :: post0)
        (off + (encB p).length)) k = some r0 := by
      apply ih
      rw [hidx]
      show some (⟨f, off + (concatFrames (p :: pre')).length⟩ : Pos) =
        some ⟨f, off + (encB p).length + (concatFrames pre').length⟩
      rw [show concatFrames (p :: pre') = encB p ++ concatFrames pre' from rfl,
        List.length_append, Nat.add_assoc]
    rw [lastRec_append, hlive]

theorem lastRec_liveRecs (G : Ghost) (idx0 : Idx) (names : List FileName)
    (hnd : names.Nodup) (k : Key) (hidx : idx0 k = canonIdx G names k) :
    lastRec (liveRecs G idx0 names) k = lastRec (engineLog G names) k := by
  cases hcan : canonIdx G names k with
  | none =>
    rw [hcan] at hidx
    rw [(canonIdx_none_iff G names k).mp hcan, lastRec_none_iff_keys]
    exact liveRecs_no_key G idx0 names k
      (fun f hf o hco => by rw [hidx] at hco; cases hco)
  | some pos =>
    obtain ⟨f0, off0⟩ := pos
    rw [hcan] at hidx
    obtain ⟨hf0, pre, r0, post0, hdecomp, hk0, hpostnone, hoff, hlastlog⟩ :=
      canonIdx_some G names k f0 off0 hcan
    rw [hlastlog]
    obtain ⟨n1, n2, hn⟩ := List.append_of_mem hf0
    subst hn
    have hnd' := hnd
    rw [List.nodup_append] at hnd'
    have hf0n1 : f0 ∉ n1 := fun hx => hnd'.2.2 hx (by simp)
    have hf0n2 : f0 ∉ n2 := by
      have hc := hnd'.2.1
      rw [List.nodup_cons] at hc
      exact hc.1
    rw [liveRecs_append]
    have hn2some : lastRec (liveRecs G idx0 (f0 :: n2)) k = some r0 := by
      show lastRec (liveFrom f0 idx0 (recsOf G f0) 0 ++ liveRecs G idx0 n2) k =
        some r0
      have h2 : lastRec (liveRecs G idx0 n2) k = none := by
        rw [lastRec_none_iff_keys]
        refine liveRecs_no_key G idx0 n2 k ?_
        intro f hf o hco
        rw [hidx] at hco
        have hposEq : (⟨f0, off0⟩ : Pos) = ⟨f, o⟩ := by injection hco
        have hff : f0 = f := congrArg Pos.seg hposEq
        exact hf0n2 (hff ▸ hf)
      rw [lastRec_append, h2, hdecomp]
      apply lastRec_liveFrom_found f0 idx0 k pre r0 post0 0 hk0 hpostnone
      rw [hidx, hoff]
      show some (⟨f0, (concatFrames pre).length⟩ : Pos) =
        some ⟨f0, 0 + (concatFrames pre).length⟩
      rw [Nat.zero_add]
    rw [lastRec_append, hn2some]

/-! ### The compaction rewrite computes exactly the live frames -/

theorem rewriteSeg_cons (content : Bytes) (f : FileName) (idx0 : Idx) (k : Key)
    (off : Nat) (rest : SegPairs) :
    rewriteSeg content f idx0 ((k, off) :: rest) =
      if idx0 k = some ⟨f, off⟩ then
        match decodeFromReader (content.drop off) with
        | (_, .error e) => .error e
        | (_, .ok r) => do
          let data ← r.encode
          let more ← rewriteSeg content f idx0 rest
          .ok (data ++ more)
      else rewriteSeg content f idx0 rest := rfl

theorem rewriteSeg_frames (f : FileName) (idx0 : Idx) (pre recs : List Record)
    (hwf : ∀ r ∈ pre ++ recs, wfRecord r = true) :
    rewriteSeg (concatFrames (pre ++ recs)) f idx0
      (framePositions recs (concatFrames pre).length) =
      .ok (concatFrames (liveFrom f idx0 recs (concatFrames pre).length)) := by
  induction recs generalizing pre with
  | nil => rfl
  | cons r rest ih =>
    have hwfr : wfRecord r = true := hwf r (by simp)
    have hdrop : (concatFrames (pre ++ r :: rest)).drop (concatFrames pre).length =
        encB r ++ concatFrames rest := by
      rw [concatFrames_append]
      have h := List.drop_left (concatFrames pre) (concatFrames (r :: rest))
      rw [show concatFrames (r :: rest) = encB r ++ concatFrames rest from rfl] at h
      exact h
    have hlen : (concatFrames (pre ++ [r])).length =
        (concatFrames pre).length + (encB r).length := by
      rw [concatFrames_append, List.length_append]
      simp [concatFrames]
    have hcat : (pre ++ [r]) ++ rest = pre ++ r :: rest := by
      rw [List.append_assoc]
      rfl
    have ihr := ih (pre ++ [r]) (by rw [hcat]; exact hwf)
    rw [hcat, hlen] at ihr
    rw [show framePositions (r :: rest) (concatFrames pre).length =
      (r.key, (concatFrames pre).length) ::
        framePositions rest ((concatFrames pre).length + (encB r).length) from rfl]
    rw [rewriteSeg_cons]
    by_cases htest : idx0 r.key = some ⟨f, (concatFrames pre).length⟩
    · rw [if_pos htest, hdrop, decodeFromReader_encB r hwfr (concatFrames rest)]
      show (do
        let data ← r.encode
        let more ← rewriteSeg (concatFrames (pre ++ r :: rest)) f idx0
          (framePositions rest ((concatFrames pre).length + (encB r).length))
        (Except.ok (data ++ more) : Except DErr Bytes)) = _
      rw [encB_of_wf r hwfr, ihr]
      show Except.ok (encB r ++
        concatFrames (liveFrom f idx0 rest
          ((concatFrames pre).length + (encB r).length))) = _
      rw [show liveFrom f idx0 (r :: rest) (concatFrames pre).length =
        (if idx0 r.key = some ⟨f, (concatFrames pre).length⟩ then [r] else []) ++
          liveFrom f idx0 rest ((concatFrames pre).length + (encB r).length) from rfl]
      rw [if_pos htest, concatFrames_append]
      show Except.ok (encB r ++
        concatFrames (liveFrom f idx0 rest
          ((concatFrames pre).length + (encB r).length))) =
        Except.ok ((encB r ++ []) ++
        concatFrames (liveFrom f idx0 rest
          ((concatFrames pre).length + (encB r).length)))
      rw [List.append_nil]
    · rw [if_neg htest, ihr]
      rw [show liveFrom f idx0 (r :: rest) (concatFrames pre).length =
        (if idx0 r.key = some ⟨f, (concatFrames pre).length⟩ then [r] else []) ++
          liveFrom f idx0 rest ((concatFrames pre).length + (encB r).length) from rfl]
      rw [if_neg htest, List.nil_append]

theorem rewriteSegs_frames (G : Ghost) (fs : Files) (idx0 : Idx)
    (names : List FileName)
    (hlook : ∀ f ∈ names, lookupFile fs f = (G f).map concatFrames)
    (hsome : ∀ f ∈ names, (G f).isSome)
    (hwf : ∀ f ∈ names, ∀ r ∈ recsOf G f, wfRecord r = true) :
    rewriteSegs fs idx0 names = .ok (concatFrames (liveRecs G idx0 names)) := by
  induction names with
  | nil => rfl
  | cons f rest ih =>
    obtain ⟨recs, hG⟩ := Option.isSome_iff_exists.mp (hsome f (by simp))
    have hrecs : recsOf G f = recs := by unfold recsOf; rw [hG]; rfl
    have hl : lookupFile fs f = some (concatFrames recs) := by
      rw [hlook f (by simp), hG]
      rfl
    show (match lookupFile fs f with
      | none => (Except.error DErr.ioError : Except DErr Bytes)
      | some content => do
        let pairs ← scanSeg content
        let chunk ← rewriteSeg content f idx0 pairs
        let more ← rewriteSegs fs idx0 rest
        Except.ok (chunk ++ more)) = _
    rw [hl]
    show (do
      let pairs ← scanSeg (concatFrames recs)
      let chunk ← rewriteSeg (concatFrames recs) f idx0 pairs
      let more ← rewriteSegs fs idx0 rest
      (Except.ok (chunk ++ more) : Except DErr Bytes)) = _
    rw [scanSeg_frames recs (by rw [← hrecs]; exact hwf f (by simp))]
    show (do
      let chunk ← rewriteSeg (concatFrames recs) f idx0 (framePositions recs 0)
      let more ← rewriteSegs fs idx0 rest
      (Except.ok (chunk ++ more) : Except DErr Bytes)) = _
    have hrw := rewriteSeg_frames f idx0 [] recs
      (by rw [List.nil_append, ← hrecs]; exact hwf f (by simp))
    rw [List.nil_append] at hrw
    have hrw' : rewriteSeg (concatFrames recs) f idx0 (framePositions recs 0) =
        .ok (concatFrames (liveFrom f idx0 recs 0)) := hrw
    rw [hrw']
    show (do
      let more ← rewriteSegs fs idx0 rest
      (Except.ok (concatFrames (liveFrom f idx0 recs 0) ++ more) :
        Except DErr Bytes)) = _
    rw [ih (fun g hg => hlook g (by simp [hg])) (fun g hg => hsome g (by simp [hg]))
      (fun g hg => hwf g (by simp [hg]))]
    show Except.ok (concatFrames (liveFrom f idx0 recs 0) ++
      concatFrames (liveRecs G idx0 rest)) = _
    rw [← concatFrames_append]
    rw [show liveRecs G idx0 (f :: rest) =
      liveFrom f idx0 (recsOf G f) 0 ++ liveRecs G idx0 rest from rfl, hrecs]

/-! ### Directory bookkeeping for the compaction swap -/

theorem removeFile_append (a b : Files) (g : FileName) :
    removeFile (a ++ b) g = removeFile a g ++ removeFile b g := by
  unfold removeFile
  exact List.filter_append a b

theorem removeFile_eq_self (fs : Files) (g : FileName)
    (h : ∀ p ∈ fs, p.1 ≠ g) : removeFile fs g = fs := by
  unfold removeFile
  apply List.filter_eq_self.mpr
  intro p hp
  simpa using h p hp

theorem map_fst_removeFile (fs : Files) (g : FileName) :
    (removeFile fs g).map Prod.fst =
      (fs.map Prod.fst).filter (fun n => n != g) := by
  unfold removeFile
  rw [List.filter_map]
  rfl

theorem foldl_remove_map_fst (names : List FileName) (fs : Files) :
    ((names.foldl removeFile fs).map Prod.fst) =
      names.foldl (fun L g => L.filter (fun n => n != g)) (fs.map Prod.fst) := by
  induction names generalizing fs with
  | nil => rfl
  | cons g rest ih =>
    rw [List.foldl_cons, List.foldl_cons, ih, map_fst_removeFile]

theorem foldl_filter_eq (names : List FileName) (L : List FileName) :
    names.foldl (fun L g => L.filter (fun n => n != g)) L =
      L.filter (fun n => !(names.contains n)) := by
  induction names generalizing L with
  | nil =>
    show L = L.filter _
    exact (List.filter_eq_self.mpr (fun a _ => rfl)).symm
  | cons g rest ih =>
    rw [List.foldl_cons, ih, List.filter_filter]
    apply List.filter_congr
    intro a _
    show ((!(rest.contains a)) && (a != g)) = !((g :: rest).contains a)
    rw [List.contains_cons]
    cases hg : a == g <;> cases hc : rest.contains a <;> simp [hg, hc, bne]

theorem getNewSegments_of_prefix (a b : List FileName) (hnd : (a ++ b).Nodup) :
    getNewSegments (a ++ b) a = b := by
  unfold getNewSegments
  rw [List.filter_append]
  rw [List.nodup_append] at hnd
  have h1 : a.filter (fun f => !(a.contains f)) = [] := by
    apply List.filter_eq_nil_iff.mpr
    intro f hf
    have hc : a.contains f = true := List.elem_eq_true_of_mem hf
    rw [hc]
    simp
  have h2 : b.filter (fun f => !(a.contains f)) = b := by
    apply List.filter_eq_self.mpr
    intro f hf
    have hnotin : f ∉ a := fun hx => hnd.2.2 hx hf
    have hc : a.contains f = false := by
      cases hcc : a.contains f
      · rfl
      · exact absurd (List.mem_of_elem_eq_true hcc) hnotin
    rw [hc]
    rfl
  rw [h1, h2, List.nil_append]

theorem tmp_not_ord (sup : Nat → Int) (s : Db) (G : Ghost)
    (inv : EngineInv sup s G) : FileName.tmp ∉ ordFiles s := by
  intro h
  obtain ⟨i, _, hEq⟩ := inv.name_ts _ h
  cases hEq

theorem mem_engineLog_of_mem (G : Ghost) (names : List FileName) (f : FileName)
    (hf : f ∈ names) (r : Record) (hr : r ∈ recsOf G f) : r ∈ engineLog G names := by
  induction names with
  | nil => cases hf
  | cons g rest ih =>
    show r ∈ recsOf G g ++ engineLog G rest
    rw [List.mem_append]
    rcases List.mem_cons.mp hf with h1 | h1
    · exact Or.inl (h1 ▸ hr)
    · exact Or.inr (ih h1)

theorem compactFinish_fnone (s : Db) (snap : Snap) (repl : Bytes) (idx1 : Idx)
    (hrw : rewriteSegs s.files snap.idx snap.segs = .ok repl)
    (hreb : rebuildIndex
      (FileName.seg snap.ts :: getNewSegments s.segments snap.segs)
      (some s.current)
      (setFile (removeFile s.files .tmp) (.seg snap.ts) repl) = .ok idx1) :
    compactFinish s snap .fnone =
      ({ s with
         pending := none
         files := snap.segs.foldl removeFile
           (setFile (removeFile s.files .tmp) (.seg snap.ts) repl)
         segments := FileName.seg snap.ts :: getNewSegments s.segments snap.segs
         index := idx1 }, none) := by
  unfold compactFinish
  rw [hrw]
  show (match rebuildIndex (FileName.seg snap.ts :: getNewSegments s.segments snap.segs)
      (some s.current) (setFile (removeFile s.files .tmp) (.seg snap.ts) repl) with
    | Except.error e =>
      ({ s with
         pending := none
         files := removeFile (setFile (removeFile s.files .tmp) (.seg snap.ts) repl)
           (.seg snap.ts) }, some e)
    | Except.ok idxR =>
      ({ s with
         pending := none
         files := snap.segs.foldl removeFile
           (setFile (removeFile s.files .tmp) (.seg snap.ts) repl)
         segments := FileName.seg snap.ts :: getNewSegments s.segments snap.segs
         index := idxR }, none)) = _
  rw [hreb]

/-! ### `compactFinish` without faults preserves the invariant -/

theorem cfinish_inv (sup : Nat → Int) (s : Db) (G : Ghost)
    (inv : EngineInv sup s G) (snap : Snap) (hp : s.pending = some snap) :
    ∃ G', EngineInv sup (compactFinish s snap .fnone).1 G' ∧
      (∀ k, lastRec (dbLog (compactFinish s snap .fnone).1 G') k =
        lastRec (dbLog s G) k) ∧
      (compactFinish s snap .fnone).1.segments =
        FileName.seg snap.ts :: getNewSegments s.segments snap.segs ∧
      (compactFinish s snap .fnone).2 = none := by
  obtain ⟨⟨i0, hi0, hts⟩, hGts, hndisp, hcurT, hsegsP, hpre,
    act0, recs0, rest0, hhead, hact, hidx0⟩ := inv.pend_inv snap hp
  set post := s.segments.drop snap.segs.length with hpost
  have hsegs : s.segments = snap.segs ++ post := by
    rw [hpost]
    conv_lhs => rw [← List.take_append_drop snap.segs.length s.segments]
    rw [hpre]
  have hndOrd : (snap.segs ++ (post ++ [s.current])).Nodup := by
    have h := inv.names_nodup
    unfold ordFiles at h
    rw [hsegs, List.append_assoc] at h
    exact h
  have hnd3 := hndOrd
  rw [List.nodup_append] at hnd3
  have hndSegs : (snap.segs ++ post).Nodup := by
    have h := hndOrd
    rw [← List.append_assoc, List.nodup_append] at h
    exact h.1
  have hsnapsub : snap.segs ⊆ ordFiles s := by
    intro f hf
    unfold ordFiles
    rw [hsegs]
    exact List.mem_append_left _ (List.mem_append_left _ hf)
  have hmemL : ∀ f ∈ post ++ [s.current], f ∈ ordFiles s := by
    intro f hf
    unfold ordFiles
    rw [hsegs, List.append_assoc]
    exact List.mem_append_right _ hf
  have hact0mem : act0 ∈ post ++ [s.current] :=
    List.mem_of_mem_head? (by rw [hhead]; rfl)
  have hact0nsnap : act0 ∉ snap.segs := fun hx => hnd3.2.2 hx hact0mem
  have hsegts_nord : FileName.seg snap.ts ∉ ordFiles s := by
    intro hmem
    have h := (inv.dom_eq _).mpr hmem
    rw [hGts] at h
    cases h
  have htmp_nord : FileName.tmp ∉ ordFiles s := tmp_not_ord sup s G inv
  have hGtmp : G .tmp = none := by
    cases hG : G FileName.tmp with
    | none => rfl
    | some x => exact absurd ((inv.dom_eq _).mp (by rw [hG]; rfl)) htmp_nord
  have hlook_ts : lookupFile s.files (.seg snap.ts) = none := by
    rw [inv.files_eq, hGts]
    rfl
  have hlook_tmp : lookupFile s.files .tmp = none := by
    rw [inv.files_eq, hGtmp]
    rfl
  have hname_ord : ∀ p ∈ s.files, p.1 ∈ ordFiles s := fun p hp' =>
    inv.files_perm.subset (List.mem_map_of_mem Prod.fst hp')
  have hrem_tmp : removeFile s.files .tmp = s.files :=
    removeFile_eq_self _ _ (fun p hp' hc => htmp_nord (hc ▸ hname_ord p hp'))
  have hrem_ts : removeFile s.files (.seg snap.ts) = s.files :=
    removeFile_eq_self _ _ (fun p hp' hc => hsegts_nord (hc ▸ hname_ord p hp'))
  set liveR := liveRecs G snap.idx snap.segs with hliveR
  have hrw : rewriteSegs s.files snap.idx snap.segs = .ok (concatFrames liveR) :=
    rewriteSegs_frames G s.files snap.idx snap.segs
      (fun f _ => inv.files_eq f)
      (fun f hf => (inv.dom_eq f).mpr (hsnapsub hf))
      (fun f _ => inv.wf_all f)
  have hfs1 : setFile (removeFile s.files .tmp) (.seg snap.ts) (concatFrames liveR) =
      s.files ++ [(FileName.seg snap.ts, concatFrames liveR)] := by
    unfold setFile
    rw [hrem_tmp, hrem_ts]
  set G1 := updG G (FileName.seg snap.ts) liveR with hG1
  have hG1ts : G1 (FileName.seg snap.ts) = some liveR := by
    rw [hG1]
    unfold updG
    rw [if_pos rfl]
  have hG1ord : ∀ f ∈ ordFiles s, G1 f = G f := by
    intro f hf
    rw [hG1]
    unfold updG
    rw [if_neg (fun hc : f = FileName.seg snap.ts => hsegts_nord (hc ▸ hf))]
  have hnewpost : getNewSegments s.segments snap.segs = post := by
    rw [hsegs]
    exact getNewSegments_of_prefix snap.segs post hndSegs
  have hmemN : ∀ f ∈ (FileName.seg snap.ts ::
      getNewSegments s.segments snap.segs) ++ [s.current],
      f = FileName.seg snap.ts ∨ f ∈ post ++ [s.current] := by
    intro f hf
    rw [List.cons_append, List.mem_cons] at hf
    rcases hf with hf | hf
    · exact Or.inl hf
    · rw [hnewpost] at hf
      exact Or.inr hf
  have hreb : rebuildIndex
      (FileName.seg snap.ts :: getNewSegments s.segments snap.segs)
      (some s.current)
      (setFile (removeFile s.files .tmp) (.seg snap.ts) (concatFrames liveR)) =
      .ok (canonIdx G1 ((FileName.seg snap.ts ::
        getNewSegments s.segments snap.segs) ++ [s.current])) := by
    refine rebuildIndex_ghost G1 _ s.current _ ?_ ?_ ?_
    · intro f hf
      rcases hmemN f hf with hf1 | hf1
      · subst hf1
        rw [hfs1, lookupFile_append, hlook_ts]
        show lookupFile [(FileName.seg snap.ts, concatFrames liveR)]
          (FileName.seg snap.ts) = (G1 (FileName.seg snap.ts)).map concatFrames
        rw [lookupFile_cons, if_pos rfl, hG1ts]
        rfl
      · have hford := hmemL f hf1
        obtain ⟨recs, hGf⟩ := Option.isSome_iff_exists.mp ((inv.dom_eq f).mpr hford)
        rw [hfs1, lookupFile_append, inv.files_eq f, hG1ord f hford, hGf]
        rfl
    · intro f hf
      rcases hmemN f hf with hf1 | hf1
      · subst hf1
        rw [hG1ts]
        rfl
      · rw [hG1ord f (hmemL f hf1)]
        exact (inv.dom_eq f).mpr (hmemL f hf1)
    · intro f hf r hr
      rcases hmemN f hf with hf1 | hf1
      · subst hf1
        rw [show recsOf G1 (FileName.seg snap.ts) = liveR from by
          unfold recsOf; rw [hG1ts]; rfl] at hr
        obtain ⟨g, hg, hrg⟩ := mem_liveRecs G snap.idx snap.segs r hr
        exact inv.wf_all g r hrg
      · rw [show recsOf G1 f = recsOf G f from by
          unfold recsOf; rw [hG1ord f (hmemL f hf1)]] at hr
        exact inv.wf_all f r hr
  have hcf := compactFinish_fnone s snap (concatFrames liveR) _ hrw hreb
  set G2 : Ghost := fun f => if f ∈ snap.segs then none else G1 f with hG2def
  have hG2at : ∀ f, G2 f = if f ∈ snap.segs then none else G1 f := fun f => by
    rw [hG2def]
  have hG2snap : ∀ f ∈ snap.segs, G2 f = none := by
    intro f hf
    rw [hG2at f, if_pos hf]
  have hG2segts : G2 (FileName.seg snap.ts) = some liveR := by
    rw [hG2at, if_neg (fun hx => hsegts_nord (hsnapsub hx)), hG1ts]
  have hG2other : ∀ f ∈ post ++ [s.current], G2 f = G f := by
    intro f hf
    rw [hG2at, if_neg (fun hx => hnd3.2.2 hx hf), hG1ord f (hmemL f hf)]
  have hcontains : ∀ g, g ∉ snap.segs → snap.segs.contains g = false := by
    intro g hg
    cases hcc : snap.segs.contains g
    · rfl
    · exact absurd (List.mem_of_elem_eq_true hcc) hg
  have hcur_nsnap : s.current ∉ snap.segs := fun hx =>
    hnd3.2.2 hx (List.mem_append_right _ (List.mem_singleton.mpr rfl))
  have hsegts_nsnap : FileName.seg snap.ts ∉ snap.segs := fun hx =>
    hsegts_nord (hsnapsub hx)
  refine ⟨G2, ?_, ?_, ?_, ?_⟩
  · rw [hcf]
    constructor
    case files_eq =>
      intro f
      show lookupFile (snap.segs.foldl removeFile
        (setFile (removeFile s.files .tmp) (.seg snap.ts) (concatFrames liveR))) f =
        (G2 f).map concatFrames
      rw [lookupFile_foldl_remove]
      by_cases hmem : f ∈ snap.segs
      · rw [if_pos hmem, hG2snap f hmem]
        rfl
      · rw [if_neg hmem, hfs1, lookupFile_append]
        by_cases hts2 : f = FileName.seg snap.ts
        · subst hts2
          rw [hlook_ts]
          show lookupFile [(FileName.seg snap.ts, concatFrames liveR)]
            (FileName.seg snap.ts) = (G2 (FileName.seg snap.ts)).map concatFrames
          rw [lookupFile_cons, if_pos rfl, hG2segts]
          rfl
        · have hG2f : G2 f = G f := by
            rw [hG2at, if_neg hmem, hG1]
            unfold updG
            rw [if_neg hts2]
          rw [inv.files_eq f, hG2f]
          cases hGf : G f with
          | some recs => rfl
          | none =>
            show lookupFile [(FileName.seg snap.ts, concatFrames liveR)] f = none
            rw [lookupFile_cons, if_neg (fun hc => hts2 hc.symm)]
            rfl
    case files_perm =>
      show ((snap.segs.foldl removeFile
        (setFile (removeFile s.files .tmp) (.seg snap.ts)
          (concatFrames liveR))).map Prod.fst).Perm
        ((FileName.seg snap.ts :: getNewSegments s.segments snap.segs) ++
          [s.current])
      rw [foldl_remove_map_fst, foldl_filter_eq, hfs1, List.map_append]
      have hperm1 : ((s.files.map Prod.fst) ++ [FileName.seg snap.ts]).Perm
          (ordFiles s ++ [FileName.seg snap.ts]) := inv.files_perm.append_right _
      refine (hperm1.filter _).trans ?_
      have hcomp : (ordFiles s ++ [FileName.seg snap.ts]).filter
          (fun n => !(snap.segs.contains n)) =
          (getNewSegments s.segments snap.segs ++ [s.current]) ++
            [FileName.seg snap.ts] := by
        rw [List.filter_append]
        congr 1
        · show (s.segments ++ [s.current]).filter _ = _
          rw [List.filter_append]
          congr 1
          apply List.filter_eq_self.mpr
          intro a ha
          rw [List.mem_singleton] at ha
          subst ha
          rw [hcontains _ hcur_nsnap]
          rfl
        · apply List.filter_eq_self.mpr
          intro a ha
          rw [List.mem_singleton] at ha
          subst ha
          rw [hcontains _ hsegts_nsnap]
          rfl
      rw [hcomp, List.cons_append]
      exact List.perm_append_singleton _ _
    case dom_eq =>
      intro f
      show (G2 f).isSome ↔ f ∈ (FileName.seg snap.ts ::
        getNewSegments s.segments snap.segs) ++ [s.current]
      rw [List.cons_append, List.mem_cons, hnewpost]
      by_cases hmem : f ∈ snap.segs
      · rw [hG2snap f hmem]
        constructor
        · intro h
          exact Bool.noConfusion h
        · rintro (h | h)
          · rw [h] at hmem
            exact absurd (hsnapsub hmem) hsegts_nord
          · exact absurd h (hnd3.2.2 hmem)
      · by_cases hts2 : f = FileName.seg snap.ts
        · subst hts2
          rw [hG2segts]
          exact ⟨fun _ => Or.inl rfl, fun _ => rfl⟩
        · have hG2f : G2 f = G f := by
            rw [hG2at, if_neg hmem, hG1]
            unfold updG
            rw [if_neg hts2]
          rw [hG2f, inv.dom_eq f]
          unfold ordFiles
          rw [hsegs, List.append_assoc, List.mem_append]
          constructor
          · rintro (h | h)
            · exact absurd h hmem
            · exact Or.inr h
          · rintro (h | h)
            · exact absurd h hts2
            · exact Or.inr h
    case names_nodup =>
      show ((FileName.seg snap.ts :: getNewSegments s.segments snap.segs) ++
        [s.current]).Nodup
      rw [List.cons_append, hnewpost, List.nodup_cons]
      refine ⟨?_, hnd3.2.1⟩
      intro hmem
      exact hsegts_nord (hmemL _ hmem)
    case wf_all =>
      intro f r hr
      by_cases hmem : f ∈ snap.segs
      · rw [show recsOf G2 f = [] from by
          unfold recsOf; rw [hG2snap f hmem]; rfl] at hr
        cases hr
      · by_cases hts2 : f = FileName.seg snap.ts
        · subst hts2
          rw [show recsOf G2 (FileName.seg snap.ts) = liveR from by
            unfold recsOf; rw [hG2segts]; rfl] at hr
          obtain ⟨g, hg, hrg⟩ := mem_liveRecs G snap.idx snap.segs r hr
          exact inv.wf_all g r hrg
        · rw [show recsOf G2 f = recsOf G f from by
            unfold recsOf
            rw [hG2at, if_neg hmem, hG1]
            unfold updG
            rw [if_neg hts2]] at hr
          exact inv.wf_all f r hr
    case name_ts =>
      intro f hf
      show ∃ i, i < s.clock ∧ f = FileName.seg (sup i)
      have hf' : f ∈ (FileName.seg snap.ts ::
        getNewSegments s.segments snap.segs) ++ [s.current] := hf
      rw [List.cons_append, hnewpost, List.mem_cons] at hf'
      rcases hf' with hf' | hf'
      · exact ⟨i0, hi0, by rw [hf', hts]⟩
      · exact inv.name_ts f (hmemL f hf')
    case ts_chain =>
      show List.Chain' (· < ·) (((FileName.seg snap.ts ::
        getNewSegments s.segments snap.segs) ++ [s.current]).filterMap segTs)
      rw [List.cons_append, hnewpost]
      rw [show (FileName.seg snap.ts :: (post ++ [s.current])).filterMap segTs =
        snap.ts :: (post ++ [s.current]).filterMap segTs from rfl]
      rw [List.chain'_iff_pairwise]
      have hpw : ((s.segments ++ [s.current]).filterMap segTs).Pairwise (· < ·) :=
        List.chain'_iff_pairwise.mp inv.ts_chain
      have hsub : List.Sublist ((post ++ [s.current]).filterMap segTs)
          ((s.segments ++ [s.current]).filterMap segTs) := by
        apply List.Sublist.filterMap
        rw [hpost]
        exact (List.drop_sublist _ _).append_right _
      refine List.Pairwise.cons ?_ (hpw.sublist hsub)
      intro t ht
      rw [List.mem_filterMap] at ht
      obtain ⟨f, hf, hseg⟩ := ht
      rcases List.mem_append.mp hf with hf1 | hf1
      · have hfseg : f ∈ s.segments := by
          rw [hsegs]
          exact List.mem_append_right _ hf1
        have hfnot : f ∉ snap.segs := fun hx =>
          hnd3.2.2 hx (List.mem_append_left _ hf1)
        cases f with
        | seg tv =>
          have htv : tv = t := by injection hseg
          exact htv ▸ hsegsP _ hfseg hfnot tv rfl
        | tmp => cases hseg
      · rw [List.mem_singleton] at hf1
        subst hf1
        cases hcs : s.current with
        | seg tv =>
          rw [hcs] at hseg
          have htv : tv = t := by injection hseg
          exact htv ▸ hcurT tv hcs
        | tmp =>
          rw [hcs] at hseg
          cases hseg
    case off_eq =>
      show s.currentOffset = (concatFrames (recsOf G2 s.current)).length
      rw [show recsOf G2 s.current = recsOf G s.current from by
        unfold recsOf
        rw [hG2other s.current
          (List.mem_append_right _ (List.mem_singleton.mpr rfl))]]
      exact inv.off_eq
    case idx_eq =>
      intro k
      show canonIdx G1 ((FileName.seg snap.ts ::
          getNewSegments s.segments snap.segs) ++ [s.current]) k =
        canonIdx G2 ((FileName.seg snap.ts ::
          getNewSegments s.segments snap.segs) ++ [s.current]) k
      apply congrFun
      apply canonIdx_congr
      intro f hf
      rcases hmemN f hf with hf1 | hf1
      · subst hf1
        unfold recsOf
        rw [hG2segts, hG1ts]
      · unfold recsOf
        rw [hG2other f hf1, hG1ord f (hmemL f hf1)]
    case disp_inv =>
      intro t ht
      obtain ⟨hid, hnone, hlt2⟩ := inv.disp_inv t ht
      refine ⟨hid, ?_, hlt2⟩
      show G2 (FileName.seg t) = none
      have h1 : FileName.seg t ∉ ordFiles s := by
        intro hmem2
        have h2 := (inv.dom_eq _).mpr hmem2
        rw [hnone] at h2
        cases h2
      rw [hG2at, if_neg (fun hx => h1 (hsnapsub hx)), hG1]
      unfold updG
      have hne : FileName.seg t ≠ FileName.seg snap.ts := by
        intro hc
        injection hc with hc'
        rw [hc'] at ht
        exact hndisp ht
      rw [if_neg hne]
      exact hnone
    case disp_pair => exact inv.disp_pair
    case pend_inv =>
      intro snap' h
      cases h
  · rw [hcf]
    intro k
    have hlog2 : dbLog
        ({ s with
           pending := none
           files := snap.segs.foldl removeFile
             (setFile (removeFile s.files .tmp) (.seg snap.ts) (concatFrames liveR))
           segments := FileName.seg snap.ts ::
             getNewSegments s.segments snap.segs
           index := canonIdx G1 ((FileName.seg snap.ts ::
             getNewSegments s.segments snap.segs) ++ [s.current]) }) G2 =
        liveR ++ engineLog G (post ++ [s.current]) := by
      show engineLog G2 ((FileName.seg snap.ts ::
        getNewSegments s.segments snap.segs) ++ [s.current]) = _
      rw [hnewpost, List.cons_append]
      show recsOf G2 (FileName.seg snap.ts) ++
        engineLog G2 (post ++ [s.current]) = _
      rw [show recsOf G2 (FileName.seg snap.ts) = liveR from by
        unfold recsOf; rw [hG2segts]; rfl]
      rw [engineLog_congr G2 G (post ++ [s.current])
        (fun f hf => by unfold recsOf; rw [hG2other f hf])]
    have hlog1 : dbLog s G =
        engineLog G snap.segs ++ engineLog G (post ++ [s.current]) := by
      show engineLog G (s.segments ++ [s.current]) = _
      rw [hsegs, List.append_assoc, engineLog_append]
    rw [hlog2, hlog1, lastRec_append, lastRec_append]
    cases hR : lastRec (engineLog G (post ++ [s.current])) k with
    | some r => rfl
    | none =>
      show lastRec liveR k = lastRec (engineLog G snap.segs) k
      have hkeysR := (lastRec_none_iff_keys _ k).mp hR
      have hnorecs0 : lastRec recs0 k = none := by
        rw [lastRec_none_iff_keys]
        intro r hr
        apply hkeysR
        apply mem_engineLog_of_mem G (post ++ [s.current]) act0 hact0mem
        unfold recsOf
        rw [hact]
        show r ∈ recs0 ++ rest0
        exact List.mem_append_left _ hr
      have hcansingle : canonIdx (updG G act0 recs0) [act0] k = none := by
        rw [canonIdx_single, recsOf_updG_same,
          (lastOff_none_iff recs0 0 k).mpr hnorecs0]
      have hidxk : snap.idx k = canonIdx G snap.segs k := by
        rw [hidx0 k, canonIdx_append, hcansingle]
        show canonIdx (updG G act0 recs0) snap.segs k = canonIdx G snap.segs k
        apply congrFun
        apply canonIdx_congr
        intro f hf
        exact recsOf_updG_other _ _ _ _ (fun hc => hact0nsnap (hc ▸ hf))
      exact lastRec_liveRecs G snap.idx snap.segs hnd3.1 k hidxk
  · rw [hcf]
  · rw [hcf]

/-! ### A fresh engine satisfies the invariant -/

theorem init_inv (sup : Nat → Int) (maxSz thr : Nat) :
    EngineInv sup (initDb maxSz thr sup)
      (updG (fun _ => none) (FileName.seg (sup 0)) []) ∧
    dbLog (initDb maxSz thr sup)
      (updG (fun _ => none) (FileName.seg (sup 0)) []) = [] := by
  constructor
  · constructor
    case files_eq =>
      intro f
      show lookupFile [(FileName.seg (sup 0), [])] f = _
      rw [lookupFile_cons]
      unfold updG
      by_cases h : f = FileName.seg (sup 0)
      · rw [if_pos h.symm, if_pos h]
        rfl
      · rw [if_neg (fun hc => h hc.symm), if_neg h]
        rfl
    case files_perm => exact List.Perm.refl _
    case dom_eq =>
      intro f
      show (updG (fun _ => none) (FileName.seg (sup 0)) [] f).isSome ↔
        f ∈ ([] ++ [FileName.seg (sup 0)])
      unfold updG
      by_cases h : f = FileName.seg (sup 0)
      · rw [if_pos h]
        simp [h]
      · rw [if_neg h]
        simp [h]
    case names_nodup => simp [ordFiles, initDb]
    case wf_all =>
      intro f r hr
      unfold recsOf updG at hr
      by_cases h : f = FileName.seg (sup 0)
      · rw [if_pos h] at hr
        cases hr
      · rw [if_neg h] at hr
        cases hr
    case name_ts =>
      intro f hf
      show ∃ i, i < 1 ∧ f = FileName.seg (sup i)
      refine ⟨0, by omega, ?_⟩
      rw [show ordFiles (initDb maxSz thr sup) = [FileName.seg (sup 0)] from rfl] at hf
      simpa using hf
    case ts_chain => simp [ordFiles, initDb, segTs]
    case off_eq =>
      show 0 = (concatFrames (recsOf (updG (fun _ => none) (FileName.seg (sup 0)) [])
        (FileName.seg (sup 0)))).length
      rw [recsOf_updG_same]
      rfl
    case idx_eq =>
      intro k
      show none = canonIdx (updG (fun _ => none) (FileName.seg (sup 0)) [])
        ([] ++ [FileName.seg (sup 0)]) k
      rw [List.nil_append, canonIdx_single, recsOf_updG_same]
      rfl
    case disp_inv =>
      intro t ht
      cases ht
    case disp_pair => exact List.Pairwise.nil
    case pend_inv =>
      intro snap hsnap
      cases hsnap
  · show engineLog _ ([] ++ [FileName.seg (sup 0)]) = []
    rw [List.nil_append, engineLog_single, recsOf_updG_same]

/-! ### Puts-only histories -/

theorem execOps_puts_inv (sup : Nat → Int) (hmono : ∀ i j, i < j → sup i < sup j)
    (ops : List Op) (hputs : ∀ op ∈ ops, isPut op = true)
    (hwf : ∀ op ∈ ops, wfOp op = true) (s : Db) (G : Ghost)
    (inv : EngineInv sup s G) :
    ∃ s' G', execOps sup s ops = .ok s' ∧ EngineInv sup s' G' ∧
      dbLog s' G' = dbLog s G ++ putRecs ops := by
  induction ops generalizing s G with
  | nil => exact ⟨s, G, rfl, inv, by simp [putRecs]⟩
  | cons op rest ih =>
    have hop := hputs op (by simp)
    have hwo := hwf op (by simp)
    have hputsR : ∀ o ∈ rest, isPut o = true := fun o ho => hputs o (by simp [ho])
    have hwfR : ∀ o ∈ rest, wfOp o = true := fun o ho => hwf o (by simp [ho])
    cases op with
    | putS k v =>
      have hr : wfRecord (newStringRecord k v) = true := hwo
      obtain ⟨s1, G1, hstep, inv1, hlog1⟩ := putRec_inv sup hmono s G inv _ hr
      obtain ⟨s2, G2, hrun, inv2, hlog2⟩ := ih hputsR hwfR s1 G1 inv1
      refine ⟨s2, G2, ?_, inv2, ?_⟩
      · show (putRec sup s (newStringRecord k v) >>= fun t => execOps sup t rest) =
          .ok s2
        rw [hstep]
        exact hrun
      · rw [hlog2, hlog1, List.append_assoc]
        rfl
    | putI k v =>
      have hr : wfRecord (newInt64Record k v) = true := hwo
      obtain ⟨s1, G1, hstep, inv1, hlog1⟩ := putRec_inv sup hmono s G inv _ hr
      obtain ⟨s2, G2, hrun, inv2, hlog2⟩ := ih hputsR hwfR s1 G1 inv1
      refine ⟨s2, G2, ?_, inv2, ?_⟩
      · show (putRec sup s (newInt64Record k v) >>= fun t => execOps sup t rest) =
          .ok s2
        rw [hstep]
        exact hrun
      · rw [hlog2, hlog1, List.append_assoc]
        rfl
    | cstart j => exact Bool.noConfusion hop
    | cfinish => exact Bool.noConfusion hop

theorem lastRec_append_congr (A B C : List Record) (k : Key)
    (h : lastRec A k = lastRec B k) :
    lastRec (A ++ C) k = lastRec (B ++ C) k := by
  rw [lastRec_append, lastRec_append]
  cases hC : lastRec C k with
  | some r => rfl
  | none => exact h

/-! ### The master invariant over arbitrary well-formed histories -/

theorem execOps_inv (sup : Nat → Int) (hmono : ∀ i j, i < j → sup i < sup j)
    (ops : List Op) (hwf : ∀ op ∈ ops, wfOp op = true) (s : Db) (G : Ghost)
    (inv : EngineInv sup s G) (s' : Db)
    (hrun : execOps sup s ops = .ok s') :
    ∃ G', EngineInv sup s' G' ∧
      ∀ k, lastRec (dbLog s' G') k = lastRec (dbLog s G ++ putRecs ops) k := by
  induction ops generalizing s G with
  | nil =>
    have h0 : Except.ok s = Except.ok s' := hrun
    injection h0 with h0
    subst h0
    exact ⟨G, inv, fun k => by rw [show putRecs [] = [] from rfl, List.append_nil]⟩
  | cons op rest ih =>
    have hwo := hwf op (by simp)
    have hwfR : ∀ o ∈ rest, wfOp o = true := fun o ho => hwf o (by simp [ho])
    have hrun1 : (execOp sup s op >>= fun t => execOps sup t rest) = .ok s' := hrun
    cases hstep : execOp sup s op with
    | error e =>
      rw [hstep] at hrun1
      have hbad : (Except.error e : Except DErr Db) = .ok s' := hrun1
      cases hbad
    | ok s1 =>
      rw [hstep] at hrun1
      have hrun2 : execOps sup s1 rest = .ok s' := hrun1
      cases op with
      | putS k v =>
        obtain ⟨s1', G1', hput, inv1, hlog1⟩ :=
          putRec_inv sup hmono s G inv (newStringRecord k v) hwo
        have hstep' : putRec sup s (newStringRecord k v) = .ok s1 := hstep
        rw [hstep'] at hput
        injection hput with hput
        subst hput
        obtain ⟨G', inv', hlast⟩ := ih hwfR s1 G1' inv1 hrun2
        refine ⟨G', inv', fun k' => ?_⟩
        rw [hlast k', hlog1, List.append_assoc]
        rfl
      | putI k v =>
        obtain ⟨s1', G1', hput, inv1, hlog1⟩ :=
          putRec_inv sup hmono s G inv (newInt64Record k v) hwo
        have hstep' : putRec sup s (newInt64Record k v) = .ok s1 := hstep
        rw [hstep'] at hput
        injection hput with hput
        subst hput
        obtain ⟨G', inv', hlast⟩ := ih hwfR s1 G1' inv1 hrun2
        refine ⟨G', inv', fun k' => ?_⟩
        rw [hlast k', hlog1, List.append_assoc]
        rfl
      | cstart j =>
        have hstep' : compactStart s j = .ok s1 := hstep
        obtain ⟨inv1, hlog1⟩ := cstart_inv sup s G inv j s1 hstep'
        obtain ⟨G', inv', hlast⟩ := ih hwfR s1 G inv1 hrun2
        refine ⟨G', inv', fun k' => ?_⟩
        rw [hlast k', hlog1]
        rfl
      | cfinish =>
        cases hpend : s.pending with
        | none =>
          have hstep' : (match s.pending with
            | none => (Except.error DErr.invalidOp : Except DErr Db)
            | some snap => .ok (compactFinish s snap .fnone).1) = .ok s1 := hstep
          rw [hpend] at hstep'
          have hbad : (Except.error DErr.invalidOp : Except DErr Db) = .ok s1 :=
            hstep'
          cases hbad
        | some snap =>
          have hstep' : (match s.pending with
            | none => (Except.error DErr.invalidOp : Except DErr Db)
            | some snap => .ok (compactFinish s snap .fnone).1) = .ok s1 := hstep
          rw [hpend] at hstep'
          have hok : Except.ok (compactFinish s snap .fnone).1 =
            (Except.ok s1 : Except DErr Db) := hstep'
          injection hok with hok
          obtain ⟨G2, inv2, hlast2, _, _⟩ := cfinish_inv sup s G inv snap hpend
          rw [hok] at inv2 hlast2
          obtain ⟨G', inv', hlast⟩ := ih hwfR s1 G2 inv2 hrun2
          refine ⟨G', inv', fun k' => ?_⟩
          rw [hlast k']
          show lastRec (dbLog s1 G2 ++ putRecs rest) k' =
            lastRec (dbLog s G ++ putRecs rest) k'
          exact lastRec_append_congr _ _ _ k' (hlast2 k')

/-! ### Reopening a directory (`open` on a non-empty data directory) -/

theorem filterMap_fst (fs : Files) :
    fs.filterMap (fun p => segTs p.1) = (fs.map Prod.fst).filterMap segTs := by
  induction fs with
  | nil => rfl
  | cons p rest ih =>
    cases hseg : segTs p.1 with
    | none => simp [List.filterMap_cons, hseg, ih]
    | some t => simp [List.filterMap_cons, hseg, ih]

theorem filterMap_segTs_map_seg (names : List FileName)
    (h : ∀ f ∈ names, ∃ t, f = FileName.seg t) :
    (names.filterMap segTs).map FileName.seg = names := by
  induction names with
  | nil => rfl
  | cons f rest ih =>
    obtain ⟨t, hft⟩ := h f (by simp)
    subst hft
    show ((FileName.seg t :: rest).filterMap segTs).map FileName.seg = _
    rw [show (FileName.seg t :: rest).filterMap segTs =
      t :: rest.filterMap segTs from rfl]
    show FileName.seg t :: (rest.filterMap segTs).map FileName.seg = _
    rw [ih (fun g hg => h g (by simp [hg]))]

theorem loadSegments_of_inv (sup : Nat → Int) (s : Db) (G : Ghost)
    (inv : EngineInv sup s G) : loadSegments s.files = ordFiles s := by
  have hfm : s.files.filterMap (fun p => segTs p.1) =
      (s.files.map Prod.fst).filterMap segTs := filterMap_fst s.files
  have hperm : ((s.files.map Prod.fst).filterMap segTs).Perm
      ((ordFiles s).filterMap segTs) := inv.files_perm.filterMap segTs
  have hpairT : ((ordFiles s).filterMap segTs).Pairwise (· < ·) :=
    List.chain'_iff_pairwise.mp inv.ts_chain
  have hsortT : ((ordFiles s).filterMap segTs).Sorted (fun a b => a ≤ b) :=
    hpairT.imp (fun hab => le_of_lt hab)
  have hpermI : (List.insertionSort (fun a b => a ≤ b)
      (s.files.filterMap (fun p => segTs p.1))).Perm
      ((ordFiles s).filterMap segTs) :=
    (List.perm_insertionSort _ _).trans (by rw [hfm]; exact hperm)
  have hEq : List.insertionSort (fun a b => a ≤ b)
      (s.files.filterMap (fun p => segTs p.1)) =
      (ordFiles s).filterMap segTs :=
    List.eq_of_perm_of_sorted hpermI (List.sorted_insertionSort _ _) hsortT
  unfold loadSegments
  rw [hEq]
  exact filterMap_segTs_map_seg (ordFiles s) (fun f hf => by
    obtain ⟨i', _, hEq'⟩ := inv.name_ts f hf
    exact ⟨sup i', hEq'⟩)

theorem reopen_inv (sup : Nat → Int) (hmono : ∀ i j, i < j → sup i < sup j)
    (s : Db) (G : Ghost) (inv : EngineInv sup s G) (maxSz thr : Nat)
    (i : Nat) (hi : s.clock ≤ i) :
    ∃ s2, openDb s.files maxSz thr sup i = .ok s2 ∧
      EngineInv sup s2 (updG G (FileName.seg (sup i)) []) ∧
      dbLog s2 (updG G (FileName.seg (sup i)) []) = dbLog s G := by
  set nf := FileName.seg (sup i) with hnf
  set G' := updG G nf [] with hG'
  have hfresh : nf ∉ ordFiles s := fresh_not_mem sup hmono s G inv i hi
  have hGnone : G nf = none := fresh_G_none sup hmono s G inv i hi
  have hlooknf : lookupFile s.files nf = none := by rw [inv.files_eq, hGnone]; rfl
  have hcs : createSeg s.files (sup i) = (s.files ++ [(nf, [])], 0) := by
    unfold createSeg
    rw [← hnf, hlooknf]
  have hload : loadSegments s.files = ordFiles s := loadSegments_of_inv sup s G inv
  have hreb : rebuildIndex (ordFiles s) none s.files =
      .ok (canonIdx G (ordFiles s)) :=
    rebuildIndex_none_ghost G (ordFiles s) s.files
      (fun f _ => inv.files_eq f)
      (fun f hf => (inv.dom_eq f).mpr hf)
      (fun f _ => inv.wf_all f)
  have hrecsnf : recsOf G' nf = [] := recsOf_updG_same G nf []
  have hcongr : ∀ f ∈ ordFiles s, recsOf G' f = recsOf G f := fun f hf =>
    recsOf_updG_other G nf f [] (fun h => hfresh (h ▸ hf))
  refine ⟨{ files := s.files ++ [(nf, [])]
            segments := ordFiles s
            current := nf
            currentOffset := 0
            index := canonIdx G (ordFiles s)
            maxSegmentSize := maxSz
            compactionThreshold := thr
            pending := none
            dispatched := []
            clock := i + 1 }, ?_, ?_, ?_⟩
  · unfold openDb
    show (rebuildIndex (loadSegments s.files) none s.files >>= fun idx =>
      Except.ok
        ({ files := (createSeg s.files (sup i)).1
           segments := loadSegments s.files
           current := FileName.seg (sup i)
           currentOffset := (createSeg s.files (sup i)).2
           index := idx
           maxSegmentSize := maxSz
           compactionThreshold := thr
           pending := none
           dispatched := []
           clock := i + 1 } : Db)) = _
    rw [hload, hreb, hcs]
    rfl
  · have hGsome : ∀ f, (G' f).isSome ↔ (f = nf ∨ (G f).isSome) := by
      intro f
      rw [hG']
      unfold updG
      by_cases h : f = nf <;> simp [h]
    constructor
    case files_eq =>
      intro f
      show lookupFile (s.files ++ [(nf, [])]) f = _
      rw [lookupFile_append]
      by_cases h : f = nf
      · subst h
        rw [hlooknf]
        show lookupFile [(nf, [])] nf = (G' nf).map concatFrames
        rw [lookupFile_cons, if_pos rfl, hG']
        show some [] = (updG G nf [] nf).map concatFrames
        unfold updG
        rw [if_pos rfl]
        rfl
      · rw [inv.files_eq f]
        have hGf : G' f = G f := by
          rw [hG']
          unfold updG
          rw [if_neg h]
        rw [hGf]
        cases hv : G f with
        | some recs => rfl
        | none =>
          show lookupFile [(nf, [])] f = none
          rw [lookupFile_cons, if_neg (fun hh => h hh.symm)]
          rfl
    case files_perm =>
      show ((s.files ++ [(nf, [])]).map Prod.fst).Perm (ordFiles s ++ [nf])
      rw [List.map_append]
      exact (inv.files_perm).append_right [nf]
    case dom_eq =>
      intro f
      show (G' f).isSome ↔ f ∈ ordFiles s ++ [nf]
      rw [hGsome f, List.mem_append, List.mem_singleton]
      constructor
      · rintro (h | h)
        · exact Or.inr h
        · exact Or.inl ((inv.dom_eq f).mp h)
      · rintro (h | h)
        · exact Or.inr ((inv.dom_eq f).mpr h)
        · exact Or.inl h
    case names_nodup =>
      show (ordFiles s ++ [nf]).Nodup
      rw [List.nodup_append]
      exact ⟨inv.names_nodup, List.nodup_singleton nf,
        fun a ha hb => hfresh (by rw [List.mem_singleton] at hb; rw [← hb]; exact ha)⟩
    case wf_all =>
      intro f r hr
      by_cases h : f = nf
      · subst h
        rw [hrecsnf] at hr
        cases hr
      · rw [recsOf_updG_other G nf f [] h] at hr
        exact inv.wf_all f r hr
    case name_ts =>
      intro f hf
      show ∃ i', i' < i + 1 ∧ f = FileName.seg (sup i')
      have hf' : f ∈ ordFiles s ++ [nf] := hf
      rw [List.mem_append, List.mem_singleton] at hf'
      rcases hf' with hf' | hf'
      · obtain ⟨i', hi', hEq⟩ := inv.name_ts f hf'
        exact ⟨i', by omega, hEq⟩
      · exact ⟨i, by omega, hf'⟩
    case ts_chain =>
      show List.Chain' (· < ·) ((ordFiles s ++ [nf]).filterMap segTs)
      rw [List.filterMap_append, List.chain'_append]
      refine ⟨inv.ts_chain, by simp [segTs], ?_⟩
      intro x hx y hy
      have hx' : x ∈ (ordFiles s).filterMap segTs := getLast?_mem_list _ x hx
      obtain ⟨i', hi', rfl⟩ := ord_ts_bound sup s G inv x hx'
      have hy' : y = sup i := by
        simp [segTs] at hy
        omega
      rw [hy']
      exact hmono i' i (by omega)
    case off_eq =>
      show 0 = (concatFrames (recsOf G' nf)).length
      rw [hrecsnf]
      rfl
    case idx_eq =>
      intro k
      show canonIdx G (ordFiles s) k = canonIdx G' (ordFiles s ++ [nf]) k
      rw [canonIdx_append, canonIdx_single, hrecsnf]
      show canonIdx G (ordFiles s) k = canonIdx G' (ordFiles s) k
      rw [canonIdx_congr G' G (ordFiles s) hcongr]
    case disp_inv =>
      intro t ht
      cases ht
    case disp_pair => exact List.Pairwise.nil
    case pend_inv =>
      intro snap hsnap
      cases hsnap
  · show engineLog G' (ordFiles s ++ [nf]) = engineLog G (ordFiles s)
    rw [engineLog_append, engineLog_single, hrecsnf, List.append_nil]
    exact engineLog_congr G' G (ordFiles s) hcongr

theorem supW_mono : ∀ i j : Nat, i < j → supW i < supW j := by
  intro i j h
  show (i : Int) < (j : Int)
  exact_mod_cast h

/-! ### The faithful buffered reader: agreement and the one-fill cut

The agreement lemmas show the buffered model coincides with the
idealized reader on inputs of at most one buffer fill; the cut lemmas
compute what one `Read` of a 4214-byte frame returns. -/

theorem take_append_ge (l₁ l₂ : Bytes) (n : Nat) (h : l₁.length ≤ n) :
    (l₁ ++ l₂).take n = l₁ ++ l₂.take (n - l₁.length) := by
  rw [List.take_append_eq_append_take, List.take_of_length_le h]

theorem drop_append_ge (l₁ l₂ : Bytes) (n : Nat) (h : l₁.length ≤ n) :
    (l₁ ++ l₂).drop n = l₂.drop (n - l₁.length) := by
  rw [List.drop_append_eq_append_drop, List.drop_eq_nil_of_le h, List.nil_append]

/-- On input of at most one buffer fill, the faithful one-frame read
agrees with the idealized one. -/
theorem decodeFromReaderBuf_agree (input : Bytes) (h : input.length ≤ bufFill) :
    decodeFromReaderBuf input = decodeFromReader input := by
  unfold decodeFromReaderBuf
  rw [List.take_of_length_le h]

/-- With the file exhausted into the buffer, the faithful scan loop is
the idealized one. -/
theorem scanGoSt_agree (fuel : Nat) :
    ∀ buf off acc, scanGoSt fuel ⟨buf, []⟩ off acc = scanGo fuel buf off acc := by
  induction fuel with
  | zero => intro buf off acc; rfl
  | succ f ih =>
    intro buf off acc
    have hrefill : refill ⟨buf, []⟩ = ⟨buf, []⟩ := by
      unfold refill
      by_cases hb : buf.length < 4
      · rw [if_pos hb]
        simp
      · rw [if_neg hb]
    have hst : decodeFromReaderSt ⟨buf, []⟩ =
        (decodeFromReader buf, ⟨buf.drop (decodeFromReader buf).1, []⟩) := by
      unfold decodeFromReaderSt
      rw [hrefill]
    cases hd : decodeFromReader buf with
    | mk n res =>
      rw [hd] at hst
      cases res with
      | error e =>
        cases e <;> simp only [scanGoSt, scanGo, hst, hd]
      | ok r =>
        simp only [scanGoSt, scanGo, hst, hd]
        exact ih _ _ _

/-- On segment files of at most one buffer fill, the faithful scan agrees
with the idealized one. -/
theorem scanSegBuf_agree (content : Bytes) (h : content.length ≤ bufFill) :
    scanSegBuf content = scanSeg content := by
  unfold scanSegBuf scanSeg
  have hrefill : refill ⟨[], content⟩ = ⟨content, []⟩ := by
    unfold refill
    rw [if_pos (by simp)]
    show BufState.mk ([] ++ content.take (bufFill - 0)) (content.drop (bufFill - 0)) = _
    rw [List.nil_append, List.take_of_length_le (by omega),
      List.drop_eq_nil_of_le (by omega)]
  have hst : decodeFromReaderSt ⟨[], content⟩ =
      (decodeFromReader content, ⟨content.drop (decodeFromReader content).1, []⟩) := by
    unfold decodeFromReaderSt
    rw [hrefill]
  cases hd : decodeFromReader content with
  | mk n res =>
    rw [hd] at hst
    cases res with
    | error e =>
      cases e <;> simp only [scanGoSt, scanGo, hst, hd]
    | ok r =>
      simp only [scanGoSt, scanGo, hst, hd]
      rw [scanGoSt_agree]

theorem encB_cut (k : Nat) (v : Bytes) (hv : v.length = 4200) :
    encB (newStringRecord [k] v) = hdr4214 k ++ v := by
  unfold encB
  rw [show newStringRecord [k] v = ⟨[k], .str v, 1⟩ from rfl, encode_str [k] v]
  show bytesLE 4 ((recordHeaderSize + v.length % 2 ^ 32 + [k].length % 2 ^ 32) % 2 ^ 32) ++
      [1 % 256] ++ bytesLE 4 ([k].length % 2 ^ 32) ++ bytesLE 4 (v.length % 2 ^ 32) ++
      [k] ++ v = hdr4214 k ++ v
  rw [hv]
  norm_num [recordHeaderSize]
  show bytesLE 4 4214 ++ [1] ++ bytesLE 4 1 ++ bytesLE 4 4200 ++ [k] ++ v = hdr4214 k ++ v
  rfl

theorem cut4200 (k : Nat) (v : Bytes) (hv : v.length = 4200) :
    decodeFromReader ((encB (newStringRecord [k] v)).take bufFill) =
      (bufFill, .ok (newStringRecord [k] (v.take 4082 ++ List.replicate 118 0))) := by
  have hv'len : (v.take 4082 ++ List.replicate 118 0).length = 4200 := by
    rw [List.length_append, List.length_take, List.length_replicate, hv]
    omega
  have hF : encB (newStringRecord [k] v) = hdr4214 k ++ v := encB_cut k v hv
  have hW : (encB (newStringRecord [k] v)).take bufFill = hdr4214 k ++ v.take 4082 := by
    rw [hF, take_append_ge _ _ _ (by norm_num [hdr4214, bufFill])]
    norm_num [hdr4214, bufFill]
  rw [hW]
  have hUlen : (hdr4214 k ++ v.take 4082).length = 4096 := by
    rw [List.length_append, List.length_take, hv]
    norm_num [hdr4214]
  have hru : readU32 (hdr4214 k ++ v.take 4082) 0 = 4214 := rfl
  have hframe := decode_frame 1 [k] (v.take 4082 ++ List.replicate 118 0) []
    (by rw [hv'len]; norm_num [recordHeaderSize])
  rw [hv'len, List.append_nil] at hframe
  norm_num [recordHeaderSize] at hframe
  simp only [decodeFromReader]
  rw [hru, hUlen]
  norm_num
  rw [List.take_of_length_le (by rw [hUlen]; norm_num), List.append_assoc]
  simp only [hdr4214, List.cons_append, List.nil_append] at hframe ⊢
  rw [show (bytesLE 4 4214 : Bytes) = [118, 16, 0, 0] from rfl,
    show (bytesLE 4 1 : Bytes) = [1, 0, 0, 0] from rfl,
    show (bytesLE 4 4200 : Bytes) = [104, 16, 0, 0] from rfl] at hframe
  simp only [List.cons_append, List.nil_append] at hframe
  rw [hframe]
  rfl

theorem encB_len_4214 (k : Nat) (v : Bytes) (hv : v.length = 4200) :
    (encB (newStringRecord [k] v)).length = 4214 := by
  rw [encB_cut k v hv, List.length_append, hv]
  norm_num [hdr4214]

theorem encB_take_bufFill (k : Nat) (v : Bytes) (hv : v.length = 4200) :
    (encB (newStringRecord [k] v)).take bufFill = hdr4214 k ++ v.take 4082 := by
  rw [encB_cut k v hv, take_append_ge _ _ _ (by norm_num [hdr4214, bufFill])]
  norm_num [hdr4214, bufFill]

theorem encB_drop_bufFill (k : Nat) (v : Bytes) (hv : v.length = 4200) :
    (encB (newStringRecord [k] v)).drop bufFill = v.drop 4082 := by
  rw [encB_cut k v hv, drop_append_ge _ _ _ (by norm_num [hdr4214, bufFill])]
  norm_num [hdr4214, bufFill]

theorem scanGoSt_step (fuel : Nat) (st : BufState) (off : Nat) (acc : SegPairs) :
    scanGoSt (fuel + 1) st off acc =
      match decodeFromReaderSt st with
      | ((n, .error .endOfInput), _) => if n ≠ 0 then .error .corruptSeg else .ok acc
      | ((_, .error e), _) => .error e
      | ((n, .ok r), st') => scanGoSt fuel st' (off + n) (acc ++ [(r.key, off)]) := rfl

/-- The first mid-scan read of a frame longer than one buffer fill:
the reader state after it holds no buffered bytes and the tail of the
oversized value. -/
theorem decodeFromReaderSt_cut (k : Nat) (v : Bytes) (hv : v.length = 4200) :
    decodeFromReaderSt ⟨[], encB (newStringRecord [k] v)⟩ =
      ((bufFill, .ok (newStringRecord [k] (v.take 4082 ++ List.replicate 118 0))),
       ⟨[], v.drop 4082⟩) := by
  unfold decodeFromReaderSt refill
  rw [if_pos (show ([] : Bytes).length < 4 from by norm_num)]
  dsimp only
  rw [List.length_nil, Nat.sub_zero, List.nil_append, cut4200 k v hv]
  dsimp only
  rw [encB_take_bufFill k v hv,
    List.drop_eq_nil_of_le (by
      rw [List.length_append, List.length_take, hv]
      norm_num [hdr4214, bufFill]),
    encB_drop_bufFill k v hv]

theorem ebind_ok {α β : Type} (a : α) (f : α → Except DErr β) :
    (Except.ok a : Except DErr α) >>= f = f a := rfl

theorem ebind_err {α β : Type} (e : DErr) (f : α → Except DErr β) :
    (Except.error e : Except DErr α) >>= f = .error e := rfl

theorem scanGoSt_nil (fuel off : Nat) (acc : SegPairs) :
    scanGoSt (fuel + 1) ⟨[], []⟩ off acc = .ok acc := rfl

/-- A mid-scan read of a whole well-formed frame of at most one buffer
fill, with nothing after it: the record is returned and the reader is
exhausted. -/
theorem decodeFromReaderSt_small (r : Record) (hwf : wfRecord r = true)
    (hle : (encB r).length ≤ bufFill) :
    decodeFromReaderSt ⟨[], encB r⟩ = (((encB r).length, .ok r), ⟨[], []⟩) := by
  unfold decodeFromReaderSt refill
  rw [if_pos (show ([] : Bytes).length < 4 from by norm_num)]
  dsimp only
  rw [List.length_nil, Nat.sub_zero, List.nil_append,
    List.take_of_length_le hle, List.drop_eq_nil_of_le hle]
  have hd := decodeFromReader_encB r hwf []
  rw [List.append_nil] at hd
  rw [hd]
  dsimp only
  rw [List.drop_length]

theorem execOpsBuf_cons_ok (sup : Nat → Int) (s s' : Db) (op : Op) (rest : List Op)
    (h : execOpBuf sup s op = .ok s') :
    execOpsBuf sup s (op :: rest) = execOpsBuf sup s' rest := by
  conv_lhs => rw [execOpsBuf]
  rw [h, ebind_ok]

theorem compactFinishBuf_fnone (s : Db) (snap : Snap) (repl : Bytes) (idx1 : Idx)
    (hrw : rewriteSegsBuf s.files snap.idx snap.segs = .ok repl)
    (hreb : rebuildIndexBuf
      (FileName.seg snap.ts :: getNewSegments s.segments snap.segs)
      (some s.current)
      (setFile (removeFile s.files .tmp) (.seg snap.ts) repl) = .ok idx1) :
    compactFinishBuf s snap .fnone =
      ({ s with
         pending := none
         files := snap.segs.foldl removeFile
           (setFile (removeFile s.files .tmp) (.seg snap.ts) repl)
         segments := FileName.seg snap.ts :: getNewSegments s.segments snap.segs
         index := idx1 }, none) := by
  unfold compactFinishBuf
  rw [hrw]
  show (match rebuildIndexBuf (FileName.seg snap.ts :: getNewSegments s.segments snap.segs)
      (some s.current) (setFile (removeFile s.files .tmp) (.seg snap.ts) repl) with
    | Except.error e =>
      ({ s with
         pending := none
         files := removeFile (setFile (removeFile s.files .tmp) (.seg snap.ts) repl)
           (.seg snap.ts) }, some e)
    | Except.ok idxR =>
      ({ s with
         pending := none
         files := snap.segs.foldl removeFile
           (setFile (removeFile s.files .tmp) (.seg snap.ts) repl)
         segments := FileName.seg snap.ts :: getNewSegments s.segments snap.segs
         index := idxR }, none)) = _
  rw [hreb]

theorem wf_newStr (k v : Bytes) (h : recordHeaderSize + k.length + v.length < 2 ^ 32) :
    wfRecord (newStringRecord k v) = true := by
  unfold wfRecord typeOk frameFits newStringRecord
  simp [valueLen]
  omega

theorem putRec_fresh (maxSz thr : Nat) (r : Record) (hwf : wfRecord r = true)
    (hfit : (encB r).length ≤ maxSz) :
    putRec supW (initDb maxSz thr supW) r = .ok
      { files := [(FileName.seg (supW 0), encB r)]
        segments := []
        current := .seg (supW 0)
        currentOffset := (encB r).length
        index := setIdx (fun _ => none) r.key ⟨.seg (supW 0), 0⟩
        maxSegmentSize := maxSz
        compactionThreshold := thr
        pending := none
        dispatched := []
        clock := 1 } := by
  have hput := putRec_eq supW (initDb maxSz thr supW) r (encB r) (encB_of_wf r hwf)
  rw [if_neg (show ¬ ((initDb maxSz thr supW).maxSegmentSize <
    (initDb maxSz thr supW).currentOffset + (encB r).length) from by
      show ¬ (maxSz < 0 + (encB r).length); omega)] at hput
  rw [hput]
  show Except.ok ({ files := [(FileName.seg (supW 0), [] ++ encB r)]
                    segments := []
                    current := .seg (supW 0)
                    currentOffset := 0 + (encB r).length
                    index := setIdx (fun _ => none) r.key ⟨.seg (supW 0), 0⟩
                    maxSegmentSize := maxSz
                    compactionThreshold := thr
                    pending := none
                    dispatched := []
                    clock := 1 } : Db) = _
  rw [List.nil_append, Nat.zero_add]

/-! ### Claim C1 -/

/-- C1 (amended): for every record whose value variant agrees with its
`data_type` and whose frame fits the 32-bit header fields
(`13 + key_len + val_len < 2 ^ 32`), `Encode` succeeds and `Decode` of the
encoded bytes returns a record equal to the original — same key, same
value, same `data_type`. -/
theorem claim_C1_roundtrip (r : Record) (h : wfRecord r = true) :
    ∃ bs, r.encode = .ok bs ∧ Record.decode bs = .ok r :=
  ⟨encB r, encB_of_wf r h, by
    have hd := decode_encB r h []
    rwa [List.append_nil] at hd⟩

/-- Witness for C1: the concrete string record `("k", "v")` round-trips. -/
theorem claim_C1_roundtrip_witness :
    wfRecord ⟨[107], .str [118], 1⟩ = true ∧
      ∃ bs, (Record.encode ⟨[107], .str [118], 1⟩) = .ok bs ∧
        Record.decode bs = .ok ⟨[107], .str [118], 1⟩ :=
  ⟨by decide, claim_C1_roundtrip ⟨[107], .str [118], 1⟩ (by decide)⟩

/-- Counterexample to C1 as stated: `bigRec` has an agreeing value
variant (`String` value with `data_type` 1) and `Encode` succeeds on it,
but decoding the encoded bytes yields the record `("", "")`, not
`bigRec` — Go's `uint32` conversion silently truncates the key length. -/
theorem claim_C1_counterexample :
    bigRec.encode = .ok bigFrame ∧
    Record.decode bigFrame = .ok ⟨[], .str [], 1⟩ ∧
    Record.decode bigFrame ≠ .ok bigRec := by
  have hK : bigKey.length = 2 ^ 32 := List.length_replicate _ _
  have hdec : Record.decode bigFrame = .ok ⟨[], .str [], 1⟩ := by
    have h0 : readU32 bigFrame 0 = 13 := by
      unfold bigFrame
      rw [frame_readU32_0]
      norm_num
    have hdt : readLE 1 (bigFrame.drop 4) = 1 := by
      unfold bigFrame
      exact frame_dt _ _ _ _ _
    have h5 : readU32 bigFrame 5 = 0 := by
      unfold bigFrame
      rw [frame_readU32_5]
      norm_num
    have h9 : readU32 bigFrame 9 = 0 := by
      unfold bigFrame
      rw [frame_readU32_9]
      norm_num
    have hlen : bigFrame.length = 13 + 2 ^ 32 := by
      unfold bigFrame
      rw [frame_length, hK]
    simp only [Record.decode, h0, hdt, h5, h9]
    rw [if_neg (by rw [hlen]; unfold recordHeaderSize; omega),
      if_neg (by rw [hlen]; unfold recordHeaderSize; omega),
      if_neg (by unfold recordHeaderSize; omega)]
    simp [List.take_zero]
    rfl
  refine ⟨?_, hdec, ?_⟩
  · unfold bigRec
    rw [encode_str bigKey []]
    simp only [List.length_nil, hK, show recordHeaderSize = 13 from rfl]
    norm_num
    unfold bigFrame
    simp [List.append_assoc]
  · rw [hdec]
    intro hc
    have hkeys := congrArg Record.key (by injection hc)
    have := congrArg List.length hkeys
    simp only [List.length_nil] at this
    rw [show bigRec.key = bigKey from rfl, hK] at this
    norm_num at this

/-! ### Claim C9 -/

/-- C9: every frame produced by `Encode` satisfies the header invariant
`record_len = (13 + key_len + val_len) mod 2 ^ 32` (the fields are
`uint32`, so the sum is computed in 32-bit arithmetic, which is exactly
Go's `rl := recordHeaderSize + vl + kl`); and `Decode` fails on every
byte string whose `record_len` field differs from `13 + key_len +
val_len` as integers, whose `data_type` is 2 with `val_len` not 8, or
whose `data_type` tag is neither 1 nor 2. -/
theorem claim_C9_frame_invariant :
    (∀ (r : Record) (bs : Bytes), r.encode = .ok bs →
        readU32 bs 0 = (recordHeaderSize + readU32 bs 5 + readU32 bs 9) % 2 ^ 32) ∧
    (∀ input : Bytes,
        (readU32 input 0 ≠ recordHeaderSize + readU32 input 5 + readU32 input 9 ∨
          (readLE 1 (input.drop 4) = 2 ∧ readU32 input 9 ≠ 8) ∨
          (readLE 1 (input.drop 4) ≠ 1 ∧ readLE 1 (input.drop 4) ≠ 2)) →
        ∃ e, Record.decode input = .error e) := by
  constructor
  · intro r bs henc
    cases hev : encodeValue r with
    | error e =>
      have hne : r.encode = .error e := by
        unfold Record.encode
        rw [hev]
        rfl
      rw [hne] at henc
      exact absurd henc (by simp)
    | ok vb =>
      have hok : r.encode =
          .ok (bytesLE 4 ((recordHeaderSize + vb.length % 2 ^ 32 + r.key.length % 2 ^ 32) % 2 ^ 32) ++
            [r.dataType % 256] ++ bytesLE 4 (r.key.length % 2 ^ 32) ++
            bytesLE 4 (vb.length % 2 ^ 32) ++ r.key ++ vb) := by
        unfold Record.encode
        rw [hev]
        rfl
      rw [hok] at henc
      injection henc with h
      rw [← h]
      simp only [List.append_assoc]
      rw [frame_readU32_0, frame_readU32_5, frame_readU32_9]
      simp only [show recordHeaderSize = 13 from rfl]
      omega
  · intro input hcond
    unfold Record.decode
    by_cases h13 : input.length < recordHeaderSize
    · exact ⟨_, if_pos h13⟩
    · rw [if_neg h13]
      by_cases hlen : input.length < recordHeaderSize + readU32 input 5 + readU32 input 9
      · exact ⟨_, if_pos hlen⟩
      · rw [if_neg hlen]
        by_cases hrl : readU32 input 0 ≠ recordHeaderSize + readU32 input 5 + readU32 input 9
        · exact ⟨_, if_pos hrl⟩
        · rw [if_neg hrl]
          rcases hcond with hc1 | ⟨hc2, hc2'⟩ | ⟨hc3, hc3'⟩
          · exact absurd hc1 (by simpa using hrl)
          · unfold decodeValue
            rw [if_neg (by omega), if_neg (by omega), if_pos hc2]
            rw [if_pos ?_]
            · exact ⟨_, rfl⟩
            · have htk : ((input.drop (recordHeaderSize + readU32 input 5)).take
                  (readU32 input 9)).length = readU32 input 9 := by
                rw [List.length_take, List.length_drop]
                omega
              omega
          · unfold decodeValue
            by_cases h0 : readLE 1 (input.drop 4) = 0
            · rw [if_pos h0]; exact ⟨_, rfl⟩
            · rw [if_neg h0, if_neg hc3, if_neg hc3']
              exact ⟨_, rfl⟩

/-- Witness for C9: both parts applied at concrete inputs — the frame of
`("k", "v")` satisfies the header invariant, and a 16-byte input whose
`record_len` field is 0 is rejected by `Decode`. -/
theorem claim_C9_frame_invariant_witness :
    (Record.encode ⟨[107], .str [118], 1⟩ =
      .ok [15, 0, 0, 0, 1, 1, 0, 0, 0, 1, 0, 0, 0, 107, 118]) ∧
    readU32 [15, 0, 0, 0, 1, 1, 0, 0, 0, 1, 0, 0, 0, 107, 118] 0 =
      (recordHeaderSize + readU32 [15, 0, 0, 0, 1, 1, 0, 0, 0, 1, 0, 0, 0, 107, 118] 5 +
        readU32 [15, 0, 0, 0, 1, 1, 0, 0, 0, 1, 0, 0, 0, 107, 118] 9) % 2 ^ 32 ∧
    ∃ e, Record.decode [0, 0, 0, 0, 1, 1, 0, 0, 0, 1, 0, 0, 0, 107, 118, 200] = .error e :=
  ⟨by decide,
    claim_C9_frame_invariant.1 ⟨[107], .str [118], 1⟩ _ (by decide),
    claim_C9_frame_invariant.2 _ (Or.inl (by decide))⟩

/-! ### Claim C7 -/

/-- C7 is false of the code (a bug, not a spec error): `DecodeFromReader`
on `truncFrame` — a frame cut off mid-way with its header intact —
**succeeds**, returning a zero-padded record instead of a corrupt-frame
error, because the single `bufio.Read` into the zero-filled
`make([]byte, recordLen)` buffer returns fewer than `recordLen` bytes
with a nil error and the whole padded buffer passes every length check;
and on a 2-byte input — end of input in the middle of a frame header —
it returns `EndOfInput` (`io.EOF` from `Peek`), the normal-terminator
error, again not a corrupt-frame error. -/
theorem claim_C7_divergence :
    decodeFromReader truncFrame = (13, .ok ⟨[0], .str [0], 1⟩) ∧
    decodeFromReader [15, 0] = (0, .error .endOfInput) := by decide

/-! ### Claim C8 -/

/-- C8 is false of the code (a bug, not a spec error): a directory whose
only segment file is truncated in the middle of a frame can open
successfully instead of failing with a corrupt-segment error.  With 13 of
the 15 frame bytes on disk the scan decodes a zero-padded record and
terminates cleanly at the next `Peek`'s `io.EOF` with `n = 0`; with a
3-byte remnant the very first `Peek` returns `io.EOF` with `n = 0`.  In
both cases `open` returns an engine. -/
theorem claim_C8_divergence :
    (openDb [(FileName.seg 1, truncFrame)] (10 * 1024 * 1024) 3 (fun _ => 2) 0).isOk = true ∧
    (openDb [(FileName.seg 1, [15, 0, 0])] (10 * 1024 * 1024) 3 (fun _ => 2) 0).isOk = true ∧
    scanSeg truncFrame = .ok [([0], 0)] := by decide

/-! ### Claim C10 -/

/-- C10: `Get`, `GetInt64` and `Size` never modify engine state.  Every
branch of the three readers — value returned, `NotFound`, I/O failure,
decode failure, type mismatch — hands back the engine unchanged, so in
particular the segment list, the index, the active segment identity and
the write offset are those of the initial state. -/
theorem claim_C10_readers_pure (s : Db) (k : Key) :
    (getStrS s k).2 = s ∧ (getInt64S s k).2 = s ∧ (sizeS s).2 = s := by
  refine ⟨?_, ?_, rfl⟩
  · unfold getStrS
    cases getRec s k with
    | error e => rfl
    | ok r =>
      obtain ⟨rk, rv, rdt⟩ := r
      cases rv <;> rfl
  · unfold getInt64S
    cases getRec s k with
    | error e => rfl
    | ok r =>
      obtain ⟨rk, rv, rdt⟩ := r
      cases rv <;> rfl

/-! ### Claim C2 -/

theorem bigVal2_len : bigVal2.length = 4200 := by
  rw [bigVal2, List.length_replicate]

theorem bigRec2_wf : wfRecord bigRec2 = true := by
  refine wf_newStr [107] bigVal2 ?_
  rw [bigVal2_len]
  norm_num [recordHeaderSize]

theorem bigRec2_frame_len : (encB bigRec2).length = 4214 := by
  rw [show bigRec2 = newStringRecord [107] bigVal2 from rfl,
    encB_cut 107 bigVal2 bigVal2_len, List.length_append, bigVal2_len]
  norm_num [hdr4214]

theorem getRec_dbC2 : getRec dbC2 [107] = .ok bigRec2 := by
  have hd := decodeFromReader_encB bigRec2 bigRec2_wf []
  rw [List.append_nil] at hd
  unfold getRec
  rw [show dbC2.index [107] = some ⟨FileName.seg (supW 0), 0⟩ from rfl]
  dsimp only
  rw [show lookupFile dbC2.files (FileName.seg (supW 0)) = some (encB bigRec2) from rfl]
  dsimp only
  rw [List.drop_zero, hd]

theorem getRecBuf_dbC2 : getRecBuf dbC2 [107] =
    .ok (newStringRecord [107] (bigVal2.take 4082 ++ List.replicate 118 0)) := by
  unfold getRecBuf
  rw [show dbC2.index [107] = some ⟨FileName.seg (supW 0), 0⟩ from rfl]
  dsimp only
  rw [show lookupFile dbC2.files (FileName.seg (supW 0)) = some (encB bigRec2) from rfl]
  dsimp only
  rw [List.drop_zero]
  unfold decodeFromReaderBuf
  rw [show bigRec2 = newStringRecord [107] bigVal2 from rfl,
    cut4200 107 bigVal2 bigVal2_len]

/-- C2 is false of the code (a bug, not a spec error): after a finite
sequence of successful puts — here a single put of a 4200-byte value
under a 100000-byte segment limit, so no rotation is involved — `get`
over the faithful 4096-byte buffered reader does not return the most
recent put record.  The single `bufio.Read` of `DecodeFromReader`
returns at most one buffer fill, so the 4214-byte frame is decoded from
4096 real bytes zero-padded to `record_len`, and `get` silently returns
the value with its last 118 bytes replaced by zeros.  On the same engine
state the idealized reader returns the correct record, so the claim
describes the intended behaviour and the code diverges from it. -/
theorem claim_C2_divergence :
    (∀ op ∈ opsC2, isPut op = true ∧ wfOp op = true) ∧
    ∃ s', execOpsBuf supW (initDb 100000 4 supW) opsC2 = .ok s' ∧
      execOps supW (initDb 100000 4 supW) opsC2 = .ok s' ∧
      lastRec (putRecs opsC2) [107] = some bigRec2 ∧
      getRec s' [107] = .ok bigRec2 ∧
      getRecBuf s' [107] =
        .ok (newStringRecord [107] (bigVal2.take 4082 ++ List.replicate 118 0)) ∧
      getRecBuf s' [107] ≠ .ok bigRec2 := by
  have hput := putRec_fresh 100000 4 bigRec2 bigRec2_wf
    (by rw [bigRec2_frame_len]; norm_num)
  refine ⟨?_, dbC2, ?_, ?_, rfl, getRec_dbC2, getRecBuf_dbC2, ?_⟩
  · intro op hop
    have : op = Op.putS [107] bigVal2 := by
      simpa [opsC2] using hop
    subst this
    exact ⟨rfl, bigRec2_wf⟩
  · show execOpsBuf supW (initDb 100000 4 supW) [Op.putS [107] bigVal2] = _
    simp only [execOpsBuf, execOpBuf]
    rw [show newStringRecord [107] bigVal2 = bigRec2 from rfl, hput]
    rfl
  · show execOps supW (initDb 100000 4 supW) [Op.putS [107] bigVal2] = _
    simp only [execOps, execOp]
    rw [show newStringRecord [107] bigVal2 = bigRec2 from rfl, hput]
    rfl
  · rw [getRecBuf_dbC2]
    intro h
    have hrec : newStringRecord [107] (bigVal2.take 4082 ++ List.replicate 118 0) =
        bigRec2 := by
      injection h
    have hvals : Value.str (bigVal2.take 4082 ++ List.replicate 118 0) =
        Value.str bigVal2 := congrArg Record.value hrec
    have hlist : bigVal2.take 4082 ++ List.replicate 118 0 = bigVal2 := by
      injection hvals
    have hat := congrArg (fun l : Bytes => l[4082]?) hlist
    simp only [] at hat
    have hL : (bigVal2.take 4082 ++ List.replicate 118 0)[4082]? = some 0 := by
      rw [List.getElem?_append_right (by rw [List.length_take, bigVal2_len]; norm_num)]
      rw [List.length_take, bigVal2_len]
      norm_num [List.getElem?_replicate]
    have hR : bigVal2[4082]? = some 1 := by
      rw [bigVal2, List.getElem?_replicate, if_pos (by norm_num)]
    rw [hL, hR] at hat
    cases hat

/-! ### Claim C3 -/

theorem valC3_len : valC3.length = 4200 := by
  rw [valC3, List.length_append, List.length_append, List.length_replicate,
    List.length_replicate]
  norm_num

theorem recC3_wf : wfRecord recC3 = true := by
  refine wf_newStr [5] valC3 ?_
  rw [valC3_len]
  norm_num [recordHeaderSize]

theorem valC3_drop : valC3.drop 4082 = [1, 0, 0, 0] ++ List.replicate 114 9 := by
  rw [valC3, drop_append_ge _ _ _ (by rw [List.length_replicate])]
  rw [List.length_replicate]
  norm_num

/-- The bytes left after the first read start with the tiny fake header
`[1,0,0,0]`; the second read consumes 1 byte and `Decode` rejects the
1-byte buffer as too short. -/
theorem scan_step2_tooShort (fuel off : Nat) (acc : SegPairs) :
    scanGoSt (fuel + 1) ⟨[], [1, 0, 0, 0] ++ List.replicate 114 9⟩ off acc =
      .error DErr.tooShort := rfl

theorem scanSegBuf_recC3 : scanSegBuf (encB recC3) = .error DErr.tooShort := by
  unfold scanSegBuf
  rw [show recC3 = newStringRecord [5] valC3 from rfl, encB_len_4214 5 valC3 valC3_len,
    scanGoSt_step, decodeFromReaderSt_cut 5 valC3 valC3_len]
  dsimp only
  rw [valC3_drop, show (4214 : Nat) = 4213 + 1 from rfl]
  exact scan_step2_tooShort 4213 _ _

theorem openDbBuf_dbC3 :
    openDbBuf dbC3.files 100000 4 supW dbC3.clock = .error DErr.tooShort := by
  have h1 : rebuildSegsBuf [FileName.seg (supW 0)] dbC3.files (fun _ => none) =
      .error DErr.tooShort := by
    unfold rebuildSegsBuf
    rw [show lookupFile dbC3.files (FileName.seg (supW 0)) = some (encB recC3) from rfl]
    dsimp only
    rw [scanSegBuf_recC3]
    rfl
  have h2 : rebuildIndexBuf [FileName.seg (supW 0)] none dbC3.files =
      .error DErr.tooShort := by
    unfold rebuildIndexBuf
    rw [h1]
    rfl
  unfold openDbBuf
  rw [show loadSegments dbC3.files = [FileName.seg (supW 0)] from rfl]
  dsimp only
  rw [h2]
  rfl

theorem recC3_frame_len : (encB recC3).length = 4214 := by
  rw [show recC3 = newStringRecord [5] valC3 from rfl]
  exact encB_len_4214 5 valC3 valC3_len

theorem scanSeg_recC3 : scanSeg (encB recC3) = .ok (framePositions [recC3] 0) := by
  have h := scanSeg_frames [recC3] (by
    intro r hr
    have : r = recC3 := by simpa using hr
    rw [this]
    exact recC3_wf)
  rw [show concatFrames [recC3] = encB recC3 ++ [] from rfl, List.append_nil] at h
  exact h

theorem openDb_dbC3 : openDb dbC3.files 100000 4 supW dbC3.clock = .ok dOpen3 := by
  have hreb1 : rebuildSegs [FileName.seg (supW 0)] dbC3.files (fun _ => none) =
      .ok (mergeSeg (fun _ => none) (FileName.seg (supW 0)) (framePositions [recC3] 0)) := by
    unfold rebuildSegs
    rw [show lookupFile dbC3.files (FileName.seg (supW 0)) = some (encB recC3) from rfl]
    dsimp only
    rw [scanSeg_recC3]
    rfl
  have hreb : rebuildIndex [FileName.seg (supW 0)] none dbC3.files =
      .ok (mergeSeg (fun _ => none) (FileName.seg (supW 0)) (framePositions [recC3] 0)) := by
    unfold rebuildIndex
    rw [hreb1]
    rfl
  unfold openDb
  rw [show loadSegments dbC3.files = [FileName.seg (supW 0)] from rfl]
  dsimp only
  rw [hreb]
  rfl

theorem getRec_dOpen3 : getRec dOpen3 [5] = .ok recC3 := by
  have hd := decodeFromReader_encB recC3 recC3_wf []
  rw [List.append_nil] at hd
  unfold getRec
  rw [show dOpen3.index [5] = some ⟨FileName.seg (supW 0), 0⟩ from rfl]
  dsimp only
  rw [show lookupFile dOpen3.files (FileName.seg (supW 0)) = some (encB recC3) from rfl]
  dsimp only
  rw [List.drop_zero, hd]

/-- C3 is false of the code (a bug, not a spec error): an engine is
closed after one successful put of a 4200-byte value whose bytes at the
buffer-fill boundary spell a 1-byte `record_len`; reopening the
directory then fails outright.  The rebuild scan's first read consumes
4096 of the 4214 frame bytes, the next read mis-parses the remaining 118
bytes as a frame of length 1, and `Decode` rejects the 1-byte
zero-padded buffer as shorter than a header, so `open` returns that
error instead of an engine in which `get` serves the last put.  The
idealized reader reopens the same directory successfully and `get`
returns the put record. -/
theorem claim_C3_divergence :
    (∀ op ∈ opsC3, isPut op = true ∧ wfOp op = true) ∧
    ∃ s1, execOps supW (initDb 100000 4 supW) opsC3 = .ok s1 ∧
      execOpsBuf supW (initDb 100000 4 supW) opsC3 = .ok s1 ∧
      lastRec (putRecs opsC3) [5] = some recC3 ∧
      (∃ d, openDb s1.files 100000 4 supW s1.clock = .ok d ∧
        getRec d [5] = .ok recC3) ∧
      openDbBuf s1.files 100000 4 supW s1.clock = .error DErr.tooShort := by
  have hput := putRec_fresh 100000 4 recC3 recC3_wf
    (by rw [recC3_frame_len]; norm_num)
  refine ⟨?_, dbC3, ?_, ?_, rfl, ⟨dOpen3, openDb_dbC3, getRec_dOpen3⟩, openDbBuf_dbC3⟩
  · intro op hop
    have : op = Op.putS [5] valC3 := by
      simpa [opsC3] using hop
    subst this
    exact ⟨rfl, recC3_wf⟩
  · show execOps supW (initDb 100000 4 supW) [Op.putS [5] valC3] = _
    simp only [execOps, execOp]
    rw [show newStringRecord [5] valC3 = recC3 from rfl, hput]
    rfl
  · show execOpsBuf supW (initDb 100000 4 supW) [Op.putS [5] valC3] = _
    simp only [execOpsBuf, execOpBuf]
    rw [show newStringRecord [5] valC3 = recC3 from rfl, hput]
    rfl

/-! ### Claim C4 -/

theorem ghostVal_len : ghostVal.length = 104 := by
  rw [ghostVal, List.length_replicate]

theorem ghostRec_wf : wfRecord ghostRec = true := by
  refine wf_newStr [9] ghostVal ?_
  rw [ghostVal_len]
  norm_num [recordHeaderSize]

theorem ghost_frame_len : (encB ghostRec).length = 118 := by
  rw [encB_length _ ghostRec_wf,
    show valueLen ghostRec = ghostVal.length from rfl, ghostVal_len,
    show ghostRec.key = [9] from rfl]
  norm_num [recordHeaderSize]

theorem bigVal4_len : bigVal4.length = 4200 := by
  rw [bigVal4, List.length_append, List.length_replicate, ghost_frame_len]

theorem bigRec4_wf : wfRecord bigRec4 = true := by
  refine wf_newStr [107] bigVal4 ?_
  rw [bigVal4_len]
  norm_num [recordHeaderSize]

theorem bigRec4_frame_len : (encB bigRec4).length = 4214 := by
  rw [show bigRec4 = newStringRecord [107] bigVal4 from rfl]
  exact encB_len_4214 107 bigVal4 bigVal4_len

theorem bigVal4_drop : bigVal4.drop 4082 = encB ghostRec := by
  rw [bigVal4, drop_append_ge _ _ _ (by rw [List.length_replicate])]
  rw [List.length_replicate]
  norm_num

theorem rotate_init4 : rotateDispatch supW (initDb 1000 1 supW) = dbR4 := rfl

theorem putRec_dbA4 : putRec supW (initDb 1000 1 supW) bigRec4 = .ok dbA4 := by
  have hput := putRec_eq supW (initDb 1000 1 supW) bigRec4 (encB bigRec4)
    (encB_of_wf bigRec4 bigRec4_wf)
  rw [if_pos (show (initDb 1000 1 supW).maxSegmentSize <
    (initDb 1000 1 supW).currentOffset + (encB bigRec4).length from by
      rw [show (initDb 1000 1 supW).maxSegmentSize = 1000 from rfl,
        show (initDb 1000 1 supW).currentOffset = 0 from rfl, bigRec4_frame_len]
      norm_num)] at hput
  rw [hput, rotate_init4]
  show Except.ok ({ dbR4 with
    files := appendFile dbR4.files dbR4.current (encB bigRec4)
    index := setIdx dbR4.index bigRec4.key ⟨dbR4.current, dbR4.currentOffset⟩
    currentOffset := dbR4.currentOffset + (encB bigRec4).length } : Db) = .ok dbA4
  rw [show ∀ data : Bytes, appendFile dbR4.files dbR4.current data =
      [(FileName.seg (supW 0), []), (FileName.seg (supW 2), [] ++ data)]
    from fun _ => rfl]
  rw [List.nil_append,
    show dbR4.currentOffset = 0 from rfl, Nat.zero_add]
  rfl

theorem cstart_dbA4 : compactStart dbA4 0 = .ok dbB4 := rfl

theorem scanSegBuf_bigRec4 :
    scanSegBuf (encB bigRec4) = .ok [([107], 0), ([9], bufFill)] := by
  unfold scanSegBuf
  rw [show bigRec4 = newStringRecord [107] bigVal4 from rfl,
    encB_len_4214 107 bigVal4 bigVal4_len, scanGoSt_step,
    decodeFromReaderSt_cut 107 bigVal4 bigVal4_len]
  dsimp only [newStringRecord]
  rw [bigVal4_drop, show (4214 : Nat) = 4213 + 1 from rfl, scanGoSt_step,
    decodeFromReaderSt_small ghostRec ghostRec_wf
      (by rw [ghost_frame_len]; norm_num [bufFill])]
  dsimp only [ghostRec, newStringRecord]
  rw [show (4213 : Nat) = 4212 + 1 from rfl]
  exact scanGoSt_nil 4212 _ _

theorem rebuildIndexBuf_C4 :
    rebuildIndexBuf [FileName.seg (supW 1)] (some (FileName.seg (supW 2))) fs1C4 =
      .ok idxC4 := by
  have h1 : rebuildSegsBuf [FileName.seg (supW 1)] fs1C4 (fun _ => none) =
      .ok (mergeSeg (fun _ => none) (FileName.seg (supW 1)) []) := rfl
  unfold rebuildIndexBuf
  rw [h1, ebind_ok]
  dsimp only
  rw [show lookupFile fs1C4 (FileName.seg (supW 2)) = some (encB bigRec4) from rfl]
  dsimp only
  rw [scanSegBuf_bigRec4, ebind_ok]
  rfl

theorem cfinishBuf_dbB4 : compactFinishBuf dbB4 snapB4 .fnone = (dbC4, none) := by
  have hrw : rewriteSegsBuf dbB4.files snapB4.idx snapB4.segs = .ok [] := rfl
  have hreb : rebuildIndexBuf
      (FileName.seg snapB4.ts :: getNewSegments dbB4.segments snapB4.segs)
      (some dbB4.current)
      (setFile (removeFile dbB4.files .tmp) (.seg snapB4.ts) []) = .ok idxC4 := by
    show rebuildIndexBuf [FileName.seg (supW 1)] (some (FileName.seg (supW 2)))
      fs1C4 = .ok idxC4
    exact rebuildIndexBuf_C4
  have h := compactFinishBuf_fnone dbB4 snapB4 [] idxC4 hrw hreb
  rw [h]
  rfl

theorem execOpsBuf_opsC4 :
    execOpsBuf supW (initDb 1000 1 supW) opsC4 = .ok dbC4 := by
  rw [show opsC4 = Op.putS [107] bigVal4 :: [Op.cstart 0, Op.cfinish] from rfl]
  rw [execOpsBuf_cons_ok supW _ dbA4 _ _ (by
    show putRec supW (initDb 1000 1 supW) (newStringRecord [107] bigVal4) = .ok dbA4
    exact putRec_dbA4)]
  rw [execOpsBuf_cons_ok supW _ dbB4 _ _ (by
    show compactStart dbA4 0 = .ok dbB4
    exact cstart_dbA4)]
  rw [execOpsBuf_cons_ok supW _ dbC4 _ _ (by
    show (match dbB4.pending with
      | none => (Except.error DErr.invalidOp : Except DErr Db)
      | some snap => .ok (compactFinishBuf dbB4 snap .fnone).1) = .ok dbC4
    rw [show dbB4.pending = some snapB4 from rfl]
    dsimp only
    rw [cfinishBuf_dbB4])]
  rfl

theorem getRecBuf_dbC4 : getRecBuf dbC4 [107] =
    .ok (newStringRecord [107] (bigVal4.take 4082 ++ List.replicate 118 0)) := by
  unfold getRecBuf
  rw [show dbC4.index [107] = some ⟨FileName.seg (supW 2), 0⟩ from rfl]
  dsimp only
  rw [show lookupFile dbC4.files (FileName.seg (supW 2)) = some (encB bigRec4) from rfl]
  dsimp only
  rw [List.drop_zero]
  unfold decodeFromReaderBuf
  rw [show bigRec4 = newStringRecord [107] bigVal4 from rfl,
    cut4200 107 bigVal4 bigVal4_len]

/-- C4 is false of the code (a bug, not a spec error): a well-formed
history whose put (value 4200 bytes, frame 4214 bytes) rotates the empty
first segment and dispatches a compaction, followed by the compaction's
CAS and completion, runs to completion over the faithful buffered reader
— the swap happens, `pending` clears and the sealed list becomes exactly
the replacement segment — yet `get` of the put key, which was never
overwritten, returns a mangled record.  The index rebuild scan of the
4214-byte current segment zero-pads the first frame at one buffer fill
and then parses a ghost frame out of the value's remaining 118 bytes, so
the rebuilt index maps the put key to the zero-padded frame and a
never-written ghost key into the index. -/
theorem claim_C4_divergence :
    (∀ op ∈ opsC4, wfOp op = true) ∧
    ∃ s4, execOpsBuf supW (initDb 1000 1 supW) opsC4 = .ok s4 ∧
      s4.pending = none ∧
      s4.segments = [FileName.seg (supW 1)] ∧
      lastRec (putRecs opsC4) [107] = some bigRec4 ∧
      getRecBuf s4 [107] =
        .ok (newStringRecord [107] (bigVal4.take 4082 ++ List.replicate 118 0)) ∧
      getRecBuf s4 [107] ≠ .ok bigRec4 := by
  refine ⟨?_, dbC4, execOpsBuf_opsC4, rfl, rfl, rfl, getRecBuf_dbC4, ?_⟩
  · intro op hop
    have : op = Op.putS [107] bigVal4 ∨ op = Op.cstart 0 ∨ op = Op.cfinish := by
      simpa [opsC4] using hop
    rcases this with h | h | h <;> subst h
    · exact bigRec4_wf
    · rfl
    · rfl
  · rw [getRecBuf_dbC4]
    intro h
    have hrec : newStringRecord [107] (bigVal4.take 4082 ++ List.replicate 118 0) =
        bigRec4 := by
      injection h
    have hvals : Value.str (bigVal4.take 4082 ++ List.replicate 118 0) =
        Value.str bigVal4 := congrArg Record.value hrec
    have hlist : bigVal4.take 4082 ++ List.replicate 118 0 = bigVal4 := by
      injection hvals
    have hat := congrArg (fun l : Bytes => l[4082]?) hlist
    simp only [] at hat
    have hL : (bigVal4.take 4082 ++ List.replicate 118 0)[4082]? = some 0 := by
      rw [List.getElem?_append_right (by rw [List.length_take, bigVal4_len]; norm_num)]
      rw [List.length_take, bigVal4_len]
      norm_num [List.getElem?_replicate]
    have hR : bigVal4[4082]? = some 118 := by
      rw [bigVal4, List.getElem?_append_right (by rw [List.length_replicate])]
      rw [List.length_replicate, show (4082 : Nat) - 4082 = 0 from by norm_num]
      rfl
    rw [hL, hR] at hat
    cases hat

/-! ### Claim C5 -/

/-- **C5.** The timestamp a rotation hands to the dispatched compaction is
generated (`sup s.clock`) before the new active segment is created
(`sup (s.clock + 1)`), so it is chronologically older; and in every
reachable state each dispatched or pending reserved timestamp is older
than the active segment's timestamp and than every segment sealed after
the snapshot — the segments rotated during that compaction. -/
theorem claim_C5_reserved_timestamp (sup : Nat → Int)
    (hmono : ∀ i j, i < j → sup i < sup j) (maxSz thr : Nat) :
    (∀ s0 : Db, s0.compactionThreshold ≤ s0.segments.length + 1 →
      (rotateDispatch sup s0).dispatched = s0.dispatched ++ [sup s0.clock] ∧
      (rotateDispatch sup s0).current = FileName.seg (sup (s0.clock + 1)) ∧
      sup s0.clock < sup (s0.clock + 1)) ∧
    (∀ ops, (∀ op ∈ ops, wfOp op = true) → ∀ s',
      execOps sup (initDb maxSz thr sup) ops = .ok s' →
      (∀ t ∈ s'.dispatched, ∀ tc, s'.current = FileName.seg tc → t < tc) ∧
      (∀ snap, s'.pending = some snap →
        (∀ tc, s'.current = FileName.seg tc → snap.ts < tc) ∧
        (∀ f ∈ s'.segments, f ∉ snap.segs → ∀ t, f = FileName.seg t →
          snap.ts < t))) := by
  constructor
  · intro s0 hthr
    refine ⟨?_, rfl, hmono _ _ (by omega)⟩
    show (if s0.compactionThreshold ≤ (s0.segments ++ [s0.current]).length
      then s0.dispatched ++ [sup s0.clock] else s0.dispatched) = _
    rw [if_pos (show s0.compactionThreshold ≤ (s0.segments ++ [s0.current]).length
      by rw [List.length_append]; simpa using hthr)]
  · intro ops hwf s' hrun
    obtain ⟨inv0, _⟩ := init_inv sup maxSz thr
    obtain ⟨G', inv', _⟩ := execOps_inv sup hmono ops hwf _ _ inv0 s' hrun
    refine ⟨fun t ht => (inv'.disp_inv t ht).2.2, fun snap hpend => ?_⟩
    obtain ⟨_, _, _, hcurT, hsegsP, _, _⟩ := inv'.pend_inv snap hpend
    exact ⟨hcurT, hsegsP⟩

/-- Witness for C5: instantiated at the concrete oracle and the concrete
engine parameters of the concrete runs. -/
theorem claim_C5_reserved_timestamp_witness :
    (∀ s0 : Db, s0.compactionThreshold ≤ s0.segments.length + 1 →
      (rotateDispatch supW s0).dispatched = s0.dispatched ++ [supW s0.clock] ∧
      (rotateDispatch supW s0).current = FileName.seg (supW (s0.clock + 1)) ∧
      supW s0.clock < supW (s0.clock + 1)) ∧
    (∀ ops, (∀ op ∈ ops, wfOp op = true) → ∀ s',
      execOps supW (initDb 0 1 supW) ops = .ok s' →
      (∀ t ∈ s'.dispatched, ∀ tc, s'.current = FileName.seg tc → t < tc) ∧
      (∀ snap, s'.pending = some snap →
        (∀ tc, s'.current = FileName.seg tc → snap.ts < tc) ∧
        (∀ f ∈ s'.segments, f ∉ snap.segs → ∀ t, f = FileName.seg t →
          snap.ts < t))) :=
  claim_C5_reserved_timestamp supW supW_mono 0 1

/-! ### Claim C6 -/

/-- **C6.** If compaction fails at any step — the rewrite, the publish
rename, or the index rebuild during the swap — the engine state is fully
restored except that the `compacting` flag is cleared: the files (hence
segment list contents), the sealed list and the index are their pre-swap
values, the temporary file is gone, and the error stays in the
goroutine's return value, never failing a `put`. -/
theorem claim_C6_failure_handling (sup : Nat → Int) (s : Db) (G : Ghost)
    (inv : EngineInv sup s G) (snap : Snap) (hp : s.pending = some snap)
    (fault : CFault) (hfault : fault ≠ .fnone) :
    ∃ e, compactFinish s snap fault = ({ s with pending := none }, some e) ∧
      lookupFile (compactFinish s snap fault).1.files FileName.tmp = none ∧
      ∀ r, wfRecord r = true →
        ∃ s2, putRec sup (compactFinish s snap fault).1 r = .ok s2 := by
  obtain ⟨_, hGts, _, _, _, hpre, _, _, _, _, _, _⟩ := inv.pend_inv snap hp
  have hsnapsub : snap.segs ⊆ ordFiles s := by
    intro f hf
    unfold ordFiles
    rw [List.mem_append]
    refine Or.inl ?_
    rw [← hpre] at hf
    exact List.take_subset _ _ hf
  have hsegts_nord : FileName.seg snap.ts ∉ ordFiles s := by
    intro hmem
    have h := (inv.dom_eq _).mpr hmem
    rw [hGts] at h
    cases h
  have htmp_nord : FileName.tmp ∉ ordFiles s := tmp_not_ord sup s G inv
  have hGtmp : G .tmp = none := by
    cases hG : G FileName.tmp with
    | none => rfl
    | some x => exact absurd ((inv.dom_eq _).mp (by rw [hG]; rfl)) htmp_nord
  have hlook_tmp : lookupFile s.files .tmp = none := by
    rw [inv.files_eq, hGtmp]
    rfl
  have hname_ord : ∀ p ∈ s.files, p.1 ∈ ordFiles s := fun p hp' =>
    inv.files_perm.subset (List.mem_map_of_mem Prod.fst hp')
  have hrem_tmp : removeFile s.files .tmp = s.files :=
    removeFile_eq_self s.files FileName.tmp
      (fun p hp' hc => htmp_nord (hc ▸ hname_ord p hp'))
  have hrem_ts : removeFile s.files (.seg snap.ts) = s.files :=
    removeFile_eq_self s.files (FileName.seg snap.ts)
      (fun p hp' hc => hsegts_nord (hc ▸ hname_ord p hp'))
  have hrw : rewriteSegs s.files snap.idx snap.segs =
      .ok (concatFrames (liveRecs G snap.idx snap.segs)) :=
    rewriteSegs_frames G s.files snap.idx snap.segs
      (fun f _ => inv.files_eq f)
      (fun f hf => (inv.dom_eq f).mpr (hsnapsub hf))
      (fun f _ => inv.wf_all f)
  have hput : ∀ s3 : Db, ∀ r, wfRecord r = true →
      ∃ s2, putRec sup s3 r = .ok s2 := fun s3 r hwfr =>
    ⟨_, putRec_eq sup s3 r (encB r) (encB_of_wf r hwfr)⟩
  cases fault with
  | fnone => exact absurd rfl hfault
  | rewrite =>
    have heq : compactFinish s snap .rewrite =
        ({ s with pending := none }, some DErr.rewriteFault) := by
      show ({ s with pending := none, files := removeFile s.files FileName.tmp },
        some DErr.rewriteFault) = _
      rw [hrem_tmp]
    refine ⟨DErr.rewriteFault, heq, ?_, ?_⟩
    · rw [heq]
      show lookupFile s.files FileName.tmp = none
      exact hlook_tmp
    · intro r hwfr
      exact hput _ r hwfr
  | publish =>
    have heq : compactFinish s snap .publish =
        ({ s with pending := none }, some DErr.publishFault) := by
      show (match rewriteSegs s.files snap.idx snap.segs with
        | Except.error e =>
          ({ s with pending := none, files := removeFile s.files FileName.tmp },
            some e)
        | Except.ok _ =>
          ({ s with pending := none, files := removeFile s.files FileName.tmp },
            some DErr.publishFault)) = _
      rw [hrw, hrem_tmp]
    refine ⟨DErr.publishFault, heq, ?_, ?_⟩
    · rw [heq]
      show lookupFile s.files FileName.tmp = none
      exact hlook_tmp
    · intro r hwfr
      exact hput _ r hwfr
  | rebuild =>
    have hsingle : removeFile
        [(FileName.seg snap.ts, concatFrames (liveRecs G snap.idx snap.segs))]
        (FileName.seg snap.ts) = [] := by
      simp [removeFile]
    have hfiles : removeFile (setFile (removeFile s.files .tmp) (.seg snap.ts)
        (concatFrames (liveRecs G snap.idx snap.segs))) (.seg snap.ts) =
        s.files := by
      unfold setFile
      rw [hrem_tmp, removeFile_append, hrem_ts, hrem_ts, hsingle]
      exact List.append_nil _
    have heq : compactFinish s snap .rebuild =
        ({ s with pending := none }, some DErr.rebuildFault) := by
      unfold compactFinish
      rw [hrw]
      show (({ s with
          pending := none
          files := removeFile
            (setFile (removeFile s.files FileName.tmp) (FileName.seg snap.ts)
              (concatFrames (liveRecs G snap.idx snap.segs)))
            (FileName.seg snap.ts) } : Db),
        (some DErr.rebuildFault : Option DErr)) = _
      rw [hfiles]
    refine ⟨DErr.rebuildFault, heq, ?_, ?_⟩
    · rw [heq]
      show lookupFile s.files FileName.tmp = none
      exact hlook_tmp
    · intro r hwfr
      exact hput _ r hwfr

/-- Witness for C6: the concrete claimed-compaction state `d6`, failed at
the rewrite step. -/
theorem claim_C6_failure_handling_witness :
    ∃ e, compactFinish d6 snap6 CFault.rewrite =
        ({ d6 with pending := none }, some e) ∧
      lookupFile (compactFinish d6 snap6 CFault.rewrite).1.files
        FileName.tmp = none ∧
      ∀ r, wfRecord r = true →
        ∃ s2, putRec supW (compactFinish d6 snap6 CFault.rewrite).1 r =
          .ok s2 := by
  obtain ⟨inv0, _⟩ := init_inv supW 0 1
  obtain ⟨G', hinv, _⟩ :=
    execOps_inv supW supW_mono pre6 (by decide) _ _ inv0 d6 rfl
  exact claim_C6_failure_handling supW d6 G' hinv snap6 rfl
    CFault.rewrite (by decide)

end Lab5
